import Mathlib

/-!
# The `prefer-takeuntil` rule of eslint-plugin-rxjs-angular

A shallow embedding of `src/dist/rules/prefer-takeuntil.js`.

* Syntax-tree nodes are values of `Node` (and of the records `CallExpr`,
  `PropertyDefinition`, `MethodDefinition`, `Decorator`, `ClassDeclaration`), each with a
  field `nid` standing for the identity of the JavaScript object.
* `context.report(descriptor)` appends a `Descriptor` to the list of reports.
* A JavaScript `Map` is an association list in insertion order (`mapGet`, `mapSet`); a
  `Set` of strings is a duplicate-free list in insertion order (`setAdd`).
* A `TypeError` (a method called on `undefined`) is the result `none`.
* The type oracle `couldBeObservable` is a parameter `oracle : Node → Bool`.
* A traversal is the list of the visitor calls it makes (`Event`, one constructor per
  selector of the rule); `visit` is one call and `run` a whole traversal. The stack
  `entries` is a list with the top frame first.
-/

namespace PreferTakeuntil

/-! ## Syntax tree -/

/-- ESTree expressions, as far as the rule inspects them; `nid` is the node identity. -/
inductive Node where
  | Identifier (nid : Nat) (name : String)
  | PrivateIdentifier (nid : Nat) (name : String)
  | ThisExpression (nid : Nat)
  | MemberExpression (nid : Nat) (object : Node) (property : Node)
  | CallExpression (nid : Nat) (callee : Node) (arguments : List Node)
  | Other (nid : Nat)

/-- Identity of a node. -/
def Node.nid : Node → Nat
  | .Identifier i _ => i
  | .PrivateIdentifier i _ => i
  | .ThisExpression i => i
  | .MemberExpression i _ _ => i
  | .CallExpression i _ _ => i
  | .Other i => i

/-- The JavaScript property read `node.name`: defined for the two identifier kinds. -/
def Node.name? : Node → Option String
  | .Identifier _ n => some n
  | .PrivateIdentifier _ n => some n
  | _ => none

/-- A node of type `CallExpression`, as handed to the call visitors. -/
structure CallExpr where
  nid : Nat
  callee : Node
  arguments : List Node

/-- A node of type `PropertyDefinition`. -/
structure PropertyDefinition where
  nid : Nat
  key : Node

/-- A node of type `MethodDefinition`. -/
structure MethodDefinition where
  nid : Nat
  key : Node

/-- A node of type `Decorator`. -/
structure Decorator where
  nid : Nat
  expression : Node

/-- A node of type `ClassDeclaration`: `id` may be `null`, `decorators` may be absent. -/
structure ClassDeclaration where
  nid : Nat
  id : Option Node
  decorators : Option (List Decorator)
  superClass : Option Node

/-! ## Reports -/

/-- The message identifiers of the rule. -/
inductive MessageId where
  | noDestroy
  | noTakeUntil
  | notCalled
  | notDeclared
deriving DecidableEq, Repr

/-- A report descriptor: `node` is the identity of the reported node, `name` and `method`
are the fields of `data` (absent when the descriptor has none). -/
structure Descriptor where
  messageId : MessageId
  node : Nat
  name : Option String
  method : Option String
deriving DecidableEq, Repr

/-! ## Configuration -/

/-- The options object as supplied: every field may be omitted. The field `aliases` is the
option `alias` (a reserved word here). -/
structure Config where
  aliases : Option (List String)
  checkComplete : Option Bool
  checkDecorators : Option (List String)
  checkDestroy : Option Bool
  superClass : Option (List String)

/-- The five constants destructured from the options object in `create`. -/
structure Options where
  aliases : List String
  checkComplete : Bool
  checkDecorators : List String
  checkDestroy : Bool
  superClass : List String
deriving DecidableEq, Repr

/-- The empty options object. -/
def Config.empty : Config := ⟨none, none, none, none, none⟩

/-- Lines 49-56: `const [config = {}] = context.options` and the destructuring defaults. -/
def resolve (options : List Config) : Options :=
  let config : Config :=
    match options with
    | [] => Config.empty
    | c :: _ => c
  let aliases : List String :=
    match config.aliases with
    | none => []
    | some a => a
  let checkComplete : Bool :=
    match config.checkComplete with
    | none => false
    | some b => b
  let checkDecorators : List String :=
    match config.checkDecorators with
    | none => ["Component"]
    | some d => d
  let checkDestroy : Bool :=
    match config.checkDestroy with
    | none => aliases.length == 0
    | some b => b
  let superClass : List String :=
    match config.superClass with
    | none => []
    | some s => s
  ⟨aliases, checkComplete, checkDecorators, checkDestroy, superClass⟩

/-! ## JavaScript `Map` and `Set` -/

/-- The method `Map.prototype.get`: `none` is `undefined`. -/
def mapGet {κ β : Type} [DecidableEq κ] : List (κ × β) → κ → Option β
  | [], _ => none
  | (k', v) :: m, k => if k' = k then some v else mapGet m k

/-- The method `Map.prototype.set`: an existing key keeps its place. -/
def mapSet {κ β : Type} [DecidableEq κ] : List (κ × β) → κ → β → List (κ × β)
  | [], k, v => [(k, v)]
  | (k', v') :: m, k, v => if k' = k then (k', v) :: m else (k', v') :: mapSet m k v

/-- The method `Set.prototype.add`. -/
def setAdd (s : List String) (x : String) : List String :=
  if x ∈ s then s else s ++ [x]

/-! ## The frame of a class -/

/-- The record pushed on `entries` for a class declaration. -/
structure Entry where
  classDeclaration : ClassDeclaration
  propertyDefinitions : List PropertyDefinition
  completeCallExpressions : List CallExpr
  nextCallExpressions : List CallExpr
  hasDecorator : Bool
  subscribeCallExpressions : List CallExpr
  subscribeCallExpressionsToNames : List (Nat × List String)
  ngOnDestroyDefinition : Option MethodDefinition
  extendsSuperClassDeclaration : Option ClassDeclaration

/-- The value of `found` and `name` returned by `checkOperator`. -/
structure OperatorResult where
  found : Bool
  name : Option String
deriving DecidableEq, Repr

/-- Lines 152-175. -/
def checkOperator (cfg : Options) (callExpression : Node) : OperatorResult :=
  match callExpression with
  | .CallExpression _ (.Identifier _ calleeName) arguments =>
    if calleeName = "takeUntil" ∨ calleeName ∈ cfg.aliases then
      match arguments.head? with
      | some (.MemberExpression _ (.ThisExpression _) (.Identifier _ name)) => ⟨true, some name⟩
      | some (.Identifier _ name) => ⟨true, some name⟩
      | _ => if !cfg.checkDestroy then ⟨true, none⟩ else ⟨false, none⟩
    else ⟨false, none⟩
  | _ => ⟨false, none⟩

/-- The predicate handed to `find` in `checkSubjectCall` (lines 178-186). -/
def targets (name : String) (callExpression : CallExpr) : Bool :=
  match callExpression.callee with
  | .MemberExpression _ (.Identifier _ n) _ => n = name
  | .MemberExpression _ (.MemberExpression _ (.ThisExpression _) (.Identifier _ n)) _ => n = name
  | _ => false

/-- Lines 176-189. -/
def checkSubjectCall (name : String) (callExpressions : List CallExpr) : Bool :=
  (callExpressions.find? (targets name)).isSome

/-- Lines 190-196. -/
def checkSubjectProperty (name : String) (entry : Entry) : Bool :=
  (entry.propertyDefinitions.find? (fun propertyDefinition =>
    propertyDefinition.key.name? = some name)).isSome

/-- The test of lines 206-211: the operators of `object` when it is a call of a member
named `pipe`. -/
def pipeOperators : Node → Option (List Node)
  | .CallExpression _ (.MemberExpression _ _ (.Identifier _ name)) operators =>
    if name = "pipe" then some operators else none
  | _ => none

/-- The loop `operators.forEach` of lines 213-221 over `takeUntilFound` and the set
`names` (`none` when `names` is `undefined`); the result `none` is the `TypeError` of
`names.add` on `undefined`. -/
def scanOperators (cfg : Options) :
    List Node → Bool → Option (List String) → Option (Bool × Option (List String))
  | [], takeUntilFound, names => some (takeUntilFound, names)
  | operator :: rest, takeUntilFound, names =>
    match operator with
    | .CallExpression _ _ _ =>
      let r := checkOperator cfg operator
      match r.name with
      | some name =>
        if name = "" then scanOperators cfg rest (takeUntilFound || r.found) names
        else
          match names with
          | none => none
          | some s => scanOperators cfg rest (takeUntilFound || r.found) (some (setAdd s name))
      | none => scanOperators cfg rest (takeUntilFound || r.found) names
    | _ => scanOperators cfg rest takeUntilFound names

/-- Lines 197-229. The set fetched from the map is mutated in place: it is written back
under its key. -/
def checkSubscribe (cfg : Options) (callExpression : CallExpr) (entry : Entry)
    (reports : List Descriptor) : Option (Entry × List Descriptor) :=
  let names := mapGet entry.subscribeCallExpressionsToNames callExpression.nid
  match callExpression.callee with
  | .MemberExpression _ object property =>
    let scanned :=
      match pipeOperators object with
      | some operators => scanOperators cfg operators false names
      | none => some (false, names)
    match scanned with
    | none => none
    | some (takeUntilFound, names') =>
      let entry' : Entry :=
        match names' with
        | some s =>
          { entry with
            subscribeCallExpressionsToNames :=
              mapSet entry.subscribeCallExpressionsToNames callExpression.nid s }
        | none => entry
      if takeUntilFound then some (entry', reports)
      else some (entry', reports ++ [⟨MessageId.noTakeUntil, property.nid, none, none⟩])
  | _ => some (entry, reports)

/-! ## The teardown verification -/

/-- The record stored in `namesToChecks`. -/
structure Check where
  descriptors : List Descriptor
  report : Bool
deriving DecidableEq, Repr

/-- Lines 102-105: the set of the names of all subscriptions. -/
def collectNames (m : List (Nat × List String)) : List String :=
  m.foldl (fun names kv => kv.2.foldl setAdd names) []

/-- The node `classDeclaration.id ?? classDeclaration` of lines 94-97 and 117-120. -/
def classNode (c : ClassDeclaration) : Nat :=
  match c.id with
  | some i => i.nid
  | none => c.nid

/-- Lines 113-136: the descriptors pushed for one name. -/
def nameDescriptors (cfg : Options) (entry : Entry) (ngOnDestroyDefinition : MethodDefinition)
    (name : String) : List Descriptor :=
  (if !checkSubjectProperty name entry then
      [⟨MessageId.notDeclared, classNode entry.classDeclaration, some name, none⟩]
    else []) ++
  (if !checkSubjectCall name entry.nextCallExpressions then
      [⟨MessageId.notCalled, ngOnDestroyDefinition.key.nid, some name, some "next"⟩]
    else []) ++
  (if cfg.checkComplete && !checkSubjectCall name entry.completeCallExpressions then
      [⟨MessageId.notCalled, ngOnDestroyDefinition.key.nid, some name, some "complete"⟩]
    else [])

/-- Lines 106-137: `namesToChecks` after the loop over `names`. -/
def buildChecks (cfg : Options) (entry : Entry) (ngOnDestroyDefinition : MethodDefinition)
    (names : List String) : List (String × Check) :=
  names.foldl
    (fun namesToChecks name =>
      mapSet namesToChecks name ⟨nameDescriptors cfg entry ngOnDestroyDefinition name, false⟩)
    []

/-- Lines 139-141: `[...names].every(...)`, stopping at the first name without descriptors;
`none` is the `TypeError` of reading `descriptors` of `undefined`. -/
def everyHasDescriptors (namesToChecks : List (String × Check)) : List String → Option Bool
  | [] => some true
  | name :: rest =>
    match mapGet namesToChecks name with
    | none => none
    | some check =>
      if check.descriptors.length > 0 then everyHasDescriptors namesToChecks rest
      else some false

/-- Line 143: `names.forEach((name) => (namesToChecks.get(name).report = true))`. -/
def markReport : List (String × Check) → List String → Option (List (String × Check))
  | namesToChecks, [] => some namesToChecks
  | namesToChecks, name :: rest =>
    match mapGet namesToChecks name with
    | none => none
    | some check => markReport (mapSet namesToChecks name ⟨check.descriptors, true⟩) rest

/-- Lines 138-145: the loop over the subscriptions. -/
def aggregate : List (Nat × List String) → List (String × Check) →
    Option (List (String × Check))
  | [], namesToChecks => some namesToChecks
  | (_, names) :: rest, namesToChecks =>
    match everyHasDescriptors namesToChecks names with
    | none => none
    | some true =>
      match markReport namesToChecks names with
      | none => none
      | some marked => aggregate rest marked
    | some false => aggregate rest namesToChecks

/-- Lines 146-150: the descriptors of the checks marked `report`, in map order. -/
def emitChecks : List (String × Check) → List Descriptor
  | [] => []
  | (_, check) :: rest =>
    if check.report then check.descriptors ++ emitChecks rest else emitChecks rest

/-- Lines 75-151: the descriptors reported by `checkNgOnDestroy`. -/
def checkNgOnDestroy (cfg : Options) (entry : Entry) : Option (List Descriptor) :=
  if entry.subscribeCallExpressionsToNames.length = 0 then some []
  else
    match entry.ngOnDestroyDefinition with
    | none =>
      match entry.extendsSuperClassDeclaration with
      | some _ => some []
      | none => some [⟨MessageId.noDestroy, classNode entry.classDeclaration, none, none⟩]
    | some ngOnDestroyDefinition =>
      let names := collectNames entry.subscribeCallExpressionsToNames
      let namesToChecks := buildChecks cfg entry ngOnDestroyDefinition names
      match aggregate entry.subscribeCallExpressionsToNames namesToChecks with
      | none => none
      | some marked => some (emitChecks marked)

/-- The loop `subscribeCallExpressions.forEach` of lines 60-70. -/
def checkSubscribes (cfg : Options) (oracle : Node → Bool) :
    List CallExpr → Entry → List Descriptor → Option (Entry × List Descriptor)
  | [], entry, reports => some (entry, reports)
  | callExpression :: rest, entry, reports =>
    match callExpression.callee with
    | .MemberExpression _ object _ =>
      if oracle object then
        match checkSubscribe cfg callExpression entry reports with
        | none => none
        | some (entry', reports') => checkSubscribes cfg oracle rest entry' reports'
      else checkSubscribes cfg oracle rest entry reports
    | _ => checkSubscribes cfg oracle rest entry reports

/-- Lines 58-74: the frame after the check and the reports, appended to `reports`. -/
def checkEntry (cfg : Options) (oracle : Node → Bool) (entry : Entry)
    (reports : List Descriptor) : Option (Entry × List Descriptor) :=
  match checkSubscribes cfg oracle entry.subscribeCallExpressions entry reports with
  | none => none
  | some (entry', reports') =>
    if cfg.checkDestroy then
      match checkNgOnDestroy cfg entry' with
      | none => none
      | some out => some (entry', reports' ++ out)
    else some (entry', reports')

/-! ## The visitors -/

/-- Lines 234-250. -/
def hasDecorator (cfg : Options) (node : ClassDeclaration) : Bool :=
  match node.decorators with
  | none => false
  | some decorators =>
    decorators.any fun decorator =>
      match decorator.expression with
      | .CallExpression _ (.Identifier _ name) _ =>
        cfg.checkDecorators.any fun check => name = check
      | _ => false

/-- A visitor call of the traversal, one constructor per selector of lines 255-315:
`subscribeCall` for `CallExpression[callee.property.name='subscribe']`, `classDeclaration`
and `classDeclarationExit` for `ClassDeclaration` and `ClassDeclaration:exit`,
`propertyDefinition` for `PropertyDefinition`, `ngOnDestroy` for the method definition
named `ngOnDestroy`, `extendsSuperClass` for the selector built from `superClass`,
`nextCall` and `completeCall` for the calls of `next` and `complete` inside `ngOnDestroy`.
Which nodes match a selector, and in which order, is decided by the traversal. -/
inductive Event where
  | subscribeCall (node : CallExpr)
  | classDeclaration (node : ClassDeclaration)
  | classDeclarationExit (node : ClassDeclaration)
  | propertyDefinition (node : PropertyDefinition)
  | ngOnDestroy (node : MethodDefinition)
  | extendsSuperClass (node : ClassDeclaration)
  | nextCall (node : CallExpr)
  | completeCall (node : CallExpr)

/-- The closure state of `create`: the stack `entries` (its last element first) and the
reports made so far. -/
structure State where
  entries : List Entry
  reports : List Descriptor

/-- The state in which the traversal starts. -/
def State.init : State := ⟨[], []⟩

/-- The body shared by the collecting visitors: `getEntry()` (lines 230-233), the test
`entry && entry.hasDecorator`, and the update of that frame. -/
def onEntry (st : State) (f : Entry → Entry) : State :=
  match st.entries with
  | [] => st
  | entry :: rest => if entry.hasDecorator then ⟨f entry :: rest, st.reports⟩ else st

/-- Lines 251-316: one visitor call; `none` when it throws. -/
def visit (cfg : Options) (oracle : Node → Bool) (st : State) : Event → Option State
  | .subscribeCall node =>
    some (onEntry st fun entry =>
      { entry with
        subscribeCallExpressions := entry.subscribeCallExpressions ++ [node]
        subscribeCallExpressionsToNames :=
          mapSet entry.subscribeCallExpressionsToNames node.nid [] })
  | .classDeclaration node =>
    some ⟨⟨node, [], [], [], hasDecorator cfg node, [], [], none, none⟩ :: st.entries,
      st.reports⟩
  | .classDeclarationExit _ =>
    match st.entries with
    | [] => some st
    | entry :: rest =>
      if entry.hasDecorator then
        match checkEntry cfg oracle entry st.reports with
        | none => none
        | some (_, reports) => some ⟨rest, reports⟩
      else some ⟨rest, st.reports⟩
  | .propertyDefinition node =>
    some (onEntry st fun entry =>
      { entry with propertyDefinitions := entry.propertyDefinitions ++ [node] })
  | .ngOnDestroy node =>
    some (onEntry st fun entry => { entry with ngOnDestroyDefinition := some node })
  | .extendsSuperClass node =>
    if cfg.superClass.length = 0 then some st
    else some (onEntry st fun entry => { entry with extendsSuperClassDeclaration := some node })
  | .nextCall node =>
    some (onEntry st fun entry =>
      { entry with nextCallExpressions := entry.nextCallExpressions ++ [node] })
  | .completeCall node =>
    some (onEntry st fun entry =>
      { entry with completeCallExpressions := entry.completeCallExpressions ++ [node] })

/-- The visitor calls of a traversal, in order. -/
def run (cfg : Options) (oracle : Node → Bool) : State → List Event → Option State
  | st, [] => some st
  | st, ev :: rest =>
    match visit cfg oracle st ev with
    | none => none
    | some st' => run cfg oracle st' rest


/-! ## Closed forms used in the proofs -/

/-- The map `namesToChecks` whose keys are `names`, with descriptors `desc` and report
flags `r`. -/
def checksOf (desc : String → List Descriptor) (r : String → Bool) (names : List String) :
    List (String × Check) :=
  names.map fun n => (n, ⟨desc n, r n⟩)

/-- Every name of the set `s` has at least one descriptor. -/
def uncovered (desc : String → List Descriptor) (s : List String) : Bool :=
  s.all fun u => decide (0 < (desc u).length)

/-- Some subscription of the map `m` references `x` and is uncovered. -/
def reportFlag (desc : String → List Descriptor) (m : List (Nat × List String))
    (x : String) : Bool :=
  m.any fun kv => decide (x ∈ kv.2) && uncovered desc kv.2

/-- The names that `scanOperators` adds, in order. -/
def operatorNames (cfg : Options) : List Node → List String
  | [] => []
  | operator :: rest =>
    match operator with
    | .CallExpression _ _ _ =>
      match (checkOperator cfg operator).name with
      | some name => if name = "" then operatorNames cfg rest else name :: operatorNames cfg rest
      | none => operatorNames cfg rest
    | _ => operatorNames cfg rest

/-- Some operator that is a call has `found` set by `checkOperator`. -/
def operatorsFound (cfg : Options) : List Node → Bool
  | [] => false
  | operator :: rest =>
    match operator with
    | .CallExpression _ _ _ => (checkOperator cfg operator).found || operatorsFound cfg rest
    | _ => operatorsFound cfg rest

/-- The operators scanned for a receiver: none when it is not a `pipe` call. -/
def receiverOperators (object : Node) : List Node :=
  match pipeOperators object with
  | some operators => operators
  | none => []

/-- The reports of `checkEntry` on account of one collected call. -/
def subscribeReports (cfg : Options) (oracle : Node → Bool) (c : CallExpr) : List Descriptor :=
  match c.callee with
  | .MemberExpression _ object property =>
    if oracle object && !operatorsFound cfg (receiverOperators object) then
      [⟨MessageId.noTakeUntil, property.nid, none, none⟩]
    else []
  | _ => []

/-- The map of names after `checkEntry` has handled one collected call. -/
def subscribeNames (cfg : Options) (oracle : Node → Bool) (m : List (Nat × List String))
    (c : CallExpr) : List (Nat × List String) :=
  match c.callee with
  | .MemberExpression _ object _ =>
    if oracle object then
      match mapGet m c.nid with
      | some s => mapSet m c.nid ((operatorNames cfg (receiverOperators object)).foldl setAdd s)
      | none => m
    else m
  | _ => m

/-- The frame is as the visitors leave it: its map of names has been filled by the
`subscribe` visitor alone, one empty set per collected call. -/
def Entry.Collected (e : Entry) : Prop :=
  e.subscribeCallExpressionsToNames
    = e.subscribeCallExpressions.foldl (fun m c => mapSet m c.nid []) []

/-- The frame with another map of names. -/
def Entry.withNames (e : Entry) (m : List (Nat × List String)) : Entry :=
  { e with subscribeCallExpressionsToNames := m }

instance (e : Entry) : Decidable e.Collected := by
  unfold Entry.Collected
  infer_instance

/-- The call has the shape `T.m()` or `this.T.m()`. -/
def IsCallOn (T : String) (c : CallExpr) : Prop :=
  (∃ i j p, c.callee = .MemberExpression i (.Identifier j T) p) ∨
  (∃ i j k l p,
    c.callee = .MemberExpression i (.MemberExpression j (.ThisExpression k) (.Identifier l T)) p)

/-- Two expressions that are the same, or the two forms `this.T` and `T` of one token. -/
inductive SameToken : Node → Node → Prop where
  | same (a : Node) : SameToken a a
  | bare (i j k l : Nat) (T : String) :
    SameToken (.MemberExpression i (.ThisExpression j) (.Identifier k T)) (.Identifier l T)
  | this (i j k l : Nat) (T : String) :
    SameToken (.Identifier l T) (.MemberExpression i (.ThisExpression j) (.Identifier k T))

/-- Two operators that are the same, or differ in the form of the tokens that are their
arguments. -/
inductive SameOperator : Node → Node → Prop where
  | same (a : Node) : SameOperator a a
  | arguments (i : Nat) (callee : Node) (args args' : List Node) :
    List.Forall₂ SameToken args args' →
    SameOperator (.CallExpression i callee args) (.CallExpression i callee args')

/-- Two `subscribe` calls that are the same, or differ in the form of the tokens of the
operators of the receiver. -/
inductive SameSubscribe : CallExpr → CallExpr → Prop where
  | same (c : CallExpr) : SameSubscribe c c
  | operators (n i j : Nat) (callee property : Node) (ops ops' : List Node)
      (args : List Node) :
    List.Forall₂ SameOperator ops ops' →
    SameSubscribe ⟨n, .MemberExpression i (.CallExpression j callee ops) property, args⟩
      ⟨n, .MemberExpression i (.CallExpression j callee ops') property, args⟩

/-- Two teardown calls that are the same, or differ in the form of the token they are
called on. -/
inductive SameTeardown : CallExpr → CallExpr → Prop where
  | same (c : CallExpr) : SameTeardown c c
  | object (n i : Nat) (a b property : Node) (args : List Node) :
    SameToken a b →
    SameTeardown ⟨n, .MemberExpression i a property, args⟩
      ⟨n, .MemberExpression i b property, args⟩

/-- The answer of the oracle on the receiver of a call. -/
def receiverVerdict (oracle : Node → Bool) (c : CallExpr) : Bool :=
  match c.callee with
  | .MemberExpression _ object _ => oracle object
  | _ => false

/-- Two frames that differ only in the form, `this.T` or `T`, of operator arguments and of
the objects of the teardown calls. -/
structure SameFrame (e e' : Entry) : Prop where
  classDeclaration : e'.classDeclaration = e.classDeclaration
  propertyDefinitions : e'.propertyDefinitions = e.propertyDefinitions
  hasDecorator : e'.hasDecorator = e.hasDecorator
  names : e'.subscribeCallExpressionsToNames = e.subscribeCallExpressionsToNames
  ngOnDestroyDefinition : e'.ngOnDestroyDefinition = e.ngOnDestroyDefinition
  extendsSuperClassDeclaration :
    e'.extendsSuperClassDeclaration = e.extendsSuperClassDeclaration
  subscribes : List.Forall₂ SameSubscribe e.subscribeCallExpressions e'.subscribeCallExpressions
  nexts : List.Forall₂ SameTeardown e.nextCallExpressions e'.nextCallExpressions
  completes : List.Forall₂ SameTeardown e.completeCallExpressions e'.completeCallExpressions

/-! ## The words of the claims on operators -/

/-- The receiver is a call `x.pipe(operators)`. -/
def IsPipeCall (object : Node) (operators : List Node) : Prop :=
  ∃ i j x k, object = .CallExpression i (.MemberExpression j x (.Identifier k "pipe")) operators

/-- The operator is a call of `takeUntil` or of an alias whose first argument is `this.N`
or the identifier `N`. -/
def NamesToken (cfg : Options) (operator : Node) (N : String) : Prop :=
  ∃ i j name args, operator = .CallExpression i (.Identifier j name) args ∧
    (name = "takeUntil" ∨ name ∈ cfg.aliases) ∧
    ((∃ k l m rest, args = .MemberExpression k (.ThisExpression l) (.Identifier m N) :: rest) ∨
      (∃ k rest, args = .Identifier k N :: rest))

/-- The operator qualifies: it is a call of `takeUntil` or of an alias, and its first
argument names a token or `checkDestroy` is unset. -/
def Qualifies (cfg : Options) (operator : Node) : Prop :=
  ∃ i j name args, operator = .CallExpression i (.Identifier j name) args ∧
    (name = "takeUntil" ∨ name ∈ cfg.aliases) ∧
    ((∃ N, NamesToken cfg operator N) ∨ cfg.checkDestroy = false)

/-! ## Well-nested traversals -/

/-- The visitor call is the entry or the exit of a class declaration. -/
def Event.isClassEvent : Event → Bool
  | .classDeclaration _ => true
  | .classDeclarationExit _ => true
  | _ => false

/-- The visitor calls made inside a class body (or at the top of a file): calls that
collect evidence, and whole class declarations, each an entry, a well-nested body and the
exit of the same node. -/
inductive WellNested : List Event → Prop where
  | nil : WellNested []
  | evidence (ev : Event) (rest : List Event) :
    ev.isClassEvent = false → WellNested rest → WellNested (ev :: rest)
  | cls (node : ClassDeclaration) (body rest : List Event) :
    WellNested body → WellNested rest →
    WellNested (.classDeclaration node :: (body ++ .classDeclarationExit node :: rest))

/-- The visitor calls that remain when every class declaration is removed with all that
it contains; `depth` is the number of removed classes that are open. -/
def stripClasses : Nat → List Event → List Event
  | _, [] => []
  | depth, .classDeclaration _ :: rest => stripClasses (depth + 1) rest
  | depth, .classDeclarationExit _ :: rest => stripClasses (depth - 1) rest
  | depth, ev :: rest =>
    if depth = 0 then ev :: stripClasses depth rest else stripClasses depth rest

/-! ## Concrete classes -/

namespace Sample

/-- The expression `this.<name>`. -/
def thisMember (i : Nat) (name : String) : Node :=
  .MemberExpression i (.ThisExpression (i + 1)) (.Identifier (i + 2) name)

/-- The operator `takeUntil(this.<name>)`. -/
def takeUntilThis (i : Nat) (name : String) : Node :=
  .CallExpression i (.Identifier (i + 1) "takeUntil") [thisMember (i + 2) name]

/-- The operator `takeUntil(<name>)`. -/
def takeUntilBare (i : Nat) (name : String) : Node :=
  .CallExpression i (.Identifier (i + 1) "takeUntil") [.Identifier (i + 5) name]

/-- The operator `untilDestroyed()`. -/
def untilDestroyed (i : Nat) : Node :=
  .CallExpression i (.Identifier (i + 1) "untilDestroyed") []

/-- The call `<source>.pipe(<operators>).subscribe()`. -/
def pipedSubscribe (i : Nat) (source : String) (operators : List Node) : CallExpr :=
  ⟨i, .MemberExpression (i + 1)
        (.CallExpression (i + 2)
          (.MemberExpression (i + 3) (.Identifier (i + 4) source) (.Identifier (i + 5) "pipe"))
          operators)
        (.Identifier (i + 6) "subscribe"), []⟩

/-- The call `<source>.subscribe()`. -/
def plainSubscribe (i : Nat) (source : String) : CallExpr :=
  ⟨i, .MemberExpression (i + 1) (.Identifier (i + 2) source) (.Identifier (i + 3) "subscribe"),
    []⟩

/-- The call `this.<name>.<method>()`. -/
def thisCall (i : Nat) (name method : String) : CallExpr :=
  ⟨i, .MemberExpression (i + 1) (thisMember (i + 2) name) (.Identifier (i + 5) method), []⟩

/-- The class `@Component() class C`. -/
def component : ClassDeclaration :=
  ⟨1, some (.Identifier 2 "C"),
    some [⟨3, .CallExpression 4 (.Identifier 5 "Component") []⟩], none⟩

/-- The class `class P` without decorators. -/
def plainClass : ClassDeclaration := ⟨1, some (.Identifier 2 "P"), none, none⟩

/-- The class `@Injectable() class Q`. -/
def injectable : ClassDeclaration :=
  ⟨100, some (.Identifier 101 "Q"),
    some [⟨102, .CallExpression 103 (.Identifier 104 "Injectable") []⟩], none⟩

/-- The method `ngOnDestroy`. -/
def ngOnDestroy : MethodDefinition := ⟨90, .Identifier 91 "ngOnDestroy"⟩

/-- The property `A`. -/
def propertyA : PropertyDefinition := ⟨80, .Identifier 81 "A"⟩

/-- The oracle that affirms every expression. -/
def always : Node → Bool := fun _ => true

/-- The options `{ alias: ["untilDestroyed"] }`. -/
def aliasConfig : Config := ⟨some ["untilDestroyed"], none, none, none, none⟩

/-- The frame on top of the stack after the visitor calls `events` (under the oracle
`always`), as `checkEntry` receives it at the exit of the class. -/
def frameOf (cfg : Options) (events : List Event) : Entry :=
  match run cfg always State.init events with
  | some ⟨entry :: _, _⟩ => entry
  | _ => ⟨plainClass, [], [], [], false, [], [], none, none⟩

/-- A component with property `A`, `this.A.next()` in `ngOnDestroy`, and the two
subscriptions `a.pipe(takeUntil(this.A))` and `b.pipe(takeUntil(this.A), takeUntil(this.B))`:
the visitor calls up to the exit of the class. -/
def coveredBody : List Event :=
  [.classDeclaration component, .propertyDefinition propertyA,
   .subscribeCall (pipedSubscribe 10 "a" [takeUntilThis 20 "A"]),
   .subscribeCall (pipedSubscribe 30 "b" [takeUntilThis 40 "A", takeUntilThis 50 "B"]),
   .ngOnDestroy ngOnDestroy, .nextCall (thisCall 60 "A" "next")]

/-- A component with `ngOnDestroy` and two subscriptions, each `takeUntil(this.B)`, where
`B` is neither declared nor triggered. -/
def uncoveredBody : List Event :=
  [.classDeclaration component,
   .subscribeCall (pipedSubscribe 10 "a" [takeUntilThis 20 "B"]),
   .subscribeCall (pipedSubscribe 30 "b" [takeUntilThis 40 "B"]),
   .ngOnDestroy ngOnDestroy]

/-- A component with property `A`, `this.A.next()` in `ngOnDestroy`, and the two
subscriptions `a.pipe(takeUntil(this.B))` and `b.pipe(takeUntil(this.A), takeUntil(this.B))`. -/
def mixedBody : List Event :=
  [.classDeclaration component, .propertyDefinition propertyA,
   .subscribeCall (pipedSubscribe 10 "a" [takeUntilThis 20 "B"]),
   .subscribeCall (pipedSubscribe 30 "b" [takeUntilThis 40 "A", takeUntilThis 50 "B"]),
   .ngOnDestroy ngOnDestroy, .nextCall (thisCall 60 "A" "next")]

/-- A component with the single call `a.subscribe()` and no `ngOnDestroy`. -/
def plainBody : List Event :=
  [.classDeclaration component, .subscribeCall (plainSubscribe 10 "a")]

/-- A component with the single call `a.pipe(untilDestroyed()).subscribe()` and no
`ngOnDestroy`. -/
def aliasBody : List Event :=
  [.classDeclaration component, .subscribeCall (pipedSubscribe 10 "a" [untilDestroyed 20])]

/-- A component with property `A`, the single call `a.pipe(takeUntil(this.A)).subscribe()`
and an empty `ngOnDestroy`. -/
def untriggeredBody : List Event :=
  [.classDeclaration component, .propertyDefinition propertyA,
   .subscribeCall (pipedSubscribe 10 "a" [takeUntilThis 20 "A"]),
   .ngOnDestroy ngOnDestroy]

/-- The class of `untriggeredBody` with the operator written `takeUntil(A)`. -/
def untriggeredBareBody : List Event :=
  [.classDeclaration component, .propertyDefinition propertyA,
   .subscribeCall (pipedSubscribe 10 "a" [takeUntilBare 20 "A"]),
   .ngOnDestroy ngOnDestroy]

/-- A file whose outer class has no decorator and holds `a.subscribe()`, a property and a
nested class `@Injectable() class Q` with `b.subscribe()`: under the default
`checkDecorators` neither class is gated. -/
def ungatedFile : List Event :=
  [.classDeclaration plainClass, .propertyDefinition propertyA,
   .subscribeCall (plainSubscribe 10 "a"),
   .classDeclaration injectable,
   .subscribeCall (plainSubscribe 110 "b"),
   .classDeclarationExit injectable,
   .classDeclarationExit plainClass]

/-- The frame of `coveredBody`. -/
def coveredFrame : Entry := frameOf (resolve []) coveredBody

/-- The frame of `uncoveredBody`. -/
def uncoveredFrame : Entry := frameOf (resolve []) uncoveredBody

/-- The frame of `mixedBody`. -/
def mixedFrame : Entry := frameOf (resolve []) mixedBody

/-- The frame of `plainBody`. -/
def plainFrame : Entry := frameOf (resolve []) plainBody

/-- The frame of `aliasBody` under the options `aliasConfig`. -/
def aliasFrame : Entry := frameOf (resolve [aliasConfig]) aliasBody

/-- The frame of `untriggeredBody`. -/
def untriggeredFrame : Entry := frameOf (resolve []) untriggeredBody

/-- The frame of `untriggeredBareBody`. -/
def untriggeredBareFrame : Entry := frameOf (resolve []) untriggeredBareBody

end Sample

namespace Sample

/-- The options `{ checkComplete: true }`. -/
def completeConfig : Config := ⟨none, some true, none, none, none⟩

/-- The frame of `untriggeredBody` under the options `completeConfig`, with the set of names
of its subscription filled by `checkSubscribe`. -/
def untriggeredChecked : Entry :=
  match checkEntry (resolve [completeConfig]) always
      (frameOf (resolve [completeConfig]) untriggeredBody) [] with
  | some (entry, _) => entry
  | none => frameOf (resolve [completeConfig]) untriggeredBody

end Sample

namespace Sample

/-- The options `{ checkDestroy: false }`. -/
def noDestroyConfig : Config := ⟨none, none, none, some false, none⟩

/-- The oracle that denies every expression. -/
def never : Node → Bool := fun _ => false

end Sample

namespace Sample

/-- The class `@Component() class D`. -/
def componentD : ClassDeclaration :=
  ⟨200, some (.Identifier 201 "D"),
    some [⟨202, .CallExpression 203 (.Identifier 204 "Component") []⟩], none⟩

/-- The body of the component `C`: the call `a.subscribe()`, then a nested component `D`
with the call `b.pipe(takeUntil(this.B)).subscribe()` and an empty `ngOnDestroy`, then an
`ngOnDestroy` method of `C`. -/
def nestingBody : List Event :=
  [.subscribeCall (plainSubscribe 10 "a"),
   .classDeclaration componentD,
   .subscribeCall (pipedSubscribe 210 "b" [takeUntilThis 220 "B"]),
   .ngOnDestroy ⟨290, .Identifier 291 "ngOnDestroy"⟩,
   .classDeclarationExit componentD,
   .ngOnDestroy ngOnDestroy]

end Sample

end PreferTakeuntil

/-!
# The `prefer-async-pipe` rule

A shallow embedding of `src/dist/rules/prefer-async-pipe.js`. The two visitors are
`onSubscribeMember` and `onComponentDecorator`; the `WeakMap` `componentMap` is the list of
the identities of its keys. The traversal that calls them is `traverse`: it enters a node
before its children and visits the children in order, as the rule's host does, and calls a
visitor on the nodes that its selector matches.
-/

namespace PreferAsyncPipe

/-- A node of the syntax tree: its identity, its ESTree type, the field of its parent that
holds it, its `name` when it has one, and its children in the order of the traversal (for
a class declaration: the decorators, the identifier, the super class, the body). -/
inductive Tree where
  | node (nid : Nat) (type : String) (field : String) (name : Option String)
      (children : List Tree)

/-- Identity of a node. -/
def Tree.nid : Tree → Nat
  | .node i _ _ _ _ => i

/-- The ESTree type of a node. -/
def Tree.type : Tree → String
  | .node _ t _ _ _ => t

/-- The field of the parent that holds the node. -/
def Tree.field : Tree → String
  | .node _ _ f _ _ => f

/-- The property `name` of a node. -/
def Tree.name : Tree → Option String
  | .node _ _ _ n _ => n

/-- The children of a node. -/
def Tree.children : Tree → List Tree
  | .node _ _ _ _ cs => cs

/-- The child held by a field of the node. -/
def Tree.child (t : Tree) (field : String) : Option Tree :=
  t.children.find? fun c => c.field = field

/-- A report of the rule: its message is always `forbidden`; `node` is the identity of the
reported node. -/
structure Descriptor where
  node : Nat
deriving DecidableEq, Repr

/-- The closure state of `create`: the keys of `componentMap` and the reports made. -/
structure State where
  componentMap : List Nat
  reports : List Descriptor
deriving DecidableEq, Repr

/-- The state in which the traversal starts. -/
def State.init : State := ⟨[], []⟩

/-- The loop of lines 29-42 over the chain of parents: whether it reaches the report. -/
def reachesReport (oracle : Tree → Bool) (componentMap : List Nat) (object : Tree) :
    List Tree → Bool
  | [] => false
  | parent :: rest =>
    if componentMap.contains parent.nid && oracle object then true
    else reachesReport oracle componentMap object rest

/-- Lines 26-43: the visitor of `CallExpression > MemberExpression[property.name="subscribe"]`,
for the member expression with the given `object` and `property`; `parents` is the chain
`getParent(memberExpression)`, `getParent(parent)`, ... up to the root. -/
def onSubscribeMember (oracle : Tree → Bool) (st : State) (object property : Tree)
    (parents : List Tree) : State :=
  if reachesReport oracle st.componentMap object parents then
    ⟨st.componentMap, st.reports ++ [⟨property.nid⟩]⟩
  else st

/-- Lines 44-49: the visitor of
`ClassDeclaration > Decorator[expression.callee.name="Component"]`; `classDeclaration` is
`getParent(node)`. -/
def onComponentDecorator (st : State) (classDeclaration : Tree) : State :=
  ⟨classDeclaration.nid :: st.componentMap, st.reports⟩

/-- The selector `CallExpression > MemberExpression[property.name="subscribe"]`: the object
and the property of the member expression when the node matches. -/
def matchesSubscribe (parents : List Tree) (t : Tree) : Option (Tree × Tree) :=
  match parents with
  | parent :: _ =>
    if parent.type = "CallExpression" ∧ t.type = "MemberExpression" then
      match t.child "object", t.child "property" with
      | some object, some property =>
        if property.name = some "subscribe" then some (object, property) else none
      | _, _ => none
    else none
  | [] => none

/-- The decorator's `expression.callee.name` is `Component`. -/
def isComponentDecorator (t : Tree) : Bool :=
  t.type = "Decorator" &&
    (((t.child "expression").bind fun e => e.child "callee").bind fun c => c.name)
      = some "Component"

/-- The selector `ClassDeclaration > Decorator[expression.callee.name="Component"]`: the
parent when the node matches. -/
def matchesComponentDecorator (parents : List Tree) (t : Tree) : Option Tree :=
  match parents with
  | parent :: _ =>
    if parent.type = "ClassDeclaration" ∧ isComponentDecorator t = true then some parent
    else none
  | [] => none

/-- The visitor calls made when the traversal enters a node. -/
def enter (oracle : Tree → Bool) (parents : List Tree) (st : State) (t : Tree) : State :=
  let st₁ :=
    match matchesComponentDecorator parents t with
    | some classDeclaration => onComponentDecorator st classDeclaration
    | none => st
  match matchesSubscribe parents t with
  | some (object, property) => onSubscribeMember oracle st₁ object property parents
  | none => st₁

mutual
/-- The traversal of a tree below the chain `parents`: the node is entered, then its
children are traversed in order. -/
def traverse (oracle : Tree → Bool) (parents : List Tree) (st : State) : Tree → State
  | .node i type field name children =>
    traverseList oracle (.node i type field name children :: parents)
      (enter oracle parents st (.node i type field name children)) children
/-- The traversal of the children of a node, in order. -/
def traverseList (oracle : Tree → Bool) (parents : List Tree) (st : State) :
    List Tree → State
  | [] => st
  | t :: ts => traverseList oracle parents (traverse oracle parents st t) ts
end

/-- The node is a class declaration carrying a decorator whose expression's callee is named
`Component`. -/
def isComponentClass (t : Tree) : Bool :=
  t.type = "ClassDeclaration" &&
    t.children.any fun c => c.field = "decorators" && isComponentDecorator c

namespace Sample

/-- An identifier. -/
def ident (i : Nat) (field name : String) : Tree := .node i "Identifier" field (some name) []

/-- The call `a.subscribe()`, held by `field`. -/
def subscribeCall (i : Nat) (field : String) : Tree :=
  .node i "CallExpression" field none
    [.node (i + 1) "MemberExpression" "callee" none
      [ident (i + 2) "object" "a", ident (i + 3) "property" "subscribe"]]

/-- The decorator `@<name>(<arguments>)`. -/
def decorator (i : Nat) (name : String) (arguments : List Tree) : Tree :=
  .node i "Decorator" "decorators" none
    [.node (i + 1) "CallExpression" "expression" none
      (ident (i + 2) "callee" name :: arguments)]

/-- The class declaration `<decorators> class C { <members> }`. -/
def classC (decorators members : List Tree) : Tree :=
  .node 1 "ClassDeclaration" "body" none
    (decorators ++ [ident 2 "id" "C", .node 3 "ClassBody" "body" none members])

/-- The program `@Other(a.subscribe()) @Component() class C {}`. -/
def subscribeBeforeComponent : Tree :=
  .node 0 "Program" "" none
    [classC [decorator 10 "Other" [subscribeCall 20 "arguments"], decorator 30 "Component" []]
      []]

/-- The program `@Component() @Other(a.subscribe()) class C {}`. -/
def subscribeAfterComponent : Tree :=
  .node 0 "Program" "" none
    [classC [decorator 30 "Component" [], decorator 10 "Other" [subscribeCall 20 "arguments"]]
      []]

/-- The program `@Component() class C { m = a.subscribe() }`. -/
def subscribeInBody : Tree :=
  .node 0 "Program" "" none
    [classC [decorator 30 "Component" []]
      [.node 40 "PropertyDefinition" "body" none
        [ident 41 "key" "m", subscribeCall 20 "value"]]]

/-- The chain of parents of the member expression `a.subscribe` of
`subscribeBeforeComponent`, the nearest first. -/
def parentsBeforeComponent : List Tree :=
  [subscribeCall 20 "arguments",
   .node 11 "CallExpression" "expression" none
     [ident 12 "callee" "Other", subscribeCall 20 "arguments"],
   decorator 10 "Other" [subscribeCall 20 "arguments"],
   classC [decorator 10 "Other" [subscribeCall 20 "arguments"], decorator 30 "Component" []] [],
   subscribeBeforeComponent]

/-- The oracle that affirms every expression. -/
def always : Tree → Bool := fun _ => true

/-- Every node of the chain is a child of the next one. -/
def isParentChain : List Tree → Bool
  | c :: p :: rest => p.children.any (fun x => x.nid = c.nid) && isParentChain (p :: rest)
  | _ => true

end Sample

end PreferAsyncPipe

namespace PreferTakeuntil

/-! ## Lemmas on sets and maps -/

/-- Membership after `setAdd`. -/
theorem mem_setAdd {s : List String} {x y : String} : y ∈ setAdd s x ↔ y ∈ s ∨ y = x := by
  unfold setAdd
  by_cases h : x ∈ s
  · simp only [h, if_true]
    constructor
    · exact Or.inl
    · rintro (h' | rfl)
      · exact h'
      · exact h
  · simp [h]

theorem nodup_setAdd {s : List String} {x : String} (h : s.Nodup) : (setAdd s x).Nodup := by
  unfold setAdd
  by_cases hx : x ∈ s
  · simpa [hx] using h
  · simp only [hx, if_false]
    rw [List.nodup_append]
    refine ⟨h, List.nodup_singleton x, ?_⟩
    intro a ha hb
    simp at hb
    subst hb
    exact hx ha

theorem mem_foldl_setAdd {l s : List String} {y : String} :
    y ∈ l.foldl setAdd s ↔ y ∈ s ∨ y ∈ l := by
  induction l generalizing s with
  | nil => simp
  | cons a l ih =>
    simp only [List.foldl_cons, ih, mem_setAdd, List.mem_cons]
    tauto

theorem nodup_foldl_setAdd {l s : List String} (h : s.Nodup) : (l.foldl setAdd s).Nodup := by
  induction l generalizing s with
  | nil => simpa using h
  | cons a l ih => exact ih (nodup_setAdd h)

theorem mem_foldl_names {m : List (Nat × List String)} {s : List String} {y : String} :
    y ∈ m.foldl (fun names kv => kv.2.foldl setAdd names) s ↔ y ∈ s ∨ ∃ kv ∈ m, y ∈ kv.2 := by
  induction m generalizing s with
  | nil => simp
  | cons a m ih =>
    simp only [List.foldl_cons, ih, mem_foldl_setAdd, List.mem_cons, exists_eq_or_imp]
    tauto

theorem nodup_foldl_names {m : List (Nat × List String)} {s : List String} (h : s.Nodup) :
    (m.foldl (fun names kv => kv.2.foldl setAdd names) s).Nodup := by
  induction m generalizing s with
  | nil => simpa using h
  | cons a m ih => exact ih (nodup_foldl_setAdd h)

theorem mem_collectNames {m : List (Nat × List String)} {y : String} :
    y ∈ collectNames m ↔ ∃ kv ∈ m, y ∈ kv.2 := by
  unfold collectNames
  rw [mem_foldl_names]
  simp

theorem nodup_collectNames (m : List (Nat × List String)) : (collectNames m).Nodup :=
  nodup_foldl_names List.nodup_nil

theorem mapSet_of_not_mem {κ β : Type} [DecidableEq κ] {m : List (κ × β)} {k : κ} {v : β}
    (h : k ∉ m.map Prod.fst) : mapSet m k v = m ++ [(k, v)] := by
  induction m with
  | nil => rfl
  | cons a m ih =>
    obtain ⟨k', v'⟩ := a
    simp only [List.map_cons, List.mem_cons, not_or] at h
    have hne : ¬ k' = k := fun e => h.1 e.symm
    simp [mapSet, hne, ih h.2]

theorem keys_mapSet {κ β : Type} [DecidableEq κ] {m : List (κ × β)} {k : κ} {v : β}
    (h : k ∈ m.map Prod.fst) : (mapSet m k v).map Prod.fst = m.map Prod.fst := by
  induction m with
  | nil => simp at h
  | cons a m ih =>
    obtain ⟨k', v'⟩ := a
    by_cases hk : k' = k
    · simp [mapSet, hk]
    · have : k ∈ m.map Prod.fst := by
        simp only [List.map_cons, List.mem_cons] at h
        rcases h with h | h
        · exact absurd h.symm hk
        · exact h
      simp [mapSet, hk, ih this]

theorem mapGet_isSome {κ β : Type} [DecidableEq κ] {m : List (κ × β)} {k : κ} :
    (mapGet m k).isSome = true ↔ k ∈ m.map Prod.fst := by
  induction m with
  | nil => simp [mapGet]
  | cons a m ih =>
    obtain ⟨k', v'⟩ := a
    by_cases hk : k' = k
    · simp [mapGet, hk]
    · have hk' : ¬ k = k' := fun e => hk e.symm
      simp [mapGet, hk, hk', ih]

/-! ## The closed form of the teardown verification -/

theorem buildChecks_aux (desc : String → List Descriptor) (names : List String) :
    ∀ acc : List (String × Check), names.Nodup → (∀ n ∈ names, n ∉ acc.map Prod.fst) →
      names.foldl (fun namesToChecks name => mapSet namesToChecks name ⟨desc name, false⟩) acc
        = acc ++ checksOf desc (fun _ => false) names := by
  induction names with
  | nil => intro acc _ _; simp [checksOf]
  | cons a names ih =>
    intro acc hnd hacc
    rw [List.nodup_cons] at hnd
    have ha : a ∉ acc.map Prod.fst := hacc a (List.mem_cons_self _ _)
    rw [List.foldl_cons, mapSet_of_not_mem ha, ih _ hnd.2]
    · simp [checksOf]
    · intro n hn
      have h1 := hacc n (List.mem_cons_of_mem _ hn)
      simp only [List.map_append, List.map_cons, List.map_nil, List.mem_append,
        List.mem_singleton, not_or]
      refine ⟨h1, ?_⟩
      rintro rfl
      exact hnd.1 hn

theorem buildChecks_eq (cfg : Options) (entry : Entry) (d : MethodDefinition)
    {names : List String} (h : names.Nodup) :
    buildChecks cfg entry d names
      = checksOf (nameDescriptors cfg entry d) (fun _ => false) names := by
  unfold buildChecks
  rw [buildChecks_aux (nameDescriptors cfg entry d) names [] h (by simp)]
  simp

theorem mapGet_checksOf {desc : String → List Descriptor} {r : String → Bool}
    {names : List String} {n : String} (h : n ∈ names) :
    mapGet (checksOf desc r names) n = some ⟨desc n, r n⟩ := by
  induction names with
  | nil => simp at h
  | cons a names ih =>
    by_cases ha : a = n
    · subst ha; simp [checksOf, mapGet]
    · have : n ∈ names := by
        rcases List.mem_cons.mp h with h | h
        · exact absurd h.symm ha
        · exact h
      have ih' := ih this
      simp only [checksOf] at ih'
      simp [checksOf, mapGet, ha, ih']

theorem mapSet_checksOf {desc : String → List Descriptor} {r : String → Bool}
    {names : List String} {n : String} (hnd : names.Nodup) (h : n ∈ names) :
    mapSet (checksOf desc r names) n ⟨desc n, true⟩
      = checksOf desc (fun x => r x || decide (x = n)) names := by
  induction names with
  | nil => simp at h
  | cons a names ih =>
    rw [List.nodup_cons] at hnd
    by_cases ha : a = n
    · subst ha
      simp only [checksOf, List.map_cons, mapSet, if_true, decide_True, Bool.or_true]
      congr 1
      apply List.map_congr_left
      intro x hx
      have : ¬ x = a := by rintro rfl; exact hnd.1 hx
      simp [this]
    · have hn : n ∈ names := by
        rcases List.mem_cons.mp h with h | h
        · exact absurd h.symm ha
        · exact h
      have ih' := ih hnd.2 hn
      simp only [checksOf] at ih'
      simp [checksOf, mapSet, ha, ih']

theorem everyHasDescriptors_checksOf {desc : String → List Descriptor} {r : String → Bool}
    {names : List String} {s : List String} (h : ∀ u ∈ s, u ∈ names) :
    everyHasDescriptors (checksOf desc r names) s = some (uncovered desc s) := by
  induction s with
  | nil => simp [everyHasDescriptors, uncovered]
  | cons a s ih =>
    have ha := h a (List.mem_cons_self _ _)
    have ih' := ih (fun u hu => h u (List.mem_cons_of_mem _ hu))
    simp only [everyHasDescriptors, mapGet_checksOf ha]
    by_cases hd : 0 < (desc a).length
    · simp [hd, ih', uncovered]
    · simp [hd, uncovered]

theorem markReport_checksOf {desc : String → List Descriptor} {names : List String}
    (hnd : names.Nodup) {s : List String} :
    ∀ r : String → Bool, (∀ u ∈ s, u ∈ names) →
      markReport (checksOf desc r names) s
        = some (checksOf desc (fun x => r x || decide (x ∈ s)) names) := by
  induction s with
  | nil => intro r _; simp [markReport]
  | cons a s ih =>
    intro r h
    have ha := h a (List.mem_cons_self _ _)
    simp only [markReport, mapGet_checksOf ha, mapSet_checksOf hnd ha]
    rw [ih _ (fun u hu => h u (List.mem_cons_of_mem _ hu))]
    congr 2
    funext x
    by_cases hx : x = a <;> simp [hx, Bool.or_assoc]

theorem aggregate_checksOf {desc : String → List Descriptor} {names : List String}
    (hnd : names.Nodup) {m : List (Nat × List String)} :
    ∀ r : String → Bool, (∀ kv ∈ m, ∀ u ∈ kv.2, u ∈ names) →
      aggregate m (checksOf desc r names)
        = some (checksOf desc (fun x => r x || reportFlag desc m x) names) := by
  induction m with
  | nil => intro r _; simp [aggregate, reportFlag]
  | cons a m ih =>
    intro r h
    obtain ⟨k, s⟩ := a
    have hs : ∀ u ∈ s, u ∈ names := h (k, s) (List.mem_cons_self _ _)
    have hm : ∀ kv ∈ m, ∀ u ∈ kv.2, u ∈ names := fun kv hkv => h kv (List.mem_cons_of_mem _ hkv)
    simp only [aggregate, everyHasDescriptors_checksOf hs]
    by_cases hu : uncovered desc s = true
    · simp only [hu, markReport_checksOf hnd r hs, ih _ hm]
      congr 2
      funext x
      simp [reportFlag, hu, Bool.or_assoc]
    · have hu' : uncovered desc s = false := by simpa using hu
      simp only [hu', ih _ hm]
      congr 2
      funext x
      simp [reportFlag, hu']

theorem emitChecks_checksOf (desc : String → List Descriptor) (r : String → Bool)
    (names : List String) :
    emitChecks (checksOf desc r names)
      = names.flatMap fun n => if r n then desc n else [] := by
  induction names with
  | nil => simp [checksOf, emitChecks]
  | cons a names ih =>
    simp only [checksOf] at ih
    by_cases h : r a = true <;> simp [checksOf, emitChecks, h, ih]

/-- Closed form of `checkNgOnDestroy` for a frame with an `ngOnDestroy` method and at least
one subscription. -/
theorem checkNgOnDestroy_eq (cfg : Options) (entry : Entry) (d : MethodDefinition)
    (hd : entry.ngOnDestroyDefinition = some d)
    (hne : entry.subscribeCallExpressionsToNames ≠ []) :
    checkNgOnDestroy cfg entry
      = some ((collectNames entry.subscribeCallExpressionsToNames).flatMap fun n =>
          if reportFlag (nameDescriptors cfg entry d) entry.subscribeCallExpressionsToNames n
          then nameDescriptors cfg entry d n else []) := by
  have hlen : ¬ entry.subscribeCallExpressionsToNames.length = 0 := by
    simpa [List.length_eq_zero] using hne
  unfold checkNgOnDestroy
  simp only [hlen, if_false, hd]
  rw [buildChecks_eq cfg entry d (nodup_collectNames _),
    aggregate_checksOf (nodup_collectNames _) _
      (fun kv hkv u hu => mem_collectNames.mpr ⟨kv, hkv, hu⟩)]
  simp [emitChecks_checksOf]

theorem nameDescriptors_name {cfg : Options} {entry : Entry} {d : MethodDefinition}
    {n : String} {f : Descriptor} (h : f ∈ nameDescriptors cfg entry d n) :
    f.name = some n := by
  unfold nameDescriptors at h
  simp only [List.mem_append] at h
  rcases h with (h | h) | h
  all_goals
    split at h
    · simp only [List.mem_singleton] at h; subst h; rfl
    · simp at h

theorem nameDescriptors_messageId {cfg : Options} {entry : Entry} {d : MethodDefinition}
    {n : String} {f : Descriptor} (h : f ∈ nameDescriptors cfg entry d n) :
    f.messageId = MessageId.notDeclared ∨ f.messageId = MessageId.notCalled := by
  unfold nameDescriptors at h
  simp only [List.mem_append] at h
  rcases h with (h | h) | h
  all_goals
    split at h
    · simp only [List.mem_singleton] at h; subst h; simp
    · simp at h

theorem uncovered_iff {desc : String → List Descriptor} {s : List String} :
    uncovered desc s = true ↔ ∀ u ∈ s, desc u ≠ [] := by
  simp [uncovered, List.length_pos]

theorem reportFlag_iff {desc : String → List Descriptor} {m : List (Nat × List String)}
    {x : String} :
    reportFlag desc m x = true ↔ ∃ kv ∈ m, x ∈ kv.2 ∧ ∀ u ∈ kv.2, desc u ≠ [] := by
  simp only [reportFlag, List.any_eq_true, Bool.and_eq_true, decide_eq_true_eq, uncovered_iff]

theorem filter_name_flatMap (g : String → List Descriptor)
    (hg : ∀ n, ∀ f ∈ g n, f.name = some n) (T : String) :
    ∀ l : List String, l.Nodup →
      (l.flatMap g).filter (fun f => decide (f.name = some T)) = if T ∈ l then g T else [] := by
  intro l
  induction l with
  | nil => intro _; simp
  | cons a l ih =>
    intro hnd
    rw [List.nodup_cons] at hnd
    rw [List.flatMap_cons, List.filter_append, ih hnd.2]
    by_cases ha : a = T
    · subst ha
      have h1 : (g a).filter (fun f => decide (f.name = some a)) = g a := by
        rw [List.filter_eq_self]
        intro f hf
        simp [hg a f hf]
      simp [h1, hnd.1]
    · have h1 : (g a).filter (fun f => decide (f.name = some T)) = [] := by
        rw [List.filter_eq_nil_iff]
        intro f hf
        simp [hg a f hf, ha]
      have h2 : (T ∈ a :: l) ↔ T ∈ l := by
        constructor
        · intro h
          rcases List.mem_cons.mp h with h | h
          · exact absurd h.symm ha
          · exact h
        · exact List.mem_cons_of_mem _
      simp only [h1, List.nil_append, h2]

/-- For a frame with an `ngOnDestroy` method: what `checkNgOnDestroy` reports under a name. -/
theorem checkNgOnDestroy_filter_name (cfg : Options) (entry : Entry) (d : MethodDefinition)
    (hd : entry.ngOnDestroyDefinition = some d) (T : String) :
    ∃ out, checkNgOnDestroy cfg entry = some out ∧
      out.filter (fun f => decide (f.name = some T))
        = if reportFlag (nameDescriptors cfg entry d) entry.subscribeCallExpressionsToNames T
          then nameDescriptors cfg entry d T else [] := by
  by_cases hne : entry.subscribeCallExpressionsToNames = []
  · refine ⟨[], ?_, ?_⟩
    · simp [checkNgOnDestroy, hne]
    · simp [hne, reportFlag]
  · refine ⟨_, checkNgOnDestroy_eq cfg entry d hd hne, ?_⟩
    rw [filter_name_flatMap _ _ T _ (nodup_collectNames _)]
    · by_cases hr : reportFlag (nameDescriptors cfg entry d)
          entry.subscribeCallExpressionsToNames T = true
      · have hmem : T ∈ collectNames entry.subscribeCallExpressionsToNames := by
          obtain ⟨kv, hkv, hT, _⟩ := reportFlag_iff.mp hr
          exact mem_collectNames.mpr ⟨kv, hkv, hT⟩
        simp [hr, hmem]
      · simp [hr]
    · intro n f hf
      split at hf
      · exact nameDescriptors_name hf
      · simp at hf

theorem exists_mem_filter_name {out : List Descriptor} {T : String} :
    (∃ f ∈ out, f.name = some T) ↔ out.filter (fun f => decide (f.name = some T)) ≠ [] := by
  rw [Ne, List.filter_eq_nil_iff]
  simp


/-! ## The closed form of `checkEntry` -/

theorem mem_keys_mapSet {κ β : Type} [DecidableEq κ] {m : List (κ × β)} {k k' : κ} {v : β} :
    k' ∈ (mapSet m k v).map Prod.fst ↔ k' ∈ m.map Prod.fst ∨ k' = k := by
  by_cases h : k ∈ m.map Prod.fst
  · rw [keys_mapSet h]
    constructor
    · exact Or.inl
    · rintro (h' | rfl)
      · exact h'
      · exact h
  · rw [mapSet_of_not_mem h]
    simp

theorem scanOperators_some (cfg : Options) (operators : List Node) :
    ∀ (b : Bool) (s : List String),
      scanOperators cfg operators b (some s)
        = some (b || operatorsFound cfg operators,
            some ((operatorNames cfg operators).foldl setAdd s)) := by
  induction operators with
  | nil => intro b s; simp [scanOperators, operatorsFound, operatorNames]
  | cons op rest ih =>
    intro b s
    cases op with
    | CallExpression i callee args =>
      simp only [scanOperators, operatorsFound, operatorNames]
      cases hn : (checkOperator cfg (Node.CallExpression i callee args)).name with
      | none => simp [ih, Bool.or_assoc]
      | some name =>
        by_cases he : name = ""
        · simp [he, ih, Bool.or_assoc]
        · simp [he, ih, Bool.or_assoc]
    | _ => simp [scanOperators, operatorsFound, operatorNames, ih]

theorem checkSubscribe_eq (cfg : Options) (c : CallExpr) (e : Entry)
    (reports : List Descriptor) (s : List String) (i : Nat) (object property : Node)
    (hs : mapGet e.subscribeCallExpressionsToNames c.nid = some s)
    (hc : c.callee = Node.MemberExpression i object property) :
    checkSubscribe cfg c e reports
      = some (e.withNames (mapSet e.subscribeCallExpressionsToNames c.nid
            ((operatorNames cfg (receiverOperators object)).foldl setAdd s)),
          reports ++ if operatorsFound cfg (receiverOperators object) then []
            else [⟨MessageId.noTakeUntil, property.nid, none, none⟩]) := by
  have hp : pipeOperators object = none ∨ ∃ operators, pipeOperators object = some operators := by
    cases pipeOperators object
    · exact Or.inl rfl
    · exact Or.inr ⟨_, rfl⟩
  unfold checkSubscribe
  rcases hp with hp | ⟨operators, hp⟩
  · simp [hc, hs, receiverOperators, hp, operatorsFound, operatorNames, Entry.withNames]
  · simp only [hc, hs, receiverOperators, hp, scanOperators_some, Bool.false_or]
    by_cases hf : operatorsFound cfg operators = true
    · simp [hf, Entry.withNames]
    · simp [hf, Entry.withNames]

theorem keys_subscribeNames (cfg : Options) (oracle : Node → Bool)
    (m : List (Nat × List String)) (c : CallExpr) :
    (subscribeNames cfg oracle m c).map Prod.fst = m.map Prod.fst := by
  unfold subscribeNames
  split
  · split
    · split
      · next s hs =>
        apply keys_mapSet
        rw [← mapGet_isSome, hs]; rfl
      · rfl
    · rfl
  · rfl

theorem checkSubscribes_eq (cfg : Options) (oracle : Node → Bool) (calls : List CallExpr) :
    ∀ (e : Entry) (reports : List Descriptor),
      (∀ c ∈ calls, c.nid ∈ e.subscribeCallExpressionsToNames.map Prod.fst) →
      checkSubscribes cfg oracle calls e reports
        = some (e.withNames (calls.foldl (subscribeNames cfg oracle)
              e.subscribeCallExpressionsToNames),
            reports ++ calls.flatMap (subscribeReports cfg oracle)) := by
  induction calls with
  | nil => intro e reports _; simp [checkSubscribes, Entry.withNames]
  | cons c rest ih =>
    intro e reports h
    have hc := h c (List.mem_cons_self _ _)
    have hrest : ∀ c' ∈ rest, c'.nid ∈ e.subscribeCallExpressionsToNames.map Prod.fst :=
      fun c' hc' => h c' (List.mem_cons_of_mem _ hc')
    obtain ⟨s, hs⟩ := Option.isSome_iff_exists.mp (mapGet_isSome.mpr hc)
    unfold checkSubscribes
    cases hcal : c.callee with
    | MemberExpression i object property =>
      simp only []
      by_cases ho : oracle object = true
      · simp only [ho, if_true, checkSubscribe_eq cfg c e reports s i object property hs hcal]
        rw [ih]
        · congr 1
          by_cases hf : operatorsFound cfg (receiverOperators object) = true
          · simp [Entry.withNames, subscribeNames, subscribeReports, hcal, ho, hs, hf]
          · simp [Entry.withNames, subscribeNames, subscribeReports, hcal, ho, hs, hf]
        · intro c' hc'
          simp only [Entry.withNames]
          rw [keys_mapSet hc]
          exact hrest c' hc'
      · simp only [ho]
        rw [ih e reports hrest]
        simp [subscribeNames, subscribeReports, hcal, ho]
    | _ =>
      simp only []
      rw [ih e reports hrest]
      simp [subscribeNames, subscribeReports, hcal]

theorem keys_foldl_subscribeNames (cfg : Options) (oracle : Node → Bool)
    (calls : List CallExpr) :
    ∀ m : List (Nat × List String),
      (calls.foldl (subscribeNames cfg oracle) m).map Prod.fst = m.map Prod.fst := by
  induction calls with
  | nil => intro m; rfl
  | cons c rest ih => intro m; rw [List.foldl_cons, ih, keys_subscribeNames]

theorem keys_foldl_register (calls : List CallExpr) :
    ∀ (m : List (Nat × List String)) (k : Nat),
      k ∈ (calls.foldl (fun m c => mapSet m c.nid []) m).map Prod.fst
        ↔ k ∈ m.map Prod.fst ∨ ∃ c ∈ calls, c.nid = k := by
  induction calls with
  | nil => intro m k; simp
  | cons c rest ih =>
    intro m k
    rw [List.foldl_cons, ih, mem_keys_mapSet]
    simp only [List.mem_cons, exists_eq_or_imp]
    constructor
    · rintro ((h | h) | h)
      · exact Or.inl h
      · exact Or.inr (Or.inl h.symm)
      · exact Or.inr (Or.inr h)
    · rintro (h | h | h)
      · exact Or.inl (Or.inl h)
      · exact Or.inl (Or.inr h.symm)
      · exact Or.inr h

theorem Entry.Collected.registered {e : Entry} (h : e.Collected) :
    ∀ c ∈ e.subscribeCallExpressions, c.nid ∈ e.subscribeCallExpressionsToNames.map Prod.fst := by
  intro c hc
  rw [h, keys_foldl_register]
  exact Or.inr ⟨c, hc, rfl⟩

theorem checkNgOnDestroy_total (cfg : Options) (e : Entry) :
    ∃ out, checkNgOnDestroy cfg e = some out := by
  cases hd : e.ngOnDestroyDefinition with
  | some d =>
    obtain ⟨out, hout, _⟩ := checkNgOnDestroy_filter_name cfg e d hd ""
    exact ⟨out, hout⟩
  | none =>
    unfold checkNgOnDestroy
    simp only [hd]
    split
    · exact ⟨_, rfl⟩
    · split
      · exact ⟨_, rfl⟩
      · exact ⟨_, rfl⟩

/-- Closed form of `checkEntry` on a frame whose collected calls are keys of its map. -/
theorem checkEntry_eq (cfg : Options) (oracle : Node → Bool) (e : Entry)
    (reports : List Descriptor)
    (h : ∀ c ∈ e.subscribeCallExpressions,
      c.nid ∈ e.subscribeCallExpressionsToNames.map Prod.fst) :
    ∃ out,
      checkNgOnDestroy cfg (e.withNames (e.subscribeCallExpressions.foldl
          (subscribeNames cfg oracle) e.subscribeCallExpressionsToNames)) = some out ∧
      checkEntry cfg oracle e reports
        = some (e.withNames (e.subscribeCallExpressions.foldl (subscribeNames cfg oracle)
              e.subscribeCallExpressionsToNames),
            reports ++ e.subscribeCallExpressions.flatMap (subscribeReports cfg oracle)
              ++ if cfg.checkDestroy then out else []) := by
  obtain ⟨out, hout⟩ := checkNgOnDestroy_total cfg (e.withNames
    (e.subscribeCallExpressions.foldl (subscribeNames cfg oracle)
      e.subscribeCallExpressionsToNames))
  refine ⟨out, hout, ?_⟩
  unfold checkEntry
  rw [checkSubscribes_eq cfg oracle _ e reports h]
  by_cases hcd : cfg.checkDestroy = true
  · simp [hcd, hout]
  · simp [hcd]

theorem targets_of_isCallOn {T : String} {c : CallExpr} (h : IsCallOn T c) :
    targets T c = true := by
  rcases h with ⟨i, j, p, h⟩ | ⟨i, j, k, l, p, h⟩
  · simp [targets, h]
  · simp [targets, h]

theorem isCallOn_of_targets {T : String} {c : CallExpr} (h : targets T c = true) :
    IsCallOn T c := by
  unfold targets at h
  split at h
  · next i j n p hc =>
    have : n = T := by simpa using h
    subst this
    exact Or.inl ⟨i, j, p, hc⟩
  · next i j k l n p hc =>
    have : n = T := by simpa using h
    subst this
    exact Or.inr ⟨i, j, k, l, p, hc⟩
  · simp at h

theorem checkSubjectCall_iff {T : String} {calls : List CallExpr} :
    checkSubjectCall T calls = true ↔ ∃ c ∈ calls, IsCallOn T c := by
  unfold checkSubjectCall
  rw [List.find?_isSome]
  constructor
  · rintro ⟨c, hc, h⟩
    exact ⟨c, hc, isCallOn_of_targets h⟩
  · rintro ⟨c, hc, h⟩
    exact ⟨c, hc, targets_of_isCallOn h⟩

theorem checkSubjectProperty_iff {T : String} {e : Entry} :
    checkSubjectProperty T e = true ↔ ∃ p ∈ e.propertyDefinitions, p.key.name? = some T := by
  unfold checkSubjectProperty
  rw [List.find?_isSome]
  simp

theorem subscribeReports_mem {cfg : Options} {oracle : Node → Bool} {c : CallExpr}
    {f : Descriptor} (h : f ∈ subscribeReports cfg oracle c) :
    ∃ i o p, c.callee = Node.MemberExpression i o p ∧
      f = ⟨MessageId.noTakeUntil, p.nid, none, none⟩ := by
  unfold subscribeReports at h
  split at h
  · next i o p hc =>
    split at h
    · simp only [List.mem_singleton] at h
      exact ⟨i, o, p, hc, h⟩
    · simp at h
  · simp at h

theorem checkNgOnDestroy_mem {cfg : Options} {e : Entry} {out : List Descriptor}
    {f : Descriptor} (hout : checkNgOnDestroy cfg e = some out) (hf : f ∈ out) :
    (e.ngOnDestroyDefinition = none ∧ e.extendsSuperClassDeclaration = none ∧
      f = ⟨MessageId.noDestroy, classNode e.classDeclaration, none, none⟩) ∨
    (∃ d n, e.ngOnDestroyDefinition = some d ∧ f ∈ nameDescriptors cfg e d n) := by
  by_cases hne : e.subscribeCallExpressionsToNames = []
  · simp [checkNgOnDestroy, hne] at hout
    subst hout
    simp at hf
  · cases hd : e.ngOnDestroyDefinition with
    | some d =>
      rw [checkNgOnDestroy_eq cfg e d hd hne] at hout
      cases hout
      rw [List.mem_flatMap] at hf
      obtain ⟨n, _, hn⟩ := hf
      split at hn
      · exact Or.inr ⟨d, n, rfl, hn⟩
      · simp at hn
    | none =>
      have hlen : ¬ e.subscribeCallExpressionsToNames.length = 0 := by
        simpa [List.length_eq_zero] using hne
      unfold checkNgOnDestroy at hout
      simp only [hlen, if_false, hd] at hout
      cases hx : e.extendsSuperClassDeclaration with
      | some x =>
        simp only [hx] at hout
        cases hout
        simp at hf
      | none =>
        simp only [hx] at hout
        cases hout
        simp only [List.mem_singleton] at hf
        exact Or.inl ⟨rfl, rfl, hf⟩

theorem nameDescriptors_withNames (cfg : Options) (e : Entry) (m : List (Nat × List String))
    (d : MethodDefinition) (n : String) :
    nameDescriptors cfg (e.withNames m) d n = nameDescriptors cfg e d n := rfl


/-! ## The visitors -/

theorem onEntry_reports (st : State) (f : Entry → Entry) : (onEntry st f).reports = st.reports := by
  unfold onEntry
  split
  · rfl
  · split <;> rfl

theorem onEntry_flags (st : State) (f : Entry → Entry)
    (hf : ∀ e, (f e).hasDecorator = e.hasDecorator) :
    (onEntry st f).entries.map (·.hasDecorator) = st.entries.map (·.hasDecorator) := by
  unfold onEntry
  split
  · rfl
  · next e rest he =>
    split
    · simp [he, hf]
    · rfl

theorem some_onEntry (st : State) (f : Entry → Entry) :
    ∃ entries, some (onEntry st f) = some (⟨entries, st.reports⟩ : State) :=
  ⟨(onEntry st f).entries, by rw [← onEntry_reports st f]⟩

/-- The flags `hasDecorator` of the stack after a visitor call. -/
theorem visit_flags (cfg : Options) (oracle : Node → Bool) (st st' : State) (ev : Event) :
    visit cfg oracle st ev = some st' →
    st'.entries.map (·.hasDecorator) =
      match ev with
      | .classDeclaration node => hasDecorator cfg node :: st.entries.map (·.hasDecorator)
      | .classDeclarationExit _ => (st.entries.map (·.hasDecorator)).tail
      | _ => st.entries.map (·.hasDecorator) := by
  intro h
  cases ev with
  | classDeclaration node =>
    simp only [visit, Option.some.injEq] at h
    subst h
    rfl
  | classDeclarationExit node =>
    simp only [visit] at h
    split at h
    · next he =>
      cases h
      simp [he]
    · next e rest he =>
      split at h
      · split at h
        · cases h
        · cases h
          simp [he]
      · cases h
        simp [he]
  | extendsSuperClass node =>
    simp only [visit] at h
    split at h
    · cases h; rfl
    · cases h
      exact onEntry_flags st _ (fun _ => rfl)
  | subscribeCall node =>
    simp only [visit, Option.some.injEq] at h
    subst h
    exact onEntry_flags st _ (fun _ => rfl)
  | propertyDefinition node =>
    simp only [visit, Option.some.injEq] at h
    subst h
    exact onEntry_flags st _ (fun _ => rfl)
  | ngOnDestroy node =>
    simp only [visit, Option.some.injEq] at h
    subst h
    exact onEntry_flags st _ (fun _ => rfl)
  | nextCall node =>
    simp only [visit, Option.some.injEq] at h
    subst h
    exact onEntry_flags st _ (fun _ => rfl)
  | completeCall node =>
    simp only [visit, Option.some.injEq] at h
    subst h
    exact onEntry_flags st _ (fun _ => rfl)

/-- A visitor call that is not the exit of a gated frame returns and reports nothing. -/
theorem visit_reports_unchanged (cfg : Options) (oracle : Node → Bool) (st : State)
    (ev : Event)
    (h : ∀ node e rest, ev = Event.classDeclarationExit node → st.entries = e :: rest →
      e.hasDecorator = false) :
    ∃ entries, visit cfg oracle st ev = some ⟨entries, st.reports⟩ := by
  cases ev with
  | classDeclaration node => exact ⟨_, rfl⟩
  | classDeclarationExit node =>
    simp only [visit]
    split
    · exact ⟨st.entries, rfl⟩
    · next e rest he =>
      have := h node e rest rfl he
      simp [this]
  | extendsSuperClass node =>
    simp only [visit]
    split
    · exact ⟨st.entries, rfl⟩
    · exact some_onEntry st _
  | subscribeCall node => exact some_onEntry st _
  | propertyDefinition node => exact some_onEntry st _
  | ngOnDestroy node => exact some_onEntry st _
  | nextCall node => exact some_onEntry st _
  | completeCall node => exact some_onEntry st _

theorem run_ungated (cfg : Options) (oracle : Node → Bool) (events : List Event) :
    ∀ st : State, (∀ e ∈ st.entries, e.hasDecorator = false) →
      (∀ node, Event.classDeclaration node ∈ events → hasDecorator cfg node = false) →
      ∃ entries, run cfg oracle st events = some ⟨entries, st.reports⟩ := by
  induction events with
  | nil => intro st _ _; exact ⟨st.entries, rfl⟩
  | cons ev rest ih =>
    intro st hst hev
    obtain ⟨entries, hvisit⟩ := visit_reports_unchanged cfg oracle st ev
      (fun node e rest' _ he => hst e (by rw [he]; exact List.mem_cons_self _ _))
    have hflags := visit_flags cfg oracle st _ ev hvisit
    have hall : ∀ e ∈ entries, e.hasDecorator = false := by
      have hst' : ∀ b ∈ st.entries.map (·.hasDecorator), b = false := by
        intro b hb
        obtain ⟨e, he, rfl⟩ := List.mem_map.mp hb
        exact hst e he
      intro e he
      have hmem : e.hasDecorator ∈ entries.map (·.hasDecorator) := List.mem_map.mpr ⟨e, he, rfl⟩
      simp only at hflags
      rw [hflags] at hmem
      cases ev with
      | classDeclaration node =>
        simp only [List.mem_cons] at hmem
        rcases hmem with hmem | hmem
        · rw [hmem]; exact hev node (List.mem_cons_self _ _)
        · exact hst' _ hmem
      | classDeclarationExit node => exact hst' _ (List.mem_of_mem_tail hmem)
      | subscribeCall node => exact hst' _ hmem
      | propertyDefinition node => exact hst' _ hmem
      | ngOnDestroy node => exact hst' _ hmem
      | extendsSuperClass node => exact hst' _ hmem
      | nextCall node => exact hst' _ hmem
      | completeCall node => exact hst' _ hmem
    obtain ⟨entries', hrun⟩ := ih ⟨entries, st.reports⟩ hall
      (fun node hn => hev node (List.mem_cons_of_mem _ hn))
    exact ⟨entries', by simp only [run, hvisit]; exact hrun⟩

theorem onEntry_collected (st : State) (f : Entry → Entry)
    (hf : ∀ e, e.Collected → (f e).Collected) (hst : ∀ e ∈ st.entries, e.Collected) :
    ∀ e ∈ (onEntry st f).entries, e.Collected := by
  unfold onEntry
  split
  · exact hst
  · next e rest he =>
    split
    · intro x hx
      rcases List.mem_cons.mp hx with rfl | hx
      · exact hf e (hst e (by rw [he]; exact List.mem_cons_self _ _))
      · exact hst x (by rw [he]; exact List.mem_cons_of_mem _ hx)
    · exact hst

/-- Every frame on the stack stays as collected by the visitors. -/
theorem visit_collected (cfg : Options) (oracle : Node → Bool) (st st' : State) (ev : Event)
    (h : visit cfg oracle st ev = some st') (hst : ∀ e ∈ st.entries, e.Collected) :
    ∀ e ∈ st'.entries, e.Collected := by
  cases ev with
  | classDeclaration node =>
    simp only [visit, Option.some.injEq] at h
    subst h
    intro e he
    rcases List.mem_cons.mp he with rfl | he
    · rfl
    · exact hst e he
  | classDeclarationExit node =>
    simp only [visit] at h
    split at h
    · cases h; exact hst
    · next e rest he =>
      have hrest : ∀ x ∈ rest, x.Collected :=
        fun x hx => hst x (by rw [he]; exact List.mem_cons_of_mem _ hx)
      split at h
      · split at h
        · cases h
        · cases h; exact hrest
      · cases h; exact hrest
  | extendsSuperClass node =>
    simp only [visit] at h
    split at h
    · cases h; exact hst
    · cases h
      exact onEntry_collected st _ (fun _ he => he) hst
  | subscribeCall node =>
    simp only [visit, Option.some.injEq] at h
    subst h
    refine onEntry_collected st _ ?_ hst
    intro e he
    unfold Entry.Collected at he ⊢
    simp only [List.foldl_append, List.foldl_cons, List.foldl_nil, ← he]
  | propertyDefinition node =>
    simp only [visit, Option.some.injEq] at h
    subst h
    exact onEntry_collected st _ (fun _ he => he) hst
  | ngOnDestroy node =>
    simp only [visit, Option.some.injEq] at h
    subst h
    exact onEntry_collected st _ (fun _ he => he) hst
  | nextCall node =>
    simp only [visit, Option.some.injEq] at h
    subst h
    exact onEntry_collected st _ (fun _ he => he) hst
  | completeCall node =>
    simp only [visit, Option.some.injEq] at h
    subst h
    exact onEntry_collected st _ (fun _ he => he) hst

/-- Every frame that a traversal leaves on the stack satisfies `Entry.Collected`: the
hypothesis of the theorems on `checkEntry` holds of every frame the visitors hand to it. -/
theorem run_collected (cfg : Options) (oracle : Node → Bool) (events : List Event) :
    ∀ st st' : State, run cfg oracle st events = some st' →
      (∀ e ∈ st.entries, e.Collected) → ∀ e ∈ st'.entries, e.Collected := by
  induction events with
  | nil =>
    intro st st' h hst
    simp only [run, Option.some.injEq] at h
    subst h
    exact hst
  | cons ev rest ih =>
    intro st st' h hst
    simp only [run] at h
    split at h
    · cases h
    · next st₁ hv => exact ih st₁ st' h (visit_collected cfg oracle st st₁ ev hv hst)

/-- A traversal never throws: every visitor call returns. -/
theorem run_total (cfg : Options) (oracle : Node → Bool) (events : List Event) :
    ∀ st : State, (∀ e ∈ st.entries, e.Collected) → ∃ st', run cfg oracle st events = some st' := by
  induction events with
  | nil => intro st _; exact ⟨st, rfl⟩
  | cons ev rest ih =>
    intro st hst
    have hv : ∃ st₁, visit cfg oracle st ev = some st₁ := by
      cases ev with
      | classDeclarationExit node =>
        simp only [visit]
        split
        · exact ⟨_, rfl⟩
        · next e rest' he =>
          split
          · obtain ⟨ng, _, hout⟩ := checkEntry_eq cfg oracle e st.reports
              (hst e (by rw [he]; exact List.mem_cons_self _ _)).registered
            rw [hout]
            exact ⟨_, rfl⟩
          · exact ⟨_, rfl⟩
      | extendsSuperClass node =>
        simp only [visit]
        split <;> exact ⟨_, rfl⟩
      | classDeclaration node => exact ⟨_, rfl⟩
      | subscribeCall node => exact ⟨_, rfl⟩
      | propertyDefinition node => exact ⟨_, rfl⟩
      | ngOnDestroy node => exact ⟨_, rfl⟩
      | nextCall node => exact ⟨_, rfl⟩
      | completeCall node => exact ⟨_, rfl⟩
    obtain ⟨st₁, hv⟩ := hv
    obtain ⟨st', hrun⟩ := ih st₁ (visit_collected cfg oracle st st₁ ev hv hst)
    exact ⟨st', by simp only [run, hv]; exact hrun⟩

/-- The exit of a class whose frame is gated appends the reports of `checkEntry` on that
frame to the reports made so far: the theorems on `checkEntry cfg oracle e []` describe
what the traversal reports for the class. -/
theorem visit_classDeclarationExit_gated (cfg : Options) (oracle : Node → Bool) (st : State)
    (node : ClassDeclaration) (e : Entry) (rest : List Entry)
    (hst : st.entries = e :: rest) (hgated : e.hasDecorator = true) (hC : e.Collected) :
    ∃ e' out, checkEntry cfg oracle e [] = some (e', out) ∧
      visit cfg oracle st (Event.classDeclarationExit node)
        = some ⟨rest, st.reports ++ out⟩ := by
  obtain ⟨ng, hng, hout⟩ := checkEntry_eq cfg oracle e [] hC.registered
  obtain ⟨ng', hng', hout'⟩ := checkEntry_eq cfg oracle e st.reports hC.registered
  rw [hng] at hng'
  cases hng'
  refine ⟨_, _, hout, ?_⟩
  simp only [visit, hst, hgated, if_true, hout', List.nil_append, List.append_assoc]

/-! ## The two forms of a token -/

theorem checkOperator_sameOperator (cfg : Options) {a b : Node} (h : SameOperator a b) :
    checkOperator cfg a = checkOperator cfg b := by
  cases h with
  | same => rfl
  | arguments i callee args args' hargs =>
    cases hargs with
    | nil => rfl
    | cons hab _ =>
      cases hab with
      | same => cases callee <;> simp [checkOperator]
      | bare => cases callee <;> simp [checkOperator]
      | this => cases callee <;> simp [checkOperator]

theorem operatorNames_sameOperator (cfg : Options) {ops ops' : List Node}
    (h : List.Forall₂ SameOperator ops ops') :
    operatorNames cfg ops = operatorNames cfg ops' := by
  induction h with
  | nil => rfl
  | @cons x y l l' hab _ ih =>
    have hop := checkOperator_sameOperator cfg hab
    cases hab with
    | same => cases x <;> simp [operatorNames, ih]
    | arguments i callee args args' hargs => simp only [operatorNames, hop, ih]

theorem operatorsFound_sameOperator (cfg : Options) {ops ops' : List Node}
    (h : List.Forall₂ SameOperator ops ops') :
    operatorsFound cfg ops = operatorsFound cfg ops' := by
  induction h with
  | nil => rfl
  | @cons x y l l' hab _ ih =>
    have hop := checkOperator_sameOperator cfg hab
    cases hab with
    | same => cases x <;> simp [operatorsFound, ih]
    | arguments i callee args args' hargs => simp only [operatorsFound, hop, ih]

theorem nid_sameSubscribe {c c' : CallExpr} (h : SameSubscribe c c') : c'.nid = c.nid := by
  cases h <;> rfl

theorem pipeOperators_call (j : Nat) (callee : Node) (ops : List Node) :
    pipeOperators (Node.CallExpression j callee ops) = none ∨
    ∀ ops', pipeOperators (Node.CallExpression j callee ops') = some ops' := by
  cases callee with
  | MemberExpression i o p =>
    cases p with
    | Identifier k name =>
      by_cases hn : name = "pipe"
      · right; intro ops'; simp [pipeOperators, hn]
      · left; simp [pipeOperators, hn]
    | _ => left; simp [pipeOperators]
  | _ => left; simp [pipeOperators]

theorem pipeOperators_call_none {j : Nat} {callee : Node} {ops : List Node}
    (h : pipeOperators (Node.CallExpression j callee ops) = none) (ops' : List Node) :
    pipeOperators (Node.CallExpression j callee ops') = none := by
  rcases pipeOperators_call j callee ops' with h' | h'
  · exact h'
  · rw [h' ops] at h; cases h

theorem subscribe_sameSubscribe (cfg : Options) (oracle : Node → Bool) {c c' : CallExpr}
    (h : SameSubscribe c c') (ho : receiverVerdict oracle c = receiverVerdict oracle c') :
    subscribeReports cfg oracle c = subscribeReports cfg oracle c' ∧
    ∀ m, subscribeNames cfg oracle m c = subscribeNames cfg oracle m c' := by
  cases h with
  | same => exact ⟨rfl, fun _ => rfl⟩
  | operators n i j callee property ops ops' args hops =>
    simp only [receiverVerdict] at ho
    have hn := operatorNames_sameOperator cfg hops
    have hf := operatorsFound_sameOperator cfg hops
    rcases pipeOperators_call j callee ops with hp | hp
    · have hp' := pipeOperators_call_none hp ops'
      simp [subscribeReports, subscribeNames, receiverOperators, hp, hp', ho]
    · simp [subscribeReports, subscribeNames, receiverOperators, hp, ho, hn, hf]

theorem flatMap_sameSubscribe (cfg : Options) (oracle : Node → Bool)
    {calls calls' : List CallExpr}
    (h : List.Forall₂ (fun c c' => SameSubscribe c c' ∧
      receiverVerdict oracle c = receiverVerdict oracle c') calls calls') :
    calls.flatMap (subscribeReports cfg oracle) = calls'.flatMap (subscribeReports cfg oracle) ∧
    ∀ m, calls.foldl (subscribeNames cfg oracle) m = calls'.foldl (subscribeNames cfg oracle) m := by
  induction h with
  | nil => exact ⟨rfl, fun _ => rfl⟩
  | cons hab _ ih =>
    obtain ⟨h1, h2⟩ := subscribe_sameSubscribe cfg oracle hab.1 hab.2
    refine ⟨?_, ?_⟩
    · simp only [List.flatMap_cons, h1, ih.1]
    · intro m
      simp only [List.foldl_cons, h2, ih.2]

theorem targets_sameTeardown (T : String) {c c' : CallExpr} (h : SameTeardown c c') :
    targets T c = targets T c' := by
  cases h with
  | same => rfl
  | object n i a b property args hab =>
    cases hab with
    | same => rfl
    | bare => simp [targets]
    | this => simp [targets]

theorem checkSubjectCall_sameTeardown (T : String) {calls calls' : List CallExpr}
    (h : List.Forall₂ SameTeardown calls calls') :
    checkSubjectCall T calls = checkSubjectCall T calls' := by
  unfold checkSubjectCall
  induction h with
  | nil => rfl
  | cons hab _ ih =>
    have := targets_sameTeardown T hab
    simp only [List.find?_cons, this]
    split
    · rfl
    · exact ih

theorem checkNgOnDestroy_congr (cfg : Options) (e e' : Entry)
    (h1 : e'.classDeclaration = e.classDeclaration)
    (h2 : e'.subscribeCallExpressionsToNames = e.subscribeCallExpressionsToNames)
    (h3 : e'.ngOnDestroyDefinition = e.ngOnDestroyDefinition)
    (h4 : e'.extendsSuperClassDeclaration = e.extendsSuperClassDeclaration)
    (h5 : ∀ d n, nameDescriptors cfg e' d n = nameDescriptors cfg e d n) :
    checkNgOnDestroy cfg e' = checkNgOnDestroy cfg e := by
  have h5' : ∀ d, nameDescriptors cfg e' d = nameDescriptors cfg e d := fun d => funext (h5 d)
  unfold checkNgOnDestroy buildChecks
  simp only [h1, h2, h3, h4, h5']

theorem nameDescriptors_sameFrame (cfg : Options) {e e' : Entry} (h : SameFrame e e')
    (m : List (Nat × List String)) (d : MethodDefinition) (n : String) :
    nameDescriptors cfg (e'.withNames m) d n = nameDescriptors cfg (e.withNames m) d n := by
  have hp : checkSubjectProperty n e' = checkSubjectProperty n e := by
    unfold checkSubjectProperty
    rw [h.propertyDefinitions]
  rw [nameDescriptors_withNames, nameDescriptors_withNames]
  unfold nameDescriptors
  rw [hp, h.classDeclaration, checkSubjectCall_sameTeardown n h.nexts,
    checkSubjectCall_sameTeardown n h.completes]

theorem registered_sameFrame {e e' : Entry} (h : SameFrame e e')
    (hreg : ∀ c ∈ e.subscribeCallExpressions,
      c.nid ∈ e.subscribeCallExpressionsToNames.map Prod.fst) :
    ∀ c ∈ e'.subscribeCallExpressions,
      c.nid ∈ e'.subscribeCallExpressionsToNames.map Prod.fst := by
  rw [h.names]
  have := h.subscribes
  revert hreg
  generalize e.subscribeCallExpressions = calls at this
  generalize e'.subscribeCallExpressions = calls' at this
  induction this with
  | nil => intro _ c hc; simp at hc
  | cons hab _ ih =>
    intro hreg c hc
    rcases List.mem_cons.mp hc with rfl | hc
    · rw [nid_sameSubscribe hab]
      exact hreg _ (List.mem_cons_self _ _)
    · exact ih (fun c hc => hreg c (List.mem_cons_of_mem _ hc)) c hc


/-! ## The claims -/

/-- What `checkEntry` reports under a name, for a frame as collected by the visitors with
an `ngOnDestroy` method, when `checkDestroy` is set. -/
theorem checkEntry_filter_name (cfg : Options) (oracle : Node → Bool) (e : Entry)
    (d : MethodDefinition) (hC : e.Collected) (hcd : cfg.checkDestroy = true)
    (hd : e.ngOnDestroyDefinition = some d) :
    ∃ e' out, checkEntry cfg oracle e [] = some (e', out) ∧
      ∀ T : String, out.filter (fun f => decide (f.name = some T))
        = if reportFlag (nameDescriptors cfg e d) e'.subscribeCallExpressionsToNames T
          then nameDescriptors cfg e d T else [] := by
  obtain ⟨ng, hng, hout⟩ := checkEntry_eq cfg oracle e [] hC.registered
  refine ⟨_, _, hout, ?_⟩
  intro T
  have hsubs : (e.subscribeCallExpressions.flatMap (subscribeReports cfg oracle)).filter
      (fun f => decide (f.name = some T)) = [] := by
    rw [List.filter_eq_nil_iff]
    intro f hf
    rw [List.mem_flatMap] at hf
    obtain ⟨c, _, hf⟩ := hf
    obtain ⟨_, _, _, _, rfl⟩ := subscribeReports_mem hf
    simp
  have hd' : (e.withNames (e.subscribeCallExpressions.foldl (subscribeNames cfg oracle)
      e.subscribeCallExpressionsToNames)).ngOnDestroyDefinition = some d := hd
  obtain ⟨out', hout', hfilter⟩ := checkNgOnDestroy_filter_name cfg _ d hd' T
  rw [hng] at hout'
  cases hout'
  simp only [hcd, if_true, List.nil_append, List.filter_append, hsubs]
  exact hfilter

/-- C1. Aggregation policy of `checkNgOnDestroy`, as run by `checkEntry` on a gated class:
with `checkDestroy` set, for a frame as collected by the visitors with an `ngOnDestroy`
method, `checkEntry` returns, and for every name `T` a descriptor naming `T` is reported
if and only if `T` has at least one accumulated descriptor and some subscription whose set
of names (as recorded by `checkSubscribe`) contains `T` has only names with at least one
accumulated descriptor; what is then reported under `T` is the list of the descriptors
accumulated for `T`. -/
theorem checkEntry_aggregation (cfg : Options) (oracle : Node → Bool) (e : Entry)
    (d : MethodDefinition) (hC : e.Collected) (hcd : cfg.checkDestroy = true)
    (hd : e.ngOnDestroyDefinition = some d) :
    ∃ e' out, checkEntry cfg oracle e [] = some (e', out) ∧
      ∀ T : String,
        ((∃ f ∈ out, f.name = some T) ↔
          (nameDescriptors cfg e d T ≠ [] ∧
            ∃ kv ∈ e'.subscribeCallExpressionsToNames, T ∈ kv.2 ∧
              ∀ U ∈ kv.2, nameDescriptors cfg e d U ≠ [])) ∧
        ((∃ f ∈ out, f.name = some T) →
          out.filter (fun f => decide (f.name = some T)) = nameDescriptors cfg e d T) := by
  obtain ⟨e', out, hout, hfilter⟩ := checkEntry_filter_name cfg oracle e d hC hcd hd
  refine ⟨e', out, hout, ?_⟩
  intro T
  have hT := hfilter T
  by_cases hr : reportFlag (nameDescriptors cfg e d) e'.subscribeCallExpressionsToNames T = true
  · rw [if_pos hr] at hT
    refine ⟨?_, ?_⟩
    · rw [exists_mem_filter_name, hT, ← reportFlag_iff]
      simp [hr]
    · intro _
      exact hT
  · rw [if_neg hr] at hT
    refine ⟨?_, ?_⟩
    · rw [exists_mem_filter_name, hT, ← reportFlag_iff]
      simp [hr]
    · intro h
      rw [exists_mem_filter_name, hT] at h
      exact absurd rfl h

/-- Witness of C1: the component with two subscriptions that each reference only the
undeclared name `B`. -/
theorem checkEntry_aggregation_witness :
    Sample.uncoveredFrame.Collected ∧ (resolve []).checkDestroy = true ∧
    Sample.uncoveredFrame.ngOnDestroyDefinition = some Sample.ngOnDestroy ∧
    ∃ e' out, checkEntry (resolve []) Sample.always Sample.uncoveredFrame [] = some (e', out) ∧
      ∀ T : String,
        ((∃ f ∈ out, f.name = some T) ↔
          (nameDescriptors (resolve []) Sample.uncoveredFrame Sample.ngOnDestroy T ≠ [] ∧
            ∃ kv ∈ e'.subscribeCallExpressionsToNames, T ∈ kv.2 ∧
              ∀ U ∈ kv.2,
                nameDescriptors (resolve []) Sample.uncoveredFrame Sample.ngOnDestroy U ≠ [])) ∧
        ((∃ f ∈ out, f.name = some T) →
          out.filter (fun f => decide (f.name = some T))
            = nameDescriptors (resolve []) Sample.uncoveredFrame Sample.ngOnDestroy T) :=
  ⟨by decide, rfl, rfl,
    checkEntry_aggregation (resolve []) Sample.always Sample.uncoveredFrame Sample.ngOnDestroy
      (by decide) rfl rfl⟩

/-- The two cases of coverage-based suppression, run through the visitors: with the
subscriptions `{A}` and `{A, B}`, `A` correct and `B` undeclared, nothing is reported; with
two subscriptions `{B}`, the descriptors of `B` are reported. -/
theorem coverage_suppression_cases :
    (run (resolve []) Sample.always State.init
        (Sample.coveredBody ++ [.classDeclarationExit Sample.component])).map (·.reports)
      = some [] ∧
    (run (resolve []) Sample.always State.init
        (Sample.uncoveredBody ++ [.classDeclarationExit Sample.component])).map (·.reports)
      = some [⟨MessageId.notDeclared, 2, some "B", none⟩,
          ⟨MessageId.notCalled, 91, some "B", some "next"⟩] := by
  decide

/-- Counterexample to C2 as stated: with the subscriptions `{B}` and `{A, B}`, `A` correct
and `B` undeclared, the descriptors of `B` are reported (by the traversal, and by
`checkEntry` on the frame of the class) although the second subscription, whose recorded
set of names is `{A, B}`, references `B` and also `A`, and `A` has no accumulated
descriptor. -/
theorem surfaced_with_covered_subscription :
    (run (resolve []) Sample.always State.init
        (Sample.mixedBody ++ [.classDeclarationExit Sample.component])).map (·.reports)
      = some [⟨MessageId.notDeclared, 2, some "B", none⟩,
          ⟨MessageId.notCalled, 91, some "B", some "next"⟩] ∧
    (checkEntry (resolve []) Sample.always Sample.mixedFrame []).map
        (fun r => (r.1.subscribeCallExpressionsToNames, r.2))
      = some ([(10, ["B"]), (30, ["A", "B"])],
          [⟨MessageId.notDeclared, 2, some "B", none⟩,
            ⟨MessageId.notCalled, 91, some "B", some "next"⟩]) ∧
    nameDescriptors (resolve []) Sample.mixedFrame Sample.ngOnDestroy "A" = [] ∧
    nameDescriptors (resolve []) Sample.mixedFrame Sample.ngOnDestroy "B" ≠ [] := by
  decide

/-- C2, as amended. With `checkDestroy` set, for a frame as collected by the visitors with
an `ngOnDestroy` method, `checkEntry` returns, and every name under which it reports a
descriptor is in the recorded set of names of at least one subscription all of whose names
have at least one accumulated descriptor. -/
theorem checkEntry_surfaced_some_uncovered (cfg : Options) (oracle : Node → Bool) (e : Entry)
    (d : MethodDefinition) (hC : e.Collected) (hcd : cfg.checkDestroy = true)
    (hd : e.ngOnDestroyDefinition = some d) :
    ∃ e' out, checkEntry cfg oracle e [] = some (e', out) ∧
      ∀ T : String, (∃ f ∈ out, f.name = some T) →
        ∃ kv ∈ e'.subscribeCallExpressionsToNames, T ∈ kv.2 ∧
          ∀ U ∈ kv.2, nameDescriptors cfg e d U ≠ [] := by
  obtain ⟨e', out, hout, hfilter⟩ := checkEntry_filter_name cfg oracle e d hC hcd hd
  refine ⟨e', out, hout, ?_⟩
  intro T h
  rw [exists_mem_filter_name, hfilter T] at h
  by_cases hr : reportFlag (nameDescriptors cfg e d) e'.subscribeCallExpressionsToNames T = true
  · exact reportFlag_iff.mp hr
  · rw [if_neg hr] at h
    exact absurd rfl h

/-- Witness of C2 as amended: the component with the subscriptions `{B}` and `{A, B}`. -/
theorem checkEntry_surfaced_some_uncovered_witness :
    Sample.mixedFrame.Collected ∧ (resolve []).checkDestroy = true ∧
    Sample.mixedFrame.ngOnDestroyDefinition = some Sample.ngOnDestroy ∧
    ∃ e' out, checkEntry (resolve []) Sample.always Sample.mixedFrame [] = some (e', out) ∧
      ∀ T : String, (∃ f ∈ out, f.name = some T) →
        ∃ kv ∈ e'.subscribeCallExpressionsToNames, T ∈ kv.2 ∧
          ∀ U ∈ kv.2,
            nameDescriptors (resolve []) Sample.mixedFrame Sample.ngOnDestroy U ≠ [] :=
  ⟨by decide, rfl, rfl,
    checkEntry_surfaced_some_uncovered (resolve []) Sample.always Sample.mixedFrame
      Sample.ngOnDestroy (by decide) rfl rfl⟩

/-- C3. No false positive on correct pairing: in a frame as collected by the visitors, if
some collected property definition has key name `T`, some call collected as a `next` call
in `ngOnDestroy` has the shape `T.next()` or `this.T.next()`, and (when `checkComplete` is
set) some collected `complete` call has that shape, then `checkEntry` returns and none of
its reports names `T`, whatever the configuration, the oracle and the rest of the frame. -/
theorem checkEntry_no_report_on_correct_token (cfg : Options) (oracle : Node → Bool)
    (e : Entry) (T : String) (hC : e.Collected)
    (hprop : ∃ p ∈ e.propertyDefinitions, p.key.name? = some T)
    (hnext : ∃ c ∈ e.nextCallExpressions, IsCallOn T c)
    (hcomplete : cfg.checkComplete = true → ∃ c ∈ e.completeCallExpressions, IsCallOn T c) :
    ∃ e' out, checkEntry cfg oracle e [] = some (e', out) ∧
      ∀ f ∈ out, f.name ≠ some T := by
  obtain ⟨ng, hng, hout⟩ := checkEntry_eq cfg oracle e [] hC.registered
  refine ⟨_, _, hout, ?_⟩
  intro f hf hname
  simp only [List.nil_append, List.mem_append, List.mem_flatMap] at hf
  rcases hf with ⟨c, _, hf⟩ | hf
  · obtain ⟨i, o, p, _, rfl⟩ := subscribeReports_mem hf
    simp at hname
  · split at hf
    · rcases checkNgOnDestroy_mem hng hf with ⟨_, _, rfl⟩ | ⟨d, n, _, hn⟩
      · simp at hname
      · have hnT : n = T := by
          have := nameDescriptors_name hn
          rw [hname] at this
          exact (Option.some.inj this).symm
        subst hnT
        rw [nameDescriptors_withNames] at hn
        have h1 : checkSubjectProperty n e = true := checkSubjectProperty_iff.mpr hprop
        have h2 : checkSubjectCall n e.nextCallExpressions = true :=
          checkSubjectCall_iff.mpr hnext
        unfold nameDescriptors at hn
        by_cases hcc : cfg.checkComplete = true
        · have h3 : checkSubjectCall n e.completeCallExpressions = true :=
            checkSubjectCall_iff.mpr (hcomplete hcc)
          simp [h1, h2, h3] at hn
        · simp [h1, h2, hcc] at hn
    · simp at hf

/-- Witness of C3: the component with property `A`, `this.A.next()` in `ngOnDestroy` and
the subscriptions `{A}` and `{A, B}`; the name is `A`. -/
theorem checkEntry_no_report_on_correct_token_witness :
    Sample.coveredFrame.Collected ∧
    (∃ p ∈ Sample.coveredFrame.propertyDefinitions, p.key.name? = some "A") ∧
    (∃ c ∈ Sample.coveredFrame.nextCallExpressions, IsCallOn "A" c) ∧
    ∃ e' out, checkEntry (resolve []) Sample.always Sample.coveredFrame [] = some (e', out) ∧
      ∀ f ∈ out, f.name ≠ some "A" :=
  have hprop : ∃ p ∈ Sample.coveredFrame.propertyDefinitions, p.key.name? = some "A" :=
    ⟨Sample.propertyA, List.mem_singleton.mpr rfl, rfl⟩
  have hnext : ∃ c ∈ Sample.coveredFrame.nextCallExpressions, IsCallOn "A" c :=
    ⟨Sample.thisCall 60 "A" "next", List.mem_singleton.mpr rfl,
      Or.inr ⟨61, 62, 63, 64, _, rfl⟩⟩
  ⟨by decide, hprop, hnext,
    checkEntry_no_report_on_correct_token (resolve []) Sample.always Sample.coveredFrame "A"
      (by decide) hprop hnext (fun h => absurd h (by decide))⟩

theorem filter_subscribeReports_other (cfg : Options) (oracle : Node → Bool)
    (P : Descriptor → Bool) (n : Nat) (hP : ∀ f, P f = true → f.node = n)
    (calls : List CallExpr)
    (h : ∀ c' ∈ calls, ∀ i' o' p', c'.callee = Node.MemberExpression i' o' p' → p'.nid ≠ n) :
    (calls.flatMap (subscribeReports cfg oracle)).filter P = [] := by
  rw [List.filter_eq_nil_iff]
  intro f hf hPf
  rw [List.mem_flatMap] at hf
  obtain ⟨c', hc', hf⟩ := hf
  obtain ⟨i', o', p', hcal, rfl⟩ := subscribeReports_mem hf
  exact h c' hc' i' o' p' hcal (hP _ hPf)

theorem checkNgOnDestroy_not_noTakeUntil {cfg : Options} {e : Entry} {out : List Descriptor}
    {f : Descriptor} (hout : checkNgOnDestroy cfg e = some out) (hf : f ∈ out) :
    f.messageId ≠ MessageId.noTakeUntil := by
  rcases checkNgOnDestroy_mem hout hf with ⟨_, _, rfl⟩ | ⟨d, n, _, hn⟩
  · simp
  · rcases nameDescriptors_messageId hn with h | h <;> simp [h]

/-- C4. Missing-pairing detection: in a frame as collected by the visitors, for a collected
`subscribe` call whose receiver the oracle affirms and is not a `pipe(...)` call, and whose
callee property node is not the callee property node of another collected call,
`checkEntry` returns and reports exactly one `noTakeUntil` descriptor at that property
node, whatever the configuration and the rest of the frame. -/
theorem checkEntry_noTakeUntil_without_pipe (cfg : Options) (oracle : Node → Bool)
    (e : Entry) (pre post : List CallExpr) (c : CallExpr) (i : Nat) (object property : Node)
    (hC : e.Collected) (hcalls : e.subscribeCallExpressions = pre ++ c :: post)
    (hcallee : c.callee = Node.MemberExpression i object property)
    (horacle : oracle object = true) (hpipe : pipeOperators object = none)
    (hother : ∀ c' ∈ pre ++ post, ∀ i' o' p',
      c'.callee = Node.MemberExpression i' o' p' → p'.nid ≠ property.nid) :
    ∃ e' out, checkEntry cfg oracle e [] = some (e', out) ∧
      out.filter (fun f =>
          decide (f.messageId = MessageId.noTakeUntil ∧ f.node = property.nid))
        = [⟨MessageId.noTakeUntil, property.nid, none, none⟩] := by
  obtain ⟨ng, hng, hout⟩ := checkEntry_eq cfg oracle e [] hC.registered
  refine ⟨_, _, hout, ?_⟩
  have hP : ∀ f : Descriptor,
      decide (f.messageId = MessageId.noTakeUntil ∧ f.node = property.nid) = true →
        f.node = property.nid := by
    intro f hf
    simp only [decide_eq_true_eq] at hf
    exact hf.2
  have hpre := filter_subscribeReports_other cfg oracle _ property.nid hP pre
    (fun c' hc' => hother c' (List.mem_append_left _ hc'))
  have hpost := filter_subscribeReports_other cfg oracle _ property.nid hP post
    (fun c' hc' => hother c' (List.mem_append_right _ hc'))
  have hc : subscribeReports cfg oracle c
      = [⟨MessageId.noTakeUntil, property.nid, none, none⟩] := by
    simp [subscribeReports, hcallee, horacle, receiverOperators, hpipe, operatorsFound]
  have hngf : (if cfg.checkDestroy then ng else []).filter (fun f =>
      decide (f.messageId = MessageId.noTakeUntil ∧ f.node = property.nid)) = [] := by
    rw [List.filter_eq_nil_iff]
    intro f hf hPf
    simp only [decide_eq_true_eq] at hPf
    split at hf
    · exact checkNgOnDestroy_not_noTakeUntil hng hf hPf.1
    · simp at hf
  rw [hcalls, List.nil_append, List.filter_append, hngf, List.flatMap_append,
    List.flatMap_cons, List.filter_append, List.filter_append, hpre, hpost, hc]
  simp

/-- Witness of C4: the component with the single call `a.subscribe()`. -/
theorem checkEntry_noTakeUntil_without_pipe_witness :
    Sample.plainFrame.Collected ∧
    ∃ e' out, checkEntry (resolve []) Sample.always Sample.plainFrame [] = some (e', out) ∧
      out.filter (fun f => decide (f.messageId = MessageId.noTakeUntil ∧
          f.node = (Node.Identifier 13 "subscribe").nid))
        = [⟨MessageId.noTakeUntil, (Node.Identifier 13 "subscribe").nid, none, none⟩] :=
  ⟨by decide,
    checkEntry_noTakeUntil_without_pipe (resolve []) Sample.always Sample.plainFrame [] []
      (Sample.plainSubscribe 10 "a") 11 (Node.Identifier 12 "a") (Node.Identifier 13 "subscribe")
      (by decide) rfl rfl rfl rfl (fun c' hc' => absurd hc' (List.not_mem_nil c'))⟩

theorem withNames_names_ne_nil (cfg : Options) (oracle : Node → Bool) {e : Entry}
    (hC : e.Collected) (hsub : e.subscribeCallExpressions ≠ []) :
    (e.withNames (e.subscribeCallExpressions.foldl (subscribeNames cfg oracle)
      e.subscribeCallExpressionsToNames)).subscribeCallExpressionsToNames ≠ [] := by
  obtain ⟨c, hc⟩ := List.exists_mem_of_ne_nil _ hsub
  have hk := hC.registered c hc
  intro h
  have hkeys := keys_foldl_subscribeNames cfg oracle e.subscribeCallExpressions
    e.subscribeCallExpressionsToNames
  simp only [Entry.withNames] at h
  rw [h] at hkeys
  rw [← hkeys] at hk
  simp at hk

theorem operatorsFound_of_mem {cfg : Options} {op : Node} {i : Nat} {callee : Node}
    {args : List Node} (hop : op = Node.CallExpression i callee args)
    (hfound : (checkOperator cfg op).found = true) :
    ∀ operators : List Node, op ∈ operators → operatorsFound cfg operators = true := by
  intro operators
  induction operators with
  | nil => intro h; simp at h
  | cons a rest ih =>
    intro h
    rcases List.mem_cons.mp h with h | h
    · subst h
      subst hop
      simp [operatorsFound, hfound]
    · have := ih h
      cases a <;> simp [operatorsFound, this]

/-- C7. Aliased operators: under the options `alias = ["untilDestroyed"]` with
`checkDestroy` omitted, `checkOperator` gives `found` without a name for the operator
`untilDestroyed()`; for a frame as collected by the visitors and a collected call
`x.pipe(..., untilDestroyed(), ...).subscribe()` whose callee property node is not that of
another collected call, `checkEntry` returns, every report it makes is a `noTakeUntil`
descriptor (no `noDestroy`, `notDeclared` or `notCalled`, also without `ngOnDestroy`),
and none is at the property node of this call. -/
theorem aliased_operator_is_paired (config : Config) (oracle : Node → Bool) (e : Entry)
    (pre post : List CallExpr) (c : CallExpr) (i j k : Nat) (object property : Node)
    (before after : List Node)
    (halias : config.aliases = some ["untilDestroyed"]) (hcd : config.checkDestroy = none)
    (hC : e.Collected) (hcalls : e.subscribeCallExpressions = pre ++ c :: post)
    (hcallee : c.callee = Node.MemberExpression i object property)
    (hpipe : pipeOperators object
      = some (before ++ Node.CallExpression j (Node.Identifier k "untilDestroyed") [] :: after))
    (hother : ∀ c' ∈ pre ++ post, ∀ i' o' p',
      c'.callee = Node.MemberExpression i' o' p' → p'.nid ≠ property.nid) :
    checkOperator (resolve [config])
        (Node.CallExpression j (Node.Identifier k "untilDestroyed") []) = ⟨true, none⟩ ∧
    ∃ e' out, checkEntry (resolve [config]) oracle e [] = some (e', out) ∧
      (∀ f ∈ out, f.messageId = MessageId.noTakeUntil) ∧
      ∀ f ∈ out, f.node ≠ property.nid := by
  have hcfg1 : (resolve [config]).aliases = ["untilDestroyed"] := by
    simp [resolve, halias]
  have hcfg2 : (resolve [config]).checkDestroy = false := by
    simp [resolve, halias, hcd]
  have hop : checkOperator (resolve [config])
      (Node.CallExpression j (Node.Identifier k "untilDestroyed") []) = ⟨true, none⟩ := by
    simp [checkOperator, hcfg1, hcfg2]
  refine ⟨hop, ?_⟩
  obtain ⟨ng, _, hout⟩ := checkEntry_eq (resolve [config]) oracle e [] hC.registered
  refine ⟨_, _, hout, ?_, ?_⟩
  · intro f hf
    simp only [hcfg2, List.nil_append, List.append_nil, Bool.false_eq_true, if_false,
      List.mem_flatMap] at hf
    obtain ⟨c', _, hf⟩ := hf
    obtain ⟨_, _, _, _, rfl⟩ := subscribeReports_mem hf
    rfl
  · intro f hf hnode
    simp only [hcfg2, List.nil_append, List.append_nil, Bool.false_eq_true, if_false,
      List.mem_flatMap, hcalls] at hf
    obtain ⟨c', hc', hf⟩ := hf
    have hc'' : c' ∈ pre ++ post ∨ c' = c := by
      simp only [List.mem_append, List.mem_cons] at hc' ⊢
      tauto
    rcases hc'' with hc'' | rfl
    · obtain ⟨i', o', p', hcal, rfl⟩ := subscribeReports_mem hf
      exact hother c' hc'' i' o' p' hcal hnode
    · have hfound : operatorsFound (resolve [config]) (receiverOperators object) = true := by
        simp only [receiverOperators, hpipe]
        exact operatorsFound_of_mem rfl (by rw [hop]) _ (by simp)
      simp [subscribeReports, hcallee, hfound] at hf

/-- Witness of C7: the component with the single call
`a.pipe(untilDestroyed()).subscribe()` and no `ngOnDestroy`. -/
theorem aliased_operator_is_paired_witness :
    Sample.aliasFrame.Collected ∧
    checkOperator (resolve [Sample.aliasConfig])
        (Node.CallExpression 20 (Node.Identifier 21 "untilDestroyed") []) = ⟨true, none⟩ ∧
    ∃ e' out, checkEntry (resolve [Sample.aliasConfig]) Sample.always Sample.aliasFrame []
        = some (e', out) ∧
      (∀ f ∈ out, f.messageId = MessageId.noTakeUntil) ∧
      ∀ f ∈ out, f.node ≠ (Node.Identifier 16 "subscribe").nid :=
  ⟨by decide,
    aliased_operator_is_paired Sample.aliasConfig Sample.always Sample.aliasFrame [] []
      (Sample.pipedSubscribe 10 "a" [Sample.untilDestroyed 20]) 11 20 21 _
      (Node.Identifier 16 "subscribe") [] [] rfl rfl (by decide) rfl rfl rfl
      (fun c' hc' => absurd hc' (List.not_mem_nil c'))⟩

/-- C8. Trigger-not-called scenario: under the default configuration, for a frame as
collected by the visitors whose only collected call is `obs.pipe(takeUntil(this.T)).subscribe()`
with a receiver affirmed by the oracle, with a property definition of key name `T`, an
`ngOnDestroy` method and no collected `next` call of the shape `T.next()` or
`this.T.next()`, `checkEntry` returns and reports exactly one descriptor: `notCalled` with
data `method = "next"`, `name = T`, at the key of the `ngOnDestroy` definition. -/
theorem checkEntry_trigger_not_called (oracle : Node → Bool) (e : Entry) (c : CallExpr)
    (T : String) (d : MethodDefinition) (i j k l m n p q r : Nat) (obs property : Node)
    (hC : e.Collected) (hcalls : e.subscribeCallExpressions = [c])
    (hcallee : c.callee = Node.MemberExpression i
      (Node.CallExpression j (Node.MemberExpression k obs (Node.Identifier l "pipe"))
        [Node.CallExpression m (Node.Identifier n "takeUntil")
          [Node.MemberExpression p (Node.ThisExpression q) (Node.Identifier r T)]])
      property)
    (horacle : oracle (Node.CallExpression j
      (Node.MemberExpression k obs (Node.Identifier l "pipe"))
        [Node.CallExpression m (Node.Identifier n "takeUntil")
          [Node.MemberExpression p (Node.ThisExpression q) (Node.Identifier r T)]]) = true)
    (hT : T ≠ "")
    (hprop : ∃ pd ∈ e.propertyDefinitions, pd.key.name? = some T)
    (hd : e.ngOnDestroyDefinition = some d)
    (hnext : ∀ c' ∈ e.nextCallExpressions, ¬ IsCallOn T c') :
    ∃ e', checkEntry (resolve []) oracle e []
      = some (e', [⟨MessageId.notCalled, d.key.nid, some T, some "next"⟩]) := by
  obtain ⟨ng, hng, hout⟩ := checkEntry_eq (resolve []) oracle e [] hC.registered
  have hmap : e.subscribeCallExpressionsToNames = [(c.nid, [])] := by
    have := hC
    unfold Entry.Collected at this
    rw [this, hcalls]
    rfl
  have h1 : checkSubjectProperty T e = true := checkSubjectProperty_iff.mpr hprop
  have h2 : checkSubjectCall T e.nextCallExpressions = false := by
    cases h : checkSubjectCall T e.nextCallExpressions with
    | false => rfl
    | true =>
      obtain ⟨c', hc', hc''⟩ := checkSubjectCall_iff.mp h
      exact absurd hc'' (hnext c' hc')
  have hdesc : nameDescriptors (resolve []) e d T
      = [⟨MessageId.notCalled, d.key.nid, some T, some "next"⟩] := by
    simp [nameDescriptors, h1, h2, resolve, Config.empty]
  have hnames : e.subscribeCallExpressions.foldl (subscribeNames (resolve []) oracle)
      e.subscribeCallExpressionsToNames = [(c.nid, [T])] := by
    rw [hcalls, hmap]
    simp [subscribeNames, hcallee, horacle, mapGet, mapSet, receiverOperators, pipeOperators,
      operatorNames, checkOperator, hT, setAdd]
  have hsubs : e.subscribeCallExpressions.flatMap (subscribeReports (resolve []) oracle)
      = [] := by
    rw [hcalls]
    simp [subscribeReports, hcallee, horacle, receiverOperators, pipeOperators,
      operatorsFound, checkOperator]
  have hngval : ng = [⟨MessageId.notCalled, d.key.nid, some T, some "next"⟩] := by
    rw [hnames] at hng
    have hd' : (e.withNames [(c.nid, [T])]).ngOnDestroyDefinition = some d := hd
    rw [checkNgOnDestroy_eq (resolve []) (e.withNames [(c.nid, [T])]) d hd'
      (by simp [Entry.withNames])] at hng
    have hdesc' : nameDescriptors (resolve []) (e.withNames [(c.nid, [T])]) d T
        = [⟨MessageId.notCalled, d.key.nid, some T, some "next"⟩] := hdesc
    have hm : (e.withNames [(c.nid, [T])]).subscribeCallExpressionsToNames = [(c.nid, [T])] :=
      rfl
    rw [hm] at hng
    simp [collectNames, setAdd, reportFlag, uncovered, hdesc'] at hng
    exact hng.symm
  refine ⟨e.withNames (e.subscribeCallExpressions.foldl (subscribeNames (resolve []) oracle)
    e.subscribeCallExpressionsToNames), ?_⟩
  rw [hout, hsubs, hngval]
  simp [resolve, Config.empty]

/-- Witness of C8: the component with property `A`, the single call
`a.pipe(takeUntil(this.A)).subscribe()` and an empty `ngOnDestroy`. -/
theorem checkEntry_trigger_not_called_witness :
    Sample.untriggeredFrame.Collected ∧
    ∃ e', checkEntry (resolve []) Sample.always Sample.untriggeredFrame []
      = some (e', [⟨MessageId.notCalled, Sample.ngOnDestroy.key.nid, some "A", some "next"⟩]) :=
  ⟨by decide,
    checkEntry_trigger_not_called Sample.always Sample.untriggeredFrame
      (Sample.pipedSubscribe 10 "a" [Sample.takeUntilThis 20 "A"]) "A" Sample.ngOnDestroy
      11 12 13 15 20 21 22 23 24 (Node.Identifier 14 "a") (Node.Identifier 16 "subscribe")
      (by decide) rfl rfl rfl (by decide)
      ⟨Sample.propertyA, List.mem_singleton.mpr rfl, rfl⟩ rfl
      (fun c' hc' => absurd hc' (List.not_mem_nil c'))⟩

/-- C6. Ungated scopes are invisible. (1) The frame pushed for a class declaration has the
flag `hasDecorator cfg node`, and no visitor changes the flag of a frame on the stack.
(2) A visitor call other than the exit of a class whose frame is gated returns and leaves
the reports as they are: the exit of an ungated class reports nothing, whatever its frame
holds. (3) For a file in which no class declaration is gated, the traversal returns with
an empty list of reports. -/
theorem ungated_scopes_invisible (cfg : Options) (oracle : Node → Bool) :
    (∀ (st st' : State) (ev : Event), visit cfg oracle st ev = some st' →
      st'.entries.map (·.hasDecorator) =
        match ev with
        | .classDeclaration node => hasDecorator cfg node :: st.entries.map (·.hasDecorator)
        | .classDeclarationExit _ => (st.entries.map (·.hasDecorator)).tail
        | _ => st.entries.map (·.hasDecorator)) ∧
    (∀ (st : State) (ev : Event),
      (∀ node e rest, ev = Event.classDeclarationExit node → st.entries = e :: rest →
        e.hasDecorator = false) →
      ∃ entries, visit cfg oracle st ev = some ⟨entries, st.reports⟩) ∧
    (∀ events : List Event,
      (∀ node, Event.classDeclaration node ∈ events → hasDecorator cfg node = false) →
      ∃ entries, run cfg oracle State.init events = some ⟨entries, []⟩) :=
  ⟨visit_flags cfg oracle, visit_reports_unchanged cfg oracle,
    fun events h => run_ungated cfg oracle events State.init
      (fun e he => absurd he (List.not_mem_nil e)) h⟩

/-- Witness of C6: a file with an undecorated class that holds a `subscribe` call, a
property and a nested class decorated `@Injectable()`, under the default options. -/
theorem ungated_scopes_invisible_witness :
    (∀ node, Event.classDeclaration node ∈ Sample.ungatedFile →
      hasDecorator (resolve []) node = false) ∧
    ∃ entries, run (resolve []) Sample.always State.init Sample.ungatedFile
      = some ⟨entries, []⟩ :=
  have h : ∀ node, Event.classDeclaration node ∈ Sample.ungatedFile →
      hasDecorator (resolve []) node = false := by
    intro node hn
    simp [Sample.ungatedFile] at hn
    rcases hn with rfl | rfl <;> rfl
  ⟨h, (ungated_scopes_invisible (resolve []) Sample.always).2.2 Sample.ungatedFile h⟩

/-- C10. Configuration defaults: an omitted field resolves to `alias = []`,
`checkComplete = false`, `checkDecorators = ["Component"]`, `superClass = []`, and
`checkDestroy` to whether the resolved `alias` is empty; a supplied field is used as given,
`checkDestroy` included whatever `alias` is; without an options object all five defaults
apply. -/
theorem resolve_defaults (config : Config) (rest : List Config) :
    (config.aliases = none → (resolve (config :: rest)).aliases = []) ∧
    (∀ a, config.aliases = some a → (resolve (config :: rest)).aliases = a) ∧
    (config.checkComplete = none → (resolve (config :: rest)).checkComplete = false) ∧
    (∀ b, config.checkComplete = some b → (resolve (config :: rest)).checkComplete = b) ∧
    (config.checkDecorators = none →
      (resolve (config :: rest)).checkDecorators = ["Component"]) ∧
    (∀ ds, config.checkDecorators = some ds →
      (resolve (config :: rest)).checkDecorators = ds) ∧
    (config.superClass = none → (resolve (config :: rest)).superClass = []) ∧
    (∀ s, config.superClass = some s → (resolve (config :: rest)).superClass = s) ∧
    (config.checkDestroy = none →
      ((resolve (config :: rest)).checkDestroy = true ↔
        (resolve (config :: rest)).aliases = [])) ∧
    (∀ b, config.checkDestroy = some b → (resolve (config :: rest)).checkDestroy = b) ∧
    resolve [] = ⟨[], false, ["Component"], true, []⟩ := by
  refine ⟨?_, ?_, ?_, ?_, ?_, ?_, ?_, ?_, ?_, ?_, rfl⟩
  · intro h; simp [resolve, h]
  · intro a h; simp [resolve, h]
  · intro h; simp [resolve, h]
  · intro b h; simp [resolve, h]
  · intro h; simp [resolve, h]
  · intro ds h; simp [resolve, h]
  · intro h; simp [resolve, h]
  · intro s h; simp [resolve, h]
  · intro h
    simp only [resolve, h]
    cases config.aliases <;> simp [List.length_eq_zero]
  · intro b h; simp [resolve, h]

/-- C9. The two forms of a token are equivalent. `checkOperator` returns the same result
for an operator with first argument `this.T` and with first argument `T`; the predicate of
`checkSubjectCall` holds for `T` on both `T.m()` and `this.T.m()`. Hence, for a frame as
collected by the visitors and a frame that differs from it only in the form of operator
arguments and of the objects of teardown calls, with the same answers of the oracle on
the receivers of corresponding `subscribe` calls, `checkEntry` returns on both with the
same list of reports. -/
theorem token_forms_equivalent (cfg : Options) (oracle : Node → Bool) (e e' : Entry)
    (hC : e.Collected) (hframe : SameFrame e e')
    (horacle : List.Forall₂
      (fun c c' => receiverVerdict oracle c = receiverVerdict oracle c')
      e.subscribeCallExpressions e'.subscribeCallExpressions) :
    (∀ (i i' j k l m : Nat) (callee : Node) (T : String) (rest : List Node),
      checkOperator cfg (Node.CallExpression i callee
          (Node.MemberExpression j (Node.ThisExpression k) (Node.Identifier l T) :: rest))
        = checkOperator cfg (Node.CallExpression i' callee (Node.Identifier m T :: rest))) ∧
    (∀ (T : String) (n n' i i' j k l m : Nat) (property property' : Node)
        (args args' : List Node),
      targets T ⟨n, Node.MemberExpression i
          (Node.MemberExpression j (Node.ThisExpression k) (Node.Identifier l T)) property,
          args⟩ = true ∧
      targets T ⟨n', Node.MemberExpression i' (Node.Identifier m T) property', args'⟩ = true) ∧
    ∃ e₁ e₂ out, checkEntry cfg oracle e [] = some (e₁, out) ∧
      checkEntry cfg oracle e' [] = some (e₂, out) := by
  refine ⟨?_, ?_, ?_⟩
  · intro i i' j k l m callee T rest
    cases callee <;> simp [checkOperator]
  · intro T n n' i i' j k l m property property' args args'
    simp [targets]
  · have hreg := hC.registered
    have hreg' := registered_sameFrame hframe hreg
    obtain ⟨ng, hng, hout⟩ := checkEntry_eq cfg oracle e [] hreg
    obtain ⟨ng', hng', hout'⟩ := checkEntry_eq cfg oracle e' [] hreg'
    have hboth : List.Forall₂ (fun c c' => SameSubscribe c c' ∧
        receiverVerdict oracle c = receiverVerdict oracle c')
        e.subscribeCallExpressions e'.subscribeCallExpressions := by
      have hs := hframe.subscribes
      revert horacle
      generalize e.subscribeCallExpressions = calls at hs
      generalize e'.subscribeCallExpressions = calls' at hs
      induction hs with
      | nil => intro _; exact List.Forall₂.nil
      | cons hab _ ih =>
        intro horacle
        cases horacle with
        | cons ho hos => exact List.Forall₂.cons ⟨hab, ho⟩ (ih hos)
    obtain ⟨hreports, hnames⟩ := flatMap_sameSubscribe cfg oracle hboth
    rw [hframe.names, ← hnames, ← hreports] at hout'
    rw [hframe.names, ← hnames] at hng'
    have hcongr := checkNgOnDestroy_congr cfg
      (e.withNames (e.subscribeCallExpressions.foldl (subscribeNames cfg oracle)
        e.subscribeCallExpressionsToNames))
      (e'.withNames (e.subscribeCallExpressions.foldl (subscribeNames cfg oracle)
        e.subscribeCallExpressionsToNames))
      hframe.classDeclaration rfl hframe.ngOnDestroyDefinition
      hframe.extendsSuperClassDeclaration
      (fun d n => nameDescriptors_sameFrame cfg hframe _ d n)
    rw [hcongr, hng] at hng'
    cases hng'
    exact ⟨_, _, _, hout, hout'⟩

/-- Witness of C9: the component with property `A`, an empty `ngOnDestroy` and the single
call `a.pipe(takeUntil(this.A)).subscribe()`, against the same with `takeUntil(A)`. -/
theorem token_forms_equivalent_witness :
    Sample.untriggeredFrame.Collected ∧
    SameFrame Sample.untriggeredFrame Sample.untriggeredBareFrame ∧
    ∃ e₁ e₂ out,
      checkEntry (resolve []) Sample.always Sample.untriggeredFrame [] = some (e₁, out) ∧
      checkEntry (resolve []) Sample.always Sample.untriggeredBareFrame [] = some (e₂, out) :=
  have hf : SameFrame Sample.untriggeredFrame Sample.untriggeredBareFrame :=
    ⟨rfl, rfl, rfl, rfl, rfl, rfl,
      List.Forall₂.cons
        (SameSubscribe.operators 10 11 12
          (Node.MemberExpression 13 (Node.Identifier 14 "a") (Node.Identifier 15 "pipe"))
          (Node.Identifier 16 "subscribe") _ _ []
          (List.Forall₂.cons
            (SameOperator.arguments 20 (Node.Identifier 21 "takeUntil") _ _
              (List.Forall₂.cons (SameToken.bare 22 23 24 25 "A") List.Forall₂.nil))
            List.Forall₂.nil))
        List.Forall₂.nil,
      List.Forall₂.nil, List.Forall₂.nil⟩
  ⟨by decide, hf,
    (token_forms_equivalent (resolve []) Sample.always Sample.untriggeredFrame
      Sample.untriggeredBareFrame (by decide) hf
      (List.Forall₂.cons rfl List.Forall₂.nil)).2.2⟩

/-- Every report of a traversal satisfies a property that the reports of `checkEntry` on
collected frames satisfy. -/
theorem run_reports_forall (cfg : Options) (oracle : Node → Bool) (P : Descriptor → Prop)
    (hP : ∀ e : Entry, e.Collected → ∀ e' out, checkEntry cfg oracle e [] = some (e', out) →
      ∀ f ∈ out, P f)
    (events : List Event) :
    ∀ st st' : State, (∀ e ∈ st.entries, e.Collected) → (∀ f ∈ st.reports, P f) →
      run cfg oracle st events = some st' → ∀ f ∈ st'.reports, P f := by
  induction events with
  | nil =>
    intro st st' _ hrs h
    simp only [run, Option.some.injEq] at h
    subst h
    exact hrs
  | cons ev rest ih =>
    intro st st' hst hrs h
    simp only [run] at h
    split at h
    · cases h
    · next st₁ hv =>
      refine ih st₁ st' (visit_collected cfg oracle st st₁ ev hv hst) ?_ h
      by_cases hex : ∃ node e tl, ev = Event.classDeclarationExit node ∧ st.entries = e :: tl ∧
          e.hasDecorator = true
      · obtain ⟨node, e, tl, rfl, hent, hg⟩ := hex
        obtain ⟨e', out, hout, hvisit⟩ := visit_classDeclarationExit_gated cfg oracle st node e tl
          hent hg (hst e (by rw [hent]; exact List.mem_cons_self _ _))
        rw [hvisit] at hv
        cases hv
        intro f hf
        rcases List.mem_append.mp hf with hf | hf
        · exact hrs f hf
        · exact hP e (hst e (by rw [hent]; exact List.mem_cons_self _ _)) e' out hout f hf
      · obtain ⟨entries, hvisit⟩ := visit_reports_unchanged cfg oracle st ev (by
          intro node e tl hev hent
          cases hg : e.hasDecorator with
          | false => rfl
          | true => exact absurd ⟨node, e, tl, hev, hent, hg⟩ hex)
        rw [hvisit] at hv
        cases hv
        exact hrs

/-- Membership in the descriptors accumulated for a name. -/
theorem mem_nameDescriptors {cfg : Options} {e : Entry} {d : MethodDefinition} {T : String}
    {f : Descriptor} :
    f ∈ nameDescriptors cfg e d T ↔
      (checkSubjectProperty T e = false ∧
        f = ⟨MessageId.notDeclared, classNode e.classDeclaration, some T, none⟩) ∨
      (checkSubjectCall T e.nextCallExpressions = false ∧
        f = ⟨MessageId.notCalled, d.key.nid, some T, some "next"⟩) ∨
      (cfg.checkComplete = true ∧ checkSubjectCall T e.completeCallExpressions = false ∧
        f = ⟨MessageId.notCalled, d.key.nid, some T, some "complete"⟩) := by
  unfold nameDescriptors
  cases checkSubjectProperty T e <;> cases checkSubjectCall T e.nextCallExpressions <;>
    cases cfg.checkComplete <;> cases checkSubjectCall T e.completeCallExpressions <;>
    simp

theorem checkSubjectCall_eq_false_iff {T : String} {calls : List CallExpr} :
    checkSubjectCall T calls = false ↔ ¬ ∃ c ∈ calls, IsCallOn T c := by
  rw [← checkSubjectCall_iff]
  simp

theorem checkEntry_mem {cfg : Options} {oracle : Node → Bool} {e e' : Entry}
    {out : List Descriptor} {f : Descriptor} (hC : e.Collected)
    (hout : checkEntry cfg oracle e [] = some (e', out)) (hf : f ∈ out) :
    (∃ p, f = ⟨MessageId.noTakeUntil, p, none, none⟩) ∨
    (cfg.checkDestroy = true ∧
      ((f = ⟨MessageId.noDestroy, classNode e.classDeclaration, none, none⟩) ∨
        ∃ d n, e.ngOnDestroyDefinition = some d ∧ f ∈ nameDescriptors cfg e d n)) := by
  obtain ⟨ng, hng, hout'⟩ := checkEntry_eq cfg oracle e [] hC.registered
  rw [hout'] at hout
  cases hout
  simp only [List.nil_append, List.mem_append, List.mem_flatMap] at hf
  rcases hf with ⟨c, _, hf⟩ | hf
  · obtain ⟨_, _, p, _, rfl⟩ := subscribeReports_mem hf
    exact Or.inl ⟨_, rfl⟩
  · split at hf
    · next hcd =>
      right
      refine ⟨hcd, ?_⟩
      rcases checkNgOnDestroy_mem hng hf with ⟨_, _, h⟩ | ⟨d, n, hd, hn⟩
      · exact Or.inl h
      · exact Or.inr ⟨d, n, hd, hn⟩
    · simp at hf

/-- C11. Completion check: for a referenced name `T`, the check stored for `T` in
`namesToChecks` holds the descriptor `notCalled` with data `method = "complete"`,
`name = T` (at the key of `ngOnDestroy`) if and only if `checkComplete` is set and no call
collected as a `complete` call in `ngOnDestroy` has the shape `T.complete()` or
`this.T.complete()`; with `checkComplete` unset, every traversal returns and none of its
reports has the method `"complete"`. -/
theorem complete_check (cfg : Options) (oracle : Node → Bool) (e : Entry)
    (d : MethodDefinition) (T : String)
    (hT : T ∈ collectNames e.subscribeCallExpressionsToNames) :
    (∃ check, mapGet (buildChecks cfg e d (collectNames e.subscribeCallExpressionsToNames)) T
        = some check ∧
      (⟨MessageId.notCalled, d.key.nid, some T, some "complete"⟩ ∈ check.descriptors ↔
        (cfg.checkComplete = true ∧ ¬ ∃ c ∈ e.completeCallExpressions, IsCallOn T c))) ∧
    (cfg.checkComplete = false → ∀ events : List Event,
      ∃ st, run cfg oracle State.init events = some st ∧
        ∀ f ∈ st.reports, f.method ≠ some "complete") := by
  refine ⟨?_, ?_⟩
  · refine ⟨⟨nameDescriptors cfg e d T, false⟩, ?_, ?_⟩
    · rw [buildChecks_eq cfg e d (nodup_collectNames _), mapGet_checksOf hT]
    · simp only [mem_nameDescriptors, checkSubjectCall_eq_false_iff]
      simp
  · intro hcc events
    obtain ⟨st, hst⟩ := run_total cfg oracle events State.init
      (fun e he => absurd he (List.not_mem_nil e))
    refine ⟨st, hst, ?_⟩
    refine run_reports_forall cfg oracle (fun f => f.method ≠ some "complete") ?_ events
      State.init st (fun e he => absurd he (List.not_mem_nil e))
      (fun f hf => absurd hf (List.not_mem_nil f)) hst
    intro e hC e' out hout f hf
    rcases checkEntry_mem hC hout hf with ⟨p, rfl⟩ | ⟨_, rfl | ⟨d, n, _, hn⟩⟩
    · simp
    · simp
    · rw [mem_nameDescriptors] at hn
      rcases hn with ⟨_, rfl⟩ | ⟨_, rfl⟩ | ⟨h, _⟩
      · simp
      · simp
      · rw [hcc] at h
        cases h

/-- Witness of C11: the component with property `A`, the call
`a.pipe(takeUntil(this.A)).subscribe()` and an empty `ngOnDestroy`, under
`checkComplete = true`; the name is `A`. -/
theorem complete_check_witness :
    "A" ∈ collectNames Sample.untriggeredChecked.subscribeCallExpressionsToNames ∧
    ∃ check, mapGet (buildChecks (resolve [Sample.completeConfig]) Sample.untriggeredChecked
        Sample.ngOnDestroy (collectNames Sample.untriggeredChecked.subscribeCallExpressionsToNames))
        "A" = some check ∧
      (⟨MessageId.notCalled, Sample.ngOnDestroy.key.nid, some "A", some "complete"⟩
          ∈ check.descriptors ↔
        ((resolve [Sample.completeConfig]).checkComplete = true ∧
          ¬ ∃ c ∈ Sample.untriggeredChecked.completeCallExpressions, IsCallOn "A" c)) :=
  ⟨by decide,
    (complete_check (resolve [Sample.completeConfig]) Sample.always Sample.untriggeredChecked
      Sample.ngOnDestroy "A" (by decide)).1⟩
/-- The completion check run through the visitors under `checkComplete = true`: without a
`complete` call both `notCalled` descriptors are reported, in the order `next`, `complete`;
under the default options only the one for `next`. -/
theorem complete_check_cases :
    (run (resolve [Sample.completeConfig]) Sample.always State.init
        (Sample.untriggeredBody ++ [.classDeclarationExit Sample.component])).map (·.reports)
      = some [⟨MessageId.notCalled, 91, some "A", some "next"⟩,
          ⟨MessageId.notCalled, 91, some "A", some "complete"⟩] ∧
    (run (resolve []) Sample.always State.init
        (Sample.untriggeredBody ++ [.classDeclarationExit Sample.component])).map (·.reports)
      = some [⟨MessageId.notCalled, 91, some "A", some "next"⟩] := by
  decide

theorem nameDescriptors_sublist (cfg : Options) (e : Entry) (d : MethodDefinition)
    (T : String) :
    List.Sublist (nameDescriptors cfg e d T)
      [⟨MessageId.notDeclared, classNode e.classDeclaration, some T, none⟩,
        ⟨MessageId.notCalled, d.key.nid, some T, some "next"⟩,
        ⟨MessageId.notCalled, d.key.nid, some T, some "complete"⟩] := by
  unfold nameDescriptors
  cases checkSubjectProperty T e <;> cases checkSubjectCall T e.nextCallExpressions <;>
    cases cfg.checkComplete <;> cases checkSubjectCall T e.completeCallExpressions <;>
    simp

theorem nameDescriptors_length_le (cfg : Options) (e : Entry) (d : MethodDefinition)
    (T : String) :
    (nameDescriptors cfg e d T).length ≤ 3 ∧
    (cfg.checkComplete = false → (nameDescriptors cfg e d T).length ≤ 2) := by
  unfold nameDescriptors
  cases checkSubjectProperty T e <;> cases checkSubjectCall T e.nextCallExpressions <;>
    cases cfg.checkComplete <;> cases checkSubjectCall T e.completeCallExpressions <;>
    simp

/-- C12. Per-token all-or-nothing emission: with `checkDestroy` set, for a frame as
collected by the visitors with an `ngOnDestroy` method, `checkEntry` returns, and for every
name `T` the reports naming `T`, in the order of their emission, are either none or the
whole list of descriptors accumulated for `T`; that list is a sublist of `notDeclared`,
`notCalled` for `next`, `notCalled` for `complete` (each at most once, in this order), so
at most three descriptors name `T`, and at most two when `checkComplete` is unset. -/
theorem checkEntry_all_or_nothing (cfg : Options) (oracle : Node → Bool) (e : Entry)
    (d : MethodDefinition) (hC : e.Collected) (hcd : cfg.checkDestroy = true)
    (hd : e.ngOnDestroyDefinition = some d) :
    ∃ e' out, checkEntry cfg oracle e [] = some (e', out) ∧
      ∀ T : String,
        (out.filter (fun f => decide (f.name = some T)) = [] ∨
          out.filter (fun f => decide (f.name = some T)) = nameDescriptors cfg e d T) ∧
        List.Sublist (nameDescriptors cfg e d T)
          [⟨MessageId.notDeclared, classNode e.classDeclaration, some T, none⟩,
            ⟨MessageId.notCalled, d.key.nid, some T, some "next"⟩,
            ⟨MessageId.notCalled, d.key.nid, some T, some "complete"⟩] ∧
        (out.filter (fun f => decide (f.name = some T))).length ≤ 3 ∧
        (cfg.checkComplete = false →
          (out.filter (fun f => decide (f.name = some T))).length ≤ 2) := by
  obtain ⟨e', out, hout, hfilter⟩ := checkEntry_filter_name cfg oracle e d hC hcd hd
  refine ⟨e', out, hout, ?_⟩
  intro T
  have hlen := nameDescriptors_length_le cfg e d T
  rw [hfilter T]
  refine ⟨?_, nameDescriptors_sublist cfg e d T, ?_, ?_⟩
  · split
    · exact Or.inr rfl
    · exact Or.inl rfl
  · split
    · exact hlen.1
    · simp
  · intro hcc
    split
    · exact hlen.2 hcc
    · simp

/-- Witness of C12: the component with the subscriptions `{B}` and `{A, B}`. -/
theorem checkEntry_all_or_nothing_witness :
    Sample.mixedFrame.Collected ∧ (resolve []).checkDestroy = true ∧
    Sample.mixedFrame.ngOnDestroyDefinition = some Sample.ngOnDestroy ∧
    ∃ e' out, checkEntry (resolve []) Sample.always Sample.mixedFrame [] = some (e', out) ∧
      ∀ T : String,
        (out.filter (fun f => decide (f.name = some T)) = [] ∨
          out.filter (fun f => decide (f.name = some T))
            = nameDescriptors (resolve []) Sample.mixedFrame Sample.ngOnDestroy T) ∧
        List.Sublist (nameDescriptors (resolve []) Sample.mixedFrame Sample.ngOnDestroy T)
          [⟨MessageId.notDeclared, classNode Sample.mixedFrame.classDeclaration, some T, none⟩,
            ⟨MessageId.notCalled, Sample.ngOnDestroy.key.nid, some T, some "next"⟩,
            ⟨MessageId.notCalled, Sample.ngOnDestroy.key.nid, some T, some "complete"⟩] ∧
        (out.filter (fun f => decide (f.name = some T))).length ≤ 3 ∧
        ((resolve []).checkComplete = false →
          (out.filter (fun f => decide (f.name = some T))).length ≤ 2) :=
  ⟨by decide, rfl, rfl,
    checkEntry_all_or_nothing (resolve []) Sample.always Sample.mixedFrame Sample.ngOnDestroy
      (by decide) rfl rfl⟩

theorem hasDecorator_iff (cfg : Options) (node : ClassDeclaration) :
    hasDecorator cfg node = true ↔
      ∃ ds, node.decorators = some ds ∧ ∃ dec ∈ ds, ∃ i j name args,
        dec.expression = Node.CallExpression i (Node.Identifier j name) args ∧
        name ∈ cfg.checkDecorators := by
  unfold hasDecorator
  cases hds : node.decorators with
  | none => simp
  | some ds =>
    simp only [List.any_eq_true, Option.some.injEq, exists_eq_left']
    constructor
    · rintro ⟨dec, hdec, h⟩
      refine ⟨dec, hdec, ?_⟩
      split at h
      · next i j name args hexp =>
        rw [List.any_eq_true] at h
        obtain ⟨check, hcheck, hname⟩ := h
        have : name = check := by simpa using hname
        subst this
        exact ⟨i, j, name, args, hexp, hcheck⟩
      · cases h
    · rintro ⟨dec, hdec, i, j, name, args, hexp, hname⟩
      refine ⟨dec, hdec, ?_⟩
      rw [hexp]
      show (cfg.checkDecorators.any fun check => decide (name = check)) = true
      rw [List.any_eq_true]
      exact ⟨name, hname, by simp⟩

/-- C13. Gating invariant: the visitor of `ClassDeclaration` returns and pushes a frame
whose flag `hasDecorator` is set if and only if the class has a decorator whose expression
is a call of an identifier whose name is in `checkDecorators`; the flag is unset for a
class without a list of decorators, and for a class each of whose decorators is not a call
or is a call of a callee that is not an identifier. -/
theorem gating_invariant (cfg : Options) (oracle : Node → Bool) (st : State)
    (node : ClassDeclaration) :
    ∃ frame, visit cfg oracle st (Event.classDeclaration node)
        = some ⟨frame :: st.entries, st.reports⟩ ∧
      (frame.hasDecorator = true ↔
        ∃ ds, node.decorators = some ds ∧ ∃ dec ∈ ds, ∃ i j name args,
          dec.expression = Node.CallExpression i (Node.Identifier j name) args ∧
          name ∈ cfg.checkDecorators) ∧
      (node.decorators = none → frame.hasDecorator = false) ∧
      (∀ ds, node.decorators = some ds →
        (∀ dec ∈ ds, (∀ i callee args, dec.expression ≠ Node.CallExpression i callee args) ∨
          (∃ i callee args, dec.expression = Node.CallExpression i callee args ∧
            ∀ j name, callee ≠ Node.Identifier j name)) →
        frame.hasDecorator = false) := by
  refine ⟨⟨node, [], [], [], hasDecorator cfg node, [], [], none, none⟩, rfl, ?_, ?_, ?_⟩
  · exact hasDecorator_iff cfg node
  · intro h
    simp [hasDecorator, h]
  · intro ds hds hall
    cases hg : hasDecorator cfg node with
    | false => rfl
    | true =>
      obtain ⟨ds', hds', dec, hdec, i, j, name, args, hexp, _⟩ := (hasDecorator_iff cfg node).mp hg
      rw [hds] at hds'
      cases hds'
      rcases hall dec hdec with h | ⟨i', callee, args', hexp', h⟩
      · exact absurd hexp (h i _ args)
      · rw [hexp] at hexp'
        cases hexp'
        exact absurd rfl (h j name)

theorem pipeOperators_eq_some_iff {object : Node} {operators : List Node} :
    pipeOperators object = some operators ↔ IsPipeCall object operators := by
  constructor
  · intro h
    unfold pipeOperators at h
    split at h
    · next i j x k name ops =>
      split at h
      · next hn =>
        cases h
        subst hn
        exact ⟨i, j, x, k, rfl⟩
      · cases h
    · cases h
  · rintro ⟨i, j, x, k, rfl⟩
    simp [pipeOperators]

theorem pipeOperators_eq_none_iff {object : Node} :
    pipeOperators object = none ↔ ∀ operators, ¬ IsPipeCall object operators := by
  constructor
  · intro h operators hp
    rw [pipeOperators_eq_some_iff.mpr hp] at h
    cases h
  · intro h
    cases hp : pipeOperators object with
    | none => rfl
    | some operators => exact absurd (pipeOperators_eq_some_iff.mp hp) (h operators)

theorem checkOperator_name_iff (cfg : Options) (operator : Node) (N : String) :
    (checkOperator cfg operator).name = some N ↔ NamesToken cfg operator N := by
  constructor
  · intro h
    unfold checkOperator at h
    split at h
    · next i j name args =>
      split at h
      · next hname =>
        split at h
        · next k l m n hargs =>
          simp only [Option.some.injEq] at h
          subst h
          cases args with
          | nil => simp at hargs
          | cons a rest =>
            simp only [List.head?_cons, Option.some.injEq] at hargs
            subst hargs
            exact ⟨i, j, name, _, rfl, hname, Or.inl ⟨k, l, m, rest, rfl⟩⟩
        · next k n hargs =>
          simp only [Option.some.injEq] at h
          subst h
          cases args with
          | nil => simp at hargs
          | cons a rest =>
            simp only [List.head?_cons, Option.some.injEq] at hargs
            subst hargs
            exact ⟨i, j, name, _, rfl, hname, Or.inr ⟨k, rest, rfl⟩⟩
        · split at h <;> cases h
      · cases h
    · cases h
  · rintro ⟨i, j, name, args, rfl, hname, ⟨k, l, m, rest, rfl⟩ | ⟨k, rest, rfl⟩⟩
    · simp [checkOperator, hname]
    · simp [checkOperator, hname]

theorem head?_eq_some {α : Type} {l : List α} {a : α} (h : l.head? = some a) :
    ∃ rest, l = a :: rest := by
  cases l with
  | nil => simp at h
  | cons b rest =>
    simp only [List.head?_cons, Option.some.injEq] at h
    subst h
    exact ⟨rest, rfl⟩

theorem checkOperator_found_of_name {cfg : Options} {operator : Node} {N : String}
    (h : (checkOperator cfg operator).name = some N) :
    (checkOperator cfg operator).found = true := by
  obtain ⟨i, j, name, args, rfl, hname, ⟨k, l, m, rest, rfl⟩ | ⟨k, rest, rfl⟩⟩ :=
    (checkOperator_name_iff cfg operator N).mp h
  · simp [checkOperator, hname]
  · simp [checkOperator, hname]

theorem checkOperator_found_iff (cfg : Options) (operator : Node) :
    (checkOperator cfg operator).found = true ↔ Qualifies cfg operator := by
  constructor
  · intro h
    unfold checkOperator at h
    split at h
    · next i j name args =>
      split at h
      · next hname =>
        refine ⟨i, j, name, args, rfl, hname, ?_⟩
        split at h
        · next k l m n hargs =>
          obtain ⟨rest, rfl⟩ := head?_eq_some hargs
          exact Or.inl ⟨n, i, j, name, _, rfl, hname, Or.inl ⟨k, l, m, rest, rfl⟩⟩
        · next k n hargs =>
          obtain ⟨rest, rfl⟩ := head?_eq_some hargs
          exact Or.inl ⟨n, i, j, name, _, rfl, hname, Or.inr ⟨k, rest, rfl⟩⟩
        · right
          cases hcd : cfg.checkDestroy with
          | false => rfl
          | true => simp [hcd] at h
      · simp at h
    · simp at h
  · rintro ⟨i, j, name, args, rfl, hname, ⟨N, hN⟩ | hcd⟩
    · exact checkOperator_found_of_name ((checkOperator_name_iff cfg _ N).mpr hN)
    · unfold checkOperator
      simp only [if_pos hname]
      split
      · rfl
      · rfl
      · simp [hcd]

theorem operatorsFound_iff (cfg : Options) (operators : List Node) :
    operatorsFound cfg operators = true ↔ ∃ op ∈ operators, Qualifies cfg op := by
  induction operators with
  | nil => simp [operatorsFound]
  | cons a rest ih =>
    have hq : ∀ i callee args, a = Node.CallExpression i callee args →
        (operatorsFound cfg (a :: rest) = true ↔ ∃ op ∈ a :: rest, Qualifies cfg op) := by
      intro i callee args ha
      subst ha
      simp only [operatorsFound, Bool.or_eq_true, ih, checkOperator_found_iff, List.mem_cons,
        exists_eq_or_imp]
    have hnq : (∀ i callee args, a ≠ Node.CallExpression i callee args) →
        (operatorsFound cfg (a :: rest) = true ↔ ∃ op ∈ a :: rest, Qualifies cfg op) := by
      intro ha
      have hno : ¬ Qualifies cfg a := by
        rintro ⟨i, j, name, args, h, _⟩
        exact ha _ _ _ h
      have : operatorsFound cfg (a :: rest) = operatorsFound cfg rest := by
        cases a <;> first | rfl | exact absurd rfl (ha _ _ _)
      rw [this, ih]
      simp only [List.mem_cons, exists_eq_or_imp]
      tauto
    cases a with
    | CallExpression i callee args => exact hq i callee args rfl
    | Identifier i n => exact hnq (fun _ _ _ h => by cases h)
    | PrivateIdentifier i n => exact hnq (fun _ _ _ h => by cases h)
    | ThisExpression i => exact hnq (fun _ _ _ h => by cases h)
    | MemberExpression i o p => exact hnq (fun _ _ _ h => by cases h)
    | Other i => exact hnq (fun _ _ _ h => by cases h)

theorem mem_operatorNames (cfg : Options) (operators : List Node) (N : String) :
    N ∈ operatorNames cfg operators ↔ N ≠ "" ∧ ∃ op ∈ operators, NamesToken cfg op N := by
  induction operators with
  | nil => simp [operatorNames]
  | cons a rest ih =>
    have hnq : (∀ i callee args, a ≠ Node.CallExpression i callee args) →
        (N ∈ operatorNames cfg (a :: rest) ↔
          N ≠ "" ∧ ∃ op ∈ a :: rest, NamesToken cfg op N) := by
      intro ha
      have hno : ¬ NamesToken cfg a N := by
        rintro ⟨i, j, name, args, h, _⟩
        exact ha _ _ _ h
      have : operatorNames cfg (a :: rest) = operatorNames cfg rest := by
        cases a <;> first | rfl | exact absurd rfl (ha _ _ _)
      rw [this, ih]
      simp only [List.mem_cons, exists_eq_or_imp]
      tauto
    cases a with
    | CallExpression i callee args =>
      simp only [operatorNames, List.mem_cons, exists_eq_or_imp]
      cases hn : (checkOperator cfg (Node.CallExpression i callee args)).name with
      | none =>
        have hno : ¬ NamesToken cfg (Node.CallExpression i callee args) N := by
          intro h
          rw [(checkOperator_name_iff cfg _ N).mpr h] at hn
          cases hn
        simp only [ih]
        tauto
      | some M =>
        have hM : NamesToken cfg (Node.CallExpression i callee args) N ↔ M = N := by
          rw [← checkOperator_name_iff, hn]
          simp
        by_cases hempty : M = ""
        · simp only [hempty, if_true, ih, hM]
          constructor
          · rintro ⟨h1, h2⟩
            exact ⟨h1, Or.inr h2⟩
          · rintro ⟨h1, h2 | h2⟩
            · exact absurd h2.symm h1
            · exact ⟨h1, h2⟩
        · simp only [hempty, if_false, List.mem_cons, ih, hM]
          constructor
          · rintro (h | ⟨h1, h2⟩)
            · subst h
              exact ⟨hempty, Or.inl rfl⟩
            · exact ⟨h1, Or.inr h2⟩
          · rintro ⟨h1, h2 | h2⟩
            · exact Or.inl h2.symm
            · exact Or.inr ⟨h1, h2⟩
    | Identifier i n => exact hnq (fun _ _ _ h => by cases h)
    | PrivateIdentifier i n => exact hnq (fun _ _ _ h => by cases h)
    | ThisExpression i => exact hnq (fun _ _ _ h => by cases h)
    | MemberExpression i o p => exact hnq (fun _ _ _ h => by cases h)
    | Other i => exact hnq (fun _ _ _ h => by cases h)
theorem mapGet_mapSet {κ β : Type} [DecidableEq κ] (m : List (κ × β)) (k k' : κ) (v : β) :
    mapGet (mapSet m k v) k' = if k = k' then some v else mapGet m k' := by
  induction m with
  | nil => simp [mapSet, mapGet]
  | cons a m ih =>
    obtain ⟨k₀, v₀⟩ := a
    by_cases h0 : k₀ = k
    · subst h0
      by_cases h1 : k₀ = k' <;> simp [mapSet, mapGet, h1]
    · by_cases h1 : k₀ = k'
      · subst h1
        have : ¬ k = k₀ := fun e => h0 e.symm
        simp [mapSet, mapGet, h0, this]
      · simp [mapSet, mapGet, h0, h1, ih]

theorem mapGet_subscribeNames_ne (cfg : Options) (oracle : Node → Bool)
    (m : List (Nat × List String)) (c : CallExpr) (k : Nat) (h : c.nid ≠ k) :
    mapGet (subscribeNames cfg oracle m c) k = mapGet m k := by
  unfold subscribeNames
  split
  · split
    · split
      · rw [mapGet_mapSet, if_neg h]
      · rfl
    · rfl
  · rfl

theorem mapGet_subscribeNames_self (cfg : Options) (oracle : Node → Bool)
    (m : List (Nat × List String)) (c : CallExpr) (i : Nat) (object property : Node)
    (s : List String) (hcallee : c.callee = Node.MemberExpression i object property)
    (hs : mapGet m c.nid = some s) :
    mapGet (subscribeNames cfg oracle m c) c.nid
      = some (if oracle object then
          (operatorNames cfg (receiverOperators object)).foldl setAdd s else s) := by
  unfold subscribeNames
  simp only [hcallee, hs]
  by_cases ho : oracle object = true
  · simp [ho, mapGet_mapSet]
  · simp [ho, hs]

theorem mapGet_foldl_subscribeNames_ne (cfg : Options) (oracle : Node → Bool)
    (calls : List CallExpr) (k : Nat) (h : ∀ c ∈ calls, c.nid ≠ k) :
    ∀ m : List (Nat × List String),
      mapGet (calls.foldl (subscribeNames cfg oracle) m) k = mapGet m k := by
  induction calls with
  | nil => intro m; rfl
  | cons c rest ih =>
    intro m
    rw [List.foldl_cons, ih (fun c' hc' => h c' (List.mem_cons_of_mem _ hc')),
      mapGet_subscribeNames_ne cfg oracle m c k (h c (List.mem_cons_self _ _))]

theorem mapGet_register_nil (calls : List CallExpr) :
    ∀ acc : List (Nat × List String), (∀ k s, mapGet acc k = some s → s = []) →
      ∀ k s, mapGet (calls.foldl (fun m c => mapSet m c.nid []) acc) k = some s → s = [] := by
  induction calls with
  | nil => intro acc h; exact h
  | cons c rest ih =>
    intro acc h
    rw [List.foldl_cons]
    apply ih
    intro k s hs
    rw [mapGet_mapSet] at hs
    split at hs
    · cases hs; rfl
    · exact h k s hs

/-- The set recorded for a collected call by `checkEntry`, when no other collected call is
the same node. -/
theorem mapGet_checked (cfg : Options) (oracle : Node → Bool) (e : Entry)
    (pre post : List CallExpr) (c : CallExpr) (i : Nat) (object property : Node)
    (hC : e.Collected) (hcalls : e.subscribeCallExpressions = pre ++ c :: post)
    (hcallee : c.callee = Node.MemberExpression i object property)
    (hother : ∀ c' ∈ pre ++ post, c'.nid ≠ c.nid) :
    mapGet (e.subscribeCallExpressions.foldl (subscribeNames cfg oracle)
        e.subscribeCallExpressionsToNames) c.nid
      = some (if oracle object then
          (operatorNames cfg (receiverOperators object)).foldl setAdd [] else []) := by
  have hmem : c ∈ e.subscribeCallExpressions := by rw [hcalls]; simp
  have hreg := hC.registered c hmem
  obtain ⟨s, hs⟩ := Option.isSome_iff_exists.mp (mapGet_isSome.mpr hreg)
  have hnil : s = [] := by
    have hC' := hC
    unfold Entry.Collected at hC'
    rw [hC'] at hs
    exact mapGet_register_nil _ [] (fun k s h => by simp [mapGet] at h) c.nid s hs
  subst hnil
  rw [hcalls, List.foldl_append, List.foldl_cons,
    mapGet_foldl_subscribeNames_ne cfg oracle post c.nid
      (fun c' hc' => hother c' (List.mem_append_right _ hc'))]
  have hpre : mapGet (pre.foldl (subscribeNames cfg oracle) e.subscribeCallExpressionsToNames)
      c.nid = some [] := by
    rw [mapGet_foldl_subscribeNames_ne cfg oracle pre c.nid
      (fun c' hc' => hother c' (List.mem_append_left _ hc'))]
    exact hs
  rw [mapGet_subscribeNames_self cfg oracle _ c i object property [] hcallee hpre]

/-- The `noTakeUntil` report at the callee property of a collected call, when no other
collected call has that property node. -/
theorem checkEntry_noTakeUntil_at (cfg : Options) (oracle : Node → Bool) (e : Entry)
    (pre post : List CallExpr) (c : CallExpr) (i : Nat) (object property : Node)
    (hC : e.Collected) (hcalls : e.subscribeCallExpressions = pre ++ c :: post)
    (hcallee : c.callee = Node.MemberExpression i object property)
    (hother : ∀ c' ∈ pre ++ post, ∀ i' o' p',
      c'.callee = Node.MemberExpression i' o' p' → p'.nid ≠ property.nid) :
    ∃ e' out, checkEntry cfg oracle e [] = some (e', out) ∧
      ((∃ f ∈ out, f.messageId = MessageId.noTakeUntil ∧ f.node = property.nid) ↔
        (oracle object = true ∧ operatorsFound cfg (receiverOperators object) = false)) := by
  obtain ⟨ng, hng, hout⟩ := checkEntry_eq cfg oracle e [] hC.registered
  refine ⟨_, _, hout, ?_⟩
  constructor
  · rintro ⟨f, hf, hid, hnode⟩
    simp only [List.nil_append, List.mem_append, List.mem_flatMap, hcalls] at hf
    rcases hf with ⟨c', hc', hf⟩ | hf
    · have hc'' : c' ∈ pre ++ post ∨ c' = c := by
        simp only [List.mem_append, List.mem_cons] at hc' ⊢
        tauto
      rcases hc'' with hc'' | rfl
      · obtain ⟨i', o', p', hcal, rfl⟩ := subscribeReports_mem hf
        exact absurd hnode (hother c' hc'' i' o' p' hcal)
      · unfold subscribeReports at hf
        simp only [hcallee] at hf
        split at hf
        · next h => simpa using h
        · simp at hf
    · split at hf
      · exact absurd hid (checkNgOnDestroy_not_noTakeUntil hng hf)
      · simp at hf
  · rintro ⟨ho, hfound⟩
    refine ⟨⟨MessageId.noTakeUntil, property.nid, none, none⟩, ?_, rfl, rfl⟩
    simp only [List.nil_append, List.mem_append, List.mem_flatMap, hcalls]
    refine Or.inl ⟨c, by simp, ?_⟩
    simp [subscribeReports, hcallee, ho, hfound]

/-- C15. Pairing decision: for a frame as collected by the visitors and a collected call
whose receiver the oracle affirms (and whose callee property node is not that of another
collected call), `checkEntry` returns and reports `noTakeUntil` at the callee property if
and only if the receiver is not a call `x.pipe(...)` or no argument of the `pipe` call
qualifies, where an operator qualifies iff it is a call of the identifier `takeUntil` or
of an alias and its first argument is `this.N` or an identifier `N`, or `checkDestroy` is
unset. An operator `takeUntil(...)` or alias without arguments, or with a first argument
of another shape, qualifies exactly when `checkDestroy` is unset. -/
theorem noTakeUntil_iff_not_paired (cfg : Options) (oracle : Node → Bool) (e : Entry)
    (pre post : List CallExpr) (c : CallExpr) (i : Nat) (object property : Node)
    (hC : e.Collected) (hcalls : e.subscribeCallExpressions = pre ++ c :: post)
    (hcallee : c.callee = Node.MemberExpression i object property)
    (horacle : oracle object = true)
    (hother : ∀ c' ∈ pre ++ post, ∀ i' o' p',
      c'.callee = Node.MemberExpression i' o' p' → p'.nid ≠ property.nid) :
    (∃ e' out, checkEntry cfg oracle e [] = some (e', out) ∧
      ((∃ f ∈ out, f.messageId = MessageId.noTakeUntil ∧ f.node = property.nid) ↔
        ((∀ operators, ¬ IsPipeCall object operators) ∨
          ∃ operators, IsPipeCall object operators ∧ ∀ op ∈ operators, ¬ Qualifies cfg op))) ∧
    (∀ (op : Node), ((checkOperator cfg op).found = true ↔ Qualifies cfg op)) ∧
    (∀ (a j : Nat) (name : String) (args : List Node),
      (name = "takeUntil" ∨ name ∈ cfg.aliases) →
      (args = [] ∨ ∃ x rest, args = x :: rest ∧
        (∀ k l m N, x ≠ Node.MemberExpression k (Node.ThisExpression l) (Node.Identifier m N)) ∧
        (∀ k N, x ≠ Node.Identifier k N)) →
      (Qualifies cfg (Node.CallExpression a (Node.Identifier j name) args) ↔
        cfg.checkDestroy = false)) := by
  refine ⟨?_, checkOperator_found_iff cfg, ?_⟩
  · obtain ⟨e', out, hout, hiff⟩ := checkEntry_noTakeUntil_at cfg oracle e pre post c i object
      property hC hcalls hcallee hother
    refine ⟨e', out, hout, ?_⟩
    rw [hiff]
    have hfalse : operatorsFound cfg (receiverOperators object) = false ↔
        ¬ ∃ op ∈ receiverOperators object, Qualifies cfg op := by
      rw [← operatorsFound_iff]
      simp
    simp only [horacle, true_and, hfalse]
    cases hp : pipeOperators object with
    | none =>
      have h1 := pipeOperators_eq_none_iff.mp hp
      simp only [receiverOperators, hp]
      constructor
      · intro _; exact Or.inl h1
      · intro _; simp
    | some operators =>
      have h1 := pipeOperators_eq_some_iff.mp hp
      simp only [receiverOperators, hp]
      constructor
      · intro h
        refine Or.inr ⟨operators, h1, ?_⟩
        intro op hop hq
        exact h ⟨op, hop, hq⟩
      · rintro (h | ⟨operators', h2, h3⟩)
        · exact absurd h1 (h operators)
        · have : operators' = operators := by
            have := pipeOperators_eq_some_iff.mpr h2
            rw [hp] at this
            exact (Option.some.inj this).symm
          subst this
          rintro ⟨op, hop, hq⟩
          exact h3 op hop hq
  · intro a j name args hname hargs
    constructor
    · rintro ⟨_, _, _, _, hop, _, ⟨N, hN⟩ | hcd⟩
      · obtain ⟨_, _, _, args', hop', _, ⟨k, l, m, rest, hargs'⟩ | ⟨k, rest, hargs'⟩⟩ := hN
        · cases hop'
          rcases hargs with rfl | ⟨x, rest', rfl, hx, _⟩
          · cases hargs'
          · cases hargs'
            exact absurd rfl (hx k l m N)
        · cases hop'
          rcases hargs with rfl | ⟨x, rest', rfl, _, hx⟩
          · cases hargs'
          · cases hargs'
            exact absurd rfl (hx k N)
      · exact hcd
    · intro hcd
      exact ⟨a, j, name, args, rfl, hname, Or.inr hcd⟩

/-- Witness of C15: the component with the single call `a.pipe(untilDestroyed()).subscribe()`
under the default options, where `untilDestroyed` is not an alias. -/
theorem noTakeUntil_iff_not_paired_witness :
    Sample.aliasFrame.Collected ∧
    ∃ e' out, checkEntry (resolve []) Sample.always Sample.aliasFrame [] = some (e', out) ∧
      ((∃ f ∈ out, f.messageId = MessageId.noTakeUntil ∧
          f.node = (Node.Identifier 16 "subscribe").nid) ↔
        ((∀ operators, ¬ IsPipeCall
            (Node.CallExpression 12
              (Node.MemberExpression 13 (Node.Identifier 14 "a") (Node.Identifier 15 "pipe"))
              [Sample.untilDestroyed 20]) operators) ∨
          ∃ operators, IsPipeCall
            (Node.CallExpression 12
              (Node.MemberExpression 13 (Node.Identifier 14 "a") (Node.Identifier 15 "pipe"))
              [Sample.untilDestroyed 20]) operators ∧
            ∀ op ∈ operators, ¬ Qualifies (resolve []) op)) :=
  ⟨by decide,
    (noTakeUntil_iff_not_paired (resolve []) Sample.always Sample.aliasFrame [] []
      (Sample.pipedSubscribe 10 "a" [Sample.untilDestroyed 20]) 11 _
      (Node.Identifier 16 "subscribe") (by decide) rfl rfl rfl
      (fun c' hc' => absurd hc' (List.not_mem_nil c'))).1⟩
/-- C16. Token-set collection: for a frame as collected by the visitors and a collected
call that is no other collected call's node, `checkEntry` returns and the set it records
for the call is, when the oracle affirms the receiver `x.pipe(op1, ..., opn)`, exactly the
set of the names `N` such that some `opi` is a call of `takeUntil` or of an alias whose
first argument is `this.N` or the identifier `N` (every operator counts; the empty string,
which is no identifier name, is never recorded); the set is empty when the receiver is not
such a `pipe` call or the oracle denies it. -/
theorem recorded_names (cfg : Options) (oracle : Node → Bool) (e : Entry)
    (pre post : List CallExpr) (c : CallExpr) (i : Nat) (object property : Node)
    (hC : e.Collected) (hcalls : e.subscribeCallExpressions = pre ++ c :: post)
    (hcallee : c.callee = Node.MemberExpression i object property)
    (hother : ∀ c' ∈ pre ++ post, c'.nid ≠ c.nid) :
    ∃ e' out s, checkEntry cfg oracle e [] = some (e', out) ∧
      mapGet e'.subscribeCallExpressionsToNames c.nid = some s ∧
      (∀ operators, oracle object = true → IsPipeCall object operators →
        ∀ N, N ∈ s ↔ (N ≠ "" ∧ ∃ op ∈ operators, NamesToken cfg op N)) ∧
      ((oracle object = false ∨ ∀ operators, ¬ IsPipeCall object operators) → s = []) := by
  obtain ⟨ng, _, hout⟩ := checkEntry_eq cfg oracle e [] hC.registered
  have hget := mapGet_checked cfg oracle e pre post c i object property hC hcalls hcallee hother
  refine ⟨_, _, _, hout, hget, ?_, ?_⟩
  · intro operators ho hp N
    have hrec : receiverOperators object = operators := by
      simp [receiverOperators, pipeOperators_eq_some_iff.mpr hp]
    rw [if_pos ho, hrec, mem_foldl_setAdd, mem_operatorNames]
    simp
  · rintro (ho | hp)
    · simp [ho]
    · have hrec : receiverOperators object = [] := by
        simp [receiverOperators, pipeOperators_eq_none_iff.mpr hp]
      rw [hrec]
      simp [operatorNames]

/-- Witness of C16: the second subscription, `b.pipe(takeUntil(this.A), takeUntil(this.B))`,
of the component of `coveredBody`. -/
theorem recorded_names_witness :
    Sample.coveredFrame.Collected ∧
    ∃ e' out s, checkEntry (resolve []) Sample.always Sample.coveredFrame [] = some (e', out) ∧
      mapGet e'.subscribeCallExpressionsToNames
        (Sample.pipedSubscribe 30 "b"
          [Sample.takeUntilThis 40 "A", Sample.takeUntilThis 50 "B"]).nid = some s ∧
      (∀ operators, Sample.always
          (Node.CallExpression 32
            (Node.MemberExpression 33 (Node.Identifier 34 "b") (Node.Identifier 35 "pipe"))
            [Sample.takeUntilThis 40 "A", Sample.takeUntilThis 50 "B"]) = true →
        IsPipeCall
          (Node.CallExpression 32
            (Node.MemberExpression 33 (Node.Identifier 34 "b") (Node.Identifier 35 "pipe"))
            [Sample.takeUntilThis 40 "A", Sample.takeUntilThis 50 "B"]) operators →
        ∀ N, N ∈ s ↔ (N ≠ "" ∧ ∃ op ∈ operators, NamesToken (resolve []) op N)) ∧
      ((Sample.always
          (Node.CallExpression 32
            (Node.MemberExpression 33 (Node.Identifier 34 "b") (Node.Identifier 35 "pipe"))
            [Sample.takeUntilThis 40 "A", Sample.takeUntilThis 50 "B"]) = false ∨
        ∀ operators, ¬ IsPipeCall
          (Node.CallExpression 32
            (Node.MemberExpression 33 (Node.Identifier 34 "b") (Node.Identifier 35 "pipe"))
            [Sample.takeUntilThis 40 "A", Sample.takeUntilThis 50 "B"]) operators) → s = []) :=
  ⟨by decide,
    recorded_names (resolve []) Sample.always Sample.coveredFrame
      [Sample.pipedSubscribe 10 "a" [Sample.takeUntilThis 20 "A"]] []
      (Sample.pipedSubscribe 30 "b" [Sample.takeUntilThis 40 "A", Sample.takeUntilThis 50 "B"])
      31 _ (Node.Identifier 36 "subscribe") (by decide) rfl rfl
      (by
        intro c' hc'
        simp only [List.append_nil, List.mem_singleton] at hc'
        subst hc'
        decide)⟩

/-- The sets of names recorded by `checkEntry` for the two subscriptions of `coveredBody`,
`a.pipe(takeUntil(this.A))` and `b.pipe(takeUntil(this.A), takeUntil(this.B))`, and for the
call `a.subscribe()` of `plainBody`. -/
theorem recorded_names_cases :
    (checkEntry (resolve []) Sample.always Sample.coveredFrame []).map
        (fun r => r.1.subscribeCallExpressionsToNames)
      = some [(10, ["A"]), (30, ["A", "B"])] ∧
    (checkEntry (resolve []) Sample.always Sample.plainFrame []).map
        (fun r => r.1.subscribeCallExpressionsToNames)
      = some [(10, [])] ∧
    (checkEntry (resolve []) (fun _ => false) Sample.coveredFrame []).map
        (fun r => r.1.subscribeCallExpressionsToNames)
      = some [(10, []), (30, [])] := by
  decide

theorem checkSubscribe_reports_frame (cfg : Options) (c : CallExpr) (e : Entry)
    (rs : List Descriptor) :
    checkSubscribe cfg c e rs
      = (checkSubscribe cfg c e []).map (fun r => (r.1, rs ++ r.2)) := by
  obtain ⟨nid, callee, args⟩ := c
  unfold checkSubscribe
  cases callee with
  | MemberExpression i object property =>
    simp only []
    generalize (match pipeOperators object with
      | some operators =>
        scanOperators cfg operators false (mapGet e.subscribeCallExpressionsToNames nid)
      | none => some (false, mapGet e.subscribeCallExpressionsToNames nid)) = scanned
    cases scanned with
    | none => rfl
    | some r =>
      obtain ⟨found, names'⟩ := r
      cases found <;> simp
  | _ => simp

theorem checkSubscribes_reports_frame (cfg : Options) (oracle : Node → Bool)
    (calls : List CallExpr) :
    ∀ (e : Entry) (rs : List Descriptor),
      checkSubscribes cfg oracle calls e rs
        = (checkSubscribes cfg oracle calls e []).map (fun r => (r.1, rs ++ r.2)) := by
  induction calls with
  | nil => intro e rs; simp [checkSubscribes]
  | cons c rest ih =>
    intro e rs
    unfold checkSubscribes
    split
    · split
      · rw [checkSubscribe_reports_frame cfg c e rs]
        cases h : checkSubscribe cfg c e [] with
        | none => simp
        | some r =>
          obtain ⟨e₁, rs₁⟩ := r
          simp only [Option.map_some']
          rw [ih e₁ (rs ++ rs₁), ih e₁ rs₁]
          cases checkSubscribes cfg oracle rest e₁ [] <;> simp
      · exact ih e rs
    · exact ih e rs

/-- The reports of `checkEntry` are appended to the reports made so far, and do not depend
on them. -/
theorem checkEntry_reports_frame (cfg : Options) (oracle : Node → Bool) (e : Entry)
    (rs : List Descriptor) :
    checkEntry cfg oracle e rs
      = (checkEntry cfg oracle e []).map (fun r => (r.1, rs ++ r.2)) := by
  unfold checkEntry
  rw [checkSubscribes_reports_frame cfg oracle _ e rs]
  cases checkSubscribes cfg oracle e.subscribeCallExpressions e [] with
  | none => rfl
  | some r =>
    obtain ⟨e₁, rs₁⟩ := r
    simp only [Option.map_some']
    split
    · cases checkNgOnDestroy cfg e₁ <;> simp
    · simp
theorem onEntry_frame (entries : List Entry) (rs : List Descriptor) (f : Entry → Entry) :
    onEntry ⟨entries, rs⟩ f = ⟨(onEntry ⟨entries, []⟩ f).entries, rs⟩ := by
  unfold onEntry
  cases entries with
  | nil => rfl
  | cons e rest =>
    simp only []
    split <;> rfl

/-- The reports of a visitor call are appended to the reports made so far; the stack and
the new reports do not depend on them. -/
theorem visit_reports_frame (cfg : Options) (oracle : Node → Bool) (entries : List Entry)
    (rs : List Descriptor) (ev : Event) :
    visit cfg oracle ⟨entries, rs⟩ ev
      = (visit cfg oracle ⟨entries, []⟩ ev).map (fun s => ⟨s.entries, rs ++ s.reports⟩) := by
  have hon : ∀ f : Entry → Entry,
      some (onEntry ⟨entries, rs⟩ f)
        = (some (onEntry ⟨entries, []⟩ f)).map
            (fun s : State => (⟨s.entries, rs ++ s.reports⟩ : State)) := by
    intro f
    rw [onEntry_frame entries rs f, Option.map_some']
    have : (onEntry ⟨entries, []⟩ f).reports = [] := onEntry_reports _ f
    rw [this, List.append_nil]
  cases ev with
  | classDeclaration node => simp [visit]
  | classDeclarationExit node =>
    simp only [visit]
    cases entries with
    | nil => simp
    | cons e rest =>
      simp only []
      split
      · rw [checkEntry_reports_frame cfg oracle e rs]
        cases checkEntry cfg oracle e [] with
        | none => rfl
        | some r => simp
      · simp
  | extendsSuperClass node =>
    simp only [visit]
    split
    · simp
    · exact hon _
  | subscribeCall node => exact hon _
  | propertyDefinition node => exact hon _
  | ngOnDestroy node => exact hon _
  | nextCall node => exact hon _
  | completeCall node => exact hon _

/-- The reports of a traversal are appended to the reports made so far; the stack and the
new reports do not depend on them. -/
theorem run_reports_frame (cfg : Options) (oracle : Node → Bool) (events : List Event) :
    ∀ (entries : List Entry) (rs : List Descriptor),
      run cfg oracle ⟨entries, rs⟩ events
        = (run cfg oracle ⟨entries, []⟩ events).map
            (fun s => ⟨s.entries, rs ++ s.reports⟩) := by
  induction events with
  | nil => intro entries rs; simp [run]
  | cons ev rest ih =>
    intro entries rs
    simp only [run]
    rw [visit_reports_frame cfg oracle entries rs ev]
    cases visit cfg oracle ⟨entries, []⟩ ev with
    | none => rfl
    | some s =>
      obtain ⟨entries₁, rs₁⟩ := s
      simp only [Option.map_some']
      rw [ih entries₁ (rs ++ rs₁), ih entries₁ rs₁]
      cases run cfg oracle ⟨entries₁, []⟩ rest <;> simp

theorem checkNgOnDestroy_filter_noDestroy (cfg : Options) (e : Entry) :
    ∃ out, checkNgOnDestroy cfg e = some out ∧
      out.filter (fun f => decide (f.messageId = MessageId.noDestroy))
        = if e.subscribeCallExpressionsToNames = [] then []
          else if e.ngOnDestroyDefinition.isNone && e.extendsSuperClassDeclaration.isNone then
            [⟨MessageId.noDestroy, classNode e.classDeclaration, none, none⟩]
          else [] := by
  obtain ⟨out, hout⟩ := checkNgOnDestroy_total cfg e
  refine ⟨out, hout, ?_⟩
  by_cases hne : e.subscribeCallExpressionsToNames = []
  · simp [checkNgOnDestroy, hne] at hout
    subst hout
    simp [hne]
  · rw [if_neg hne]
    have hlen : ¬ e.subscribeCallExpressionsToNames.length = 0 := by
      simpa [List.length_eq_zero] using hne
    cases hd : e.ngOnDestroyDefinition with
    | some d =>
      simp only [Option.isNone_some, Bool.false_and, Bool.false_eq_true, if_false]
      rw [List.filter_eq_nil_iff]
      intro f hf
      rcases checkNgOnDestroy_mem hout hf with ⟨h, _, _⟩ | ⟨d', n, _, hn⟩
      · rw [hd] at h; cases h
      · rcases nameDescriptors_messageId hn with h | h <;> simp [h]
    | none =>
      unfold checkNgOnDestroy at hout
      simp only [hlen, if_false, hd] at hout
      cases hx : e.extendsSuperClassDeclaration with
      | some x =>
        simp only [hx] at hout
        cases hout
        simp
      | none =>
        simp only [hx] at hout
        cases hout
        simp

/-- The `noDestroy` reports of `checkEntry` on a collected frame, in terms that do not
mention the oracle. -/
theorem checkEntry_filter_noDestroy (cfg : Options) (oracle : Node → Bool) (e : Entry)
    (hC : e.Collected) :
    ∃ e' out, checkEntry cfg oracle e [] = some (e', out) ∧
      out.filter (fun f => decide (f.messageId = MessageId.noDestroy))
        = if cfg.checkDestroy = true ∧ e.subscribeCallExpressionsToNames ≠ [] ∧
            e.ngOnDestroyDefinition.isNone = true ∧
            e.extendsSuperClassDeclaration.isNone = true then
            [⟨MessageId.noDestroy, classNode e.classDeclaration, none, none⟩]
          else [] := by
  obtain ⟨ng, hng, hout⟩ := checkEntry_eq cfg oracle e [] hC.registered
  refine ⟨_, _, hout, ?_⟩
  have hsubs : (e.subscribeCallExpressions.flatMap (subscribeReports cfg oracle)).filter
      (fun f => decide (f.messageId = MessageId.noDestroy)) = [] := by
    rw [List.filter_eq_nil_iff]
    intro f hf
    rw [List.mem_flatMap] at hf
    obtain ⟨c, _, hf⟩ := hf
    obtain ⟨_, _, _, _, rfl⟩ := subscribeReports_mem hf
    simp
  obtain ⟨ng', hng', hfilter⟩ := checkNgOnDestroy_filter_noDestroy cfg (e.withNames
    (e.subscribeCallExpressions.foldl (subscribeNames cfg oracle)
      e.subscribeCallExpressionsToNames))
  rw [hng] at hng'
  cases hng'
  have hempty : (e.withNames (e.subscribeCallExpressions.foldl (subscribeNames cfg oracle)
      e.subscribeCallExpressionsToNames)).subscribeCallExpressionsToNames = [] ↔
      e.subscribeCallExpressionsToNames = [] := by
    have hkeys := keys_foldl_subscribeNames cfg oracle e.subscribeCallExpressions
      e.subscribeCallExpressionsToNames
    simp only [Entry.withNames]
    constructor
    · intro h
      rw [h] at hkeys
      simpa using hkeys.symm
    · intro h
      rw [h] at hkeys ⊢
      simpa using hkeys
  simp only [List.nil_append, List.filter_append, hsubs]
  by_cases hcd : cfg.checkDestroy = true
  · simp only [hcd, if_true, hfilter, hempty, true_and]
    have h1 : (e.withNames (e.subscribeCallExpressions.foldl (subscribeNames cfg oracle)
      e.subscribeCallExpressionsToNames)).ngOnDestroyDefinition = e.ngOnDestroyDefinition := rfl
    have h2 : (e.withNames (e.subscribeCallExpressions.foldl (subscribeNames cfg oracle)
      e.subscribeCallExpressionsToNames)).extendsSuperClassDeclaration
        = e.extendsSuperClassDeclaration := rfl
    have h3 : (e.withNames (e.subscribeCallExpressions.foldl (subscribeNames cfg oracle)
      e.subscribeCallExpressionsToNames)).classDeclaration = e.classDeclaration := rfl
    rw [h1, h2, h3]
    by_cases hm : e.subscribeCallExpressionsToNames = []
    · simp [hm]
    · cases e.ngOnDestroyDefinition <;> cases e.extendsSuperClassDeclaration <;> simp [hm]
  · simp [hcd]
/-- C18. No exception escapes the check: every traversal returns (no visitor call throws);
in every frame that the visitors leave on the stack each collected call is a key of the
map of names, so the set fetched in `checkSubscribe` is defined; `checkEntry` returns on
every frame as collected by the visitors; and for every frame, every name of the set of a
subscription is a key of `namesToChecks`, so the loop of lines 138-145 returns. -/
theorem no_lookup_failure (cfg : Options) (oracle : Node → Bool) :
    (∀ events : List Event, ∃ st, run cfg oracle State.init events = some st ∧
      ∀ e ∈ st.entries, ∀ c ∈ e.subscribeCallExpressions,
        (mapGet e.subscribeCallExpressionsToNames c.nid).isSome = true) ∧
    (∀ e : Entry, e.Collected → ∃ r, checkEntry cfg oracle e [] = some r) ∧
    (∀ (e : Entry) (d : MethodDefinition),
      (∀ kv ∈ e.subscribeCallExpressionsToNames, ∀ name ∈ kv.2,
        (mapGet (buildChecks cfg e d (collectNames e.subscribeCallExpressionsToNames))
          name).isSome = true) ∧
      ∃ marked, aggregate e.subscribeCallExpressionsToNames
        (buildChecks cfg e d (collectNames e.subscribeCallExpressionsToNames)) = some marked) := by
  refine ⟨?_, ?_, ?_⟩
  · intro events
    obtain ⟨st, hst⟩ := run_total cfg oracle events State.init
      (fun e he => absurd he (List.not_mem_nil e))
    refine ⟨st, hst, ?_⟩
    intro e he c hc
    have hC := run_collected cfg oracle events State.init st hst
      (fun e he => absurd he (List.not_mem_nil e)) e he
    exact mapGet_isSome.mpr (hC.registered c hc)
  · intro e hC
    obtain ⟨ng, _, hout⟩ := checkEntry_eq cfg oracle e [] hC.registered
    exact ⟨_, hout⟩
  · intro e d
    refine ⟨?_, ?_⟩
    · intro kv hkv name hname
      rw [buildChecks_eq cfg e d (nodup_collectNames _),
        mapGet_checksOf (mem_collectNames.mpr ⟨kv, hkv, hname⟩)]
      rfl
    · rw [buildChecks_eq cfg e d (nodup_collectNames _),
        aggregate_checksOf (nodup_collectNames _) _
          (fun kv hkv u hu => mem_collectNames.mpr ⟨kv, hkv, hu⟩)]
      exact ⟨_, rfl⟩

theorem run_only_noTakeUntil (cfg : Options) (oracle : Node → Bool)
    (hcd : cfg.checkDestroy = false) (events : List Event) :
    ∃ st, run cfg oracle State.init events = some st ∧
      ∀ f ∈ st.reports, f.messageId = MessageId.noTakeUntil := by
  obtain ⟨st, hst⟩ := run_total cfg oracle events State.init
    (fun e he => absurd he (List.not_mem_nil e))
  refine ⟨st, hst, ?_⟩
  refine run_reports_forall cfg oracle (fun f => f.messageId = MessageId.noTakeUntil) ?_ events
    State.init st (fun e he => absurd he (List.not_mem_nil e))
    (fun f hf => absurd hf (List.not_mem_nil f)) hst
  intro e hC e' out hout f hf
  rcases checkEntry_mem hC hout hf with ⟨p, rfl⟩ | ⟨h, _⟩
  · rfl
  · rw [hcd] at h
    cases h

/-- C19. Disabling `checkDestroy` disables the whole teardown verification: when the
options give `checkDestroy = false`, or omit it and give a non-empty `alias`, every
traversal returns and every report it makes is a `noTakeUntil` descriptor (no `noDestroy`,
`notDeclared` or `notCalled`). -/
theorem checkDestroy_off_only_noTakeUntil (config : Config) (rest : List Config)
    (oracle : Node → Bool) (events : List Event)
    (hoff : config.checkDestroy = some false ∨
      (config.checkDestroy = none ∧ ∃ a others, config.aliases = some (a :: others))) :
    (resolve (config :: rest)).checkDestroy = false ∧
    ∃ st, run (resolve (config :: rest)) oracle State.init events = some st ∧
      ∀ f ∈ st.reports, f.messageId = MessageId.noTakeUntil := by
  have hcd : (resolve (config :: rest)).checkDestroy = false := by
    rcases hoff with h | ⟨h, a, others, ha⟩
    · simp [resolve, h]
    · simp [resolve, h, ha]
  exact ⟨hcd, run_only_noTakeUntil (resolve (config :: rest)) oracle hcd events⟩

/-- Witness of C19: under `checkDestroy: false`, the component whose two subscriptions
name the undeclared, untriggered token `B`. -/
theorem checkDestroy_off_only_noTakeUntil_witness :
    (Sample.noDestroyConfig.checkDestroy = some false ∨
      (Sample.noDestroyConfig.checkDestroy = none ∧
        ∃ a others, Sample.noDestroyConfig.aliases = some (a :: others))) ∧
    (resolve [Sample.noDestroyConfig]).checkDestroy = false ∧
    ∃ st, run (resolve [Sample.noDestroyConfig]) Sample.always State.init
        (Sample.uncoveredBody ++ [.classDeclarationExit Sample.component]) = some st ∧
      ∀ f ∈ st.reports, f.messageId = MessageId.noTakeUntil :=
  ⟨Or.inl rfl,
    checkDestroy_off_only_noTakeUntil Sample.noDestroyConfig [] Sample.always
      (Sample.uncoveredBody ++ [.classDeclarationExit Sample.component]) (Or.inl rfl)⟩

/-- The reports for the component whose two subscriptions name the undeclared, untriggered
token `B`: none under `checkDestroy: false` and none under `alias: ["untilDestroyed"]`,
against the two descriptors of `B` under the default options; and for the component with
the call `a.subscribe()` and no `ngOnDestroy`, only `noTakeUntil` under
`checkDestroy: false`. -/
theorem checkDestroy_off_cases :
    (run (resolve [Sample.noDestroyConfig]) Sample.always State.init
        (Sample.uncoveredBody ++ [.classDeclarationExit Sample.component])).map (·.reports)
      = some [] ∧
    (run (resolve [Sample.aliasConfig]) Sample.always State.init
        (Sample.uncoveredBody ++ [.classDeclarationExit Sample.component])).map (·.reports)
      = some [] ∧
    (run (resolve []) Sample.always State.init
        (Sample.uncoveredBody ++ [.classDeclarationExit Sample.component])).map (·.reports)
      = some [⟨MessageId.notDeclared, 2, some "B", none⟩,
          ⟨MessageId.notCalled, 91, some "B", some "next"⟩] ∧
    (run (resolve [Sample.noDestroyConfig]) Sample.always State.init
        (Sample.plainBody ++ [.classDeclarationExit Sample.component])).map (·.reports)
      = some [⟨MessageId.noTakeUntil, 13, none, none⟩] := by
  decide

theorem visit_oracle (cfg : Options) (oracle₁ oracle₂ : Node → Bool) (entries : List Entry)
    (hC : ∀ e ∈ entries, e.Collected) (ev : Event) :
    ∃ entries' out₁ out₂,
      visit cfg oracle₁ ⟨entries, []⟩ ev = some ⟨entries', out₁⟩ ∧
      visit cfg oracle₂ ⟨entries, []⟩ ev = some ⟨entries', out₂⟩ ∧
      out₁.filter (fun f => decide (f.messageId = MessageId.noDestroy))
        = out₂.filter (fun f => decide (f.messageId = MessageId.noDestroy)) := by
  by_cases hex : ∃ node e tl, ev = Event.classDeclarationExit node ∧ entries = e :: tl ∧
      e.hasDecorator = true
  · obtain ⟨node, e, tl, rfl, rfl, hg⟩ := hex
    have heC := hC e (List.mem_cons_self _ _)
    obtain ⟨e₁, out₁, hout₁, hv₁⟩ := visit_classDeclarationExit_gated cfg oracle₁
      ⟨e :: tl, []⟩ node e tl rfl hg heC
    obtain ⟨e₂, out₂, hout₂, hv₂⟩ := visit_classDeclarationExit_gated cfg oracle₂
      ⟨e :: tl, []⟩ node e tl rfl hg heC
    obtain ⟨e₁', out₁', hout₁', hf₁⟩ := checkEntry_filter_noDestroy cfg oracle₁ e heC
    obtain ⟨e₂', out₂', hout₂', hf₂⟩ := checkEntry_filter_noDestroy cfg oracle₂ e heC
    rw [hout₁] at hout₁'
    rw [hout₂] at hout₂'
    cases hout₁'
    cases hout₂'
    refine ⟨tl, out₁, out₂, ?_, ?_, ?_⟩
    · simpa using hv₁
    · simpa using hv₂
    · rw [hf₁, hf₂]
  · have hun : ∀ node e tl, ev = Event.classDeclarationExit node →
        (⟨entries, []⟩ : State).entries = e :: tl → e.hasDecorator = false := by
      intro node e tl hev hent
      cases hg : e.hasDecorator with
      | false => rfl
      | true => exact absurd ⟨node, e, tl, hev, hent, hg⟩ hex
    obtain ⟨entries', hv₁⟩ := visit_reports_unchanged cfg oracle₁ ⟨entries, []⟩ ev hun
    have hsame : visit cfg oracle₂ ⟨entries, []⟩ ev = visit cfg oracle₁ ⟨entries, []⟩ ev := by
      cases ev with
      | classDeclarationExit node =>
        simp only [visit]
        cases entries with
        | nil => rfl
        | cons e tl =>
          have := hun node e tl rfl rfl
          simp [this]
      | classDeclaration node => rfl
      | subscribeCall node => rfl
      | propertyDefinition node => rfl
      | ngOnDestroy node => rfl
      | extendsSuperClass node => rfl
      | nextCall node => rfl
      | completeCall node => rfl
    exact ⟨entries', [], [], hv₁, by rw [hsame]; exact hv₁, rfl⟩

theorem run_oracle (cfg : Options) (oracle₁ oracle₂ : Node → Bool) (events : List Event) :
    ∀ entries : List Entry, (∀ e ∈ entries, e.Collected) →
      ∃ entries' out₁ out₂,
        run cfg oracle₁ ⟨entries, []⟩ events = some ⟨entries', out₁⟩ ∧
        run cfg oracle₂ ⟨entries, []⟩ events = some ⟨entries', out₂⟩ ∧
        out₁.filter (fun f => decide (f.messageId = MessageId.noDestroy))
          = out₂.filter (fun f => decide (f.messageId = MessageId.noDestroy)) := by
  induction events with
  | nil => intro entries _; exact ⟨entries, [], [], rfl, rfl, rfl⟩
  | cons ev rest ih =>
    intro entries hC
    obtain ⟨E, a₁, a₂, hv₁, hv₂, ha⟩ := visit_oracle cfg oracle₁ oracle₂ entries hC ev
    have hE : ∀ e ∈ E, e.Collected :=
      visit_collected cfg oracle₁ ⟨entries, []⟩ ⟨E, a₁⟩ ev hv₁ hC
    obtain ⟨E', b₁, b₂, hr₁, hr₂, hb⟩ := ih E hE
    refine ⟨E', a₁ ++ b₁, a₂ ++ b₂, ?_, ?_, ?_⟩
    · simp only [run, hv₁]
      rw [run_reports_frame cfg oracle₁ rest E a₁, hr₁]
      rfl
    · simp only [run, hv₂]
      rw [run_reports_frame cfg oracle₂ rest E a₂, hr₂]
      rfl
    · rw [List.filter_append, List.filter_append, ha, hb]

/-- C20. The `noDestroy` decision does not depend on the type oracle: for every
configuration, every two oracles and every traversal, both runs return, with the same
stack and the same list of `noDestroy` reports. In particular, with `checkDestroy` set, a
frame as collected by the visitors with no `ngOnDestroy`, no mark of a configured super
class and a single collected call whose receiver the oracle denies makes `checkEntry`
report exactly one descriptor, `noDestroy` at the class identifier, and no `noTakeUntil`. -/
theorem noDestroy_oracle_independent (cfg : Options) (oracle₁ oracle₂ : Node → Bool) :
    (∀ events : List Event, ∃ st₁ st₂,
      run cfg oracle₁ State.init events = some st₁ ∧
      run cfg oracle₂ State.init events = some st₂ ∧
      st₁.entries = st₂.entries ∧
      st₁.reports.filter (fun f => decide (f.messageId = MessageId.noDestroy))
        = st₂.reports.filter (fun f => decide (f.messageId = MessageId.noDestroy))) ∧
    (∀ (e : Entry) (c : CallExpr) (i : Nat) (object property : Node),
      e.Collected → cfg.checkDestroy = true → e.subscribeCallExpressions = [c] →
      c.callee = Node.MemberExpression i object property → oracle₁ object = false →
      e.ngOnDestroyDefinition = none → e.extendsSuperClassDeclaration = none →
      ∃ e', checkEntry cfg oracle₁ e []
        = some (e', [⟨MessageId.noDestroy, classNode e.classDeclaration, none, none⟩])) := by
  refine ⟨?_, ?_⟩
  · intro events
    obtain ⟨E, out₁, out₂, h₁, h₂, hf⟩ := run_oracle cfg oracle₁ oracle₂ events []
      (fun e he => absurd he (List.not_mem_nil e))
    exact ⟨⟨E, out₁⟩, ⟨E, out₂⟩, h₁, h₂, rfl, hf⟩
  · intro e c i object property hC hcd hcalls hcallee ho hng hx
    obtain ⟨ng, hngout, hout⟩ := checkEntry_eq cfg oracle₁ e [] hC.registered
    have hsub : e.subscribeCallExpressions ≠ [] := by rw [hcalls]; simp
    have hne := withNames_names_ne_nil cfg oracle₁ hC hsub
    have hlen : ¬ (e.withNames (e.subscribeCallExpressions.foldl (subscribeNames cfg oracle₁)
        e.subscribeCallExpressionsToNames)).subscribeCallExpressionsToNames.length = 0 := by
      simpa [List.length_eq_zero] using hne
    have hngval : ng = [⟨MessageId.noDestroy, classNode e.classDeclaration, none, none⟩] := by
      unfold checkNgOnDestroy at hngout
      simp only [hlen, if_false] at hngout
      have h1 : (e.withNames (e.subscribeCallExpressions.foldl (subscribeNames cfg oracle₁)
        e.subscribeCallExpressionsToNames)).ngOnDestroyDefinition = none := hng
      have h2 : (e.withNames (e.subscribeCallExpressions.foldl (subscribeNames cfg oracle₁)
        e.subscribeCallExpressionsToNames)).extendsSuperClassDeclaration = none := hx
      simp only [h1, h2] at hngout
      cases hngout
      rfl
    have hsubs : e.subscribeCallExpressions.flatMap (subscribeReports cfg oracle₁) = [] := by
      rw [hcalls]
      simp [subscribeReports, hcallee, ho]
    refine ⟨e.withNames (e.subscribeCallExpressions.foldl (subscribeNames cfg oracle₁)
      e.subscribeCallExpressionsToNames), ?_⟩
    rw [hout, hsubs, hngval]
    simp [hcd]

/-- The component with the single call `a.subscribe()` and no `ngOnDestroy`, under the
default options: with an oracle that denies the receiver only `noDestroy` is reported; with
one that affirms it, `noTakeUntil` and the same `noDestroy`. -/
theorem noDestroy_cases :
    (run (resolve []) Sample.never State.init
        (Sample.plainBody ++ [.classDeclarationExit Sample.component])).map (·.reports)
      = some [⟨MessageId.noDestroy, 2, none, none⟩] ∧
    (run (resolve []) Sample.always State.init
        (Sample.plainBody ++ [.classDeclarationExit Sample.component])).map (·.reports)
      = some [⟨MessageId.noTakeUntil, 13, none, none⟩,
          ⟨MessageId.noDestroy, 2, none, none⟩] := by
  decide

theorem run_append (cfg : Options) (oracle : Node → Bool) (a b : List Event) :
    ∀ st : State, run cfg oracle st (a ++ b)
      = (run cfg oracle st a).bind (fun s => run cfg oracle s b) := by
  induction a with
  | nil => intro st; simp [run]
  | cons ev rest ih =>
    intro st
    simp only [List.cons_append, run]
    cases visit cfg oracle st ev with
    | none => rfl
    | some s => exact ih s

/-- A visitor call that collects evidence touches the top frame only, and only if it is
gated; it returns and reports nothing. -/
theorem visit_evidence (cfg : Options) (oracle : Node → Bool) (ev : Event)
    (hev : ev.isClassEvent = false) (top : Entry) :
    ∃ top₁, (top.hasDecorator = false → top₁ = top) ∧
      ∀ (below : List Entry) (rs : List Descriptor),
        visit cfg oracle ⟨top :: below, rs⟩ ev = some ⟨top₁ :: below, rs⟩ := by
  have hon : ∀ f : Entry → Entry,
      ∃ top₁, (top.hasDecorator = false → top₁ = top) ∧
        ∀ (below : List Entry) (rs : List Descriptor),
          some (onEntry ⟨top :: below, rs⟩ f) = some (⟨top₁ :: below, rs⟩ : State) := by
    intro f
    cases hg : top.hasDecorator with
    | true =>
      refine ⟨f top, ?_, ?_⟩
      · intro h
        cases h
      · intro below rs
        simp [onEntry, hg]
    | false =>
      refine ⟨top, fun _ => rfl, ?_⟩
      intro below rs
      simp [onEntry, hg]
  cases ev with
  | classDeclaration node => cases hev
  | classDeclarationExit node => cases hev
  | extendsSuperClass node =>
    by_cases hs : cfg.superClass.length = 0
    · exact ⟨top, fun _ => rfl, fun below rs => by simp [visit, hs]⟩
    · obtain ⟨top₁, h1, h2⟩ := hon
        (fun entry => { entry with extendsSuperClassDeclaration := some node })
      exact ⟨top₁, h1, fun below rs => by simp only [visit, hs, if_false]; exact h2 below rs⟩
  | subscribeCall node => exact hon _
  | propertyDefinition node => exact hon _
  | ngOnDestroy node => exact hon _
  | nextCall node => exact hon _
  | completeCall node => exact hon _

/-- The exit of a class pops its frame and appends the reports of the class, which depend
on that frame alone. -/
theorem visit_exit (cfg : Options) (oracle : Node → Bool) (top : Entry) (hC : top.Collected) :
    ∃ findings, ∀ (below : List Entry) (rs : List Descriptor) (node : ClassDeclaration),
      visit cfg oracle ⟨top :: below, rs⟩ (Event.classDeclarationExit node)
        = some ⟨below, rs ++ findings⟩ := by
  cases hg : top.hasDecorator with
  | false => exact ⟨[], fun below rs node => by simp [visit, hg]⟩
  | true =>
    obtain ⟨e₀, out, hout, _⟩ := visit_classDeclarationExit_gated cfg oracle
      ⟨[top], []⟩ top.classDeclaration top [] rfl hg hC
    refine ⟨out, fun below rs node => ?_⟩
    obtain ⟨e', out', hout', hv⟩ := visit_classDeclarationExit_gated cfg oracle
      ⟨top :: below, rs⟩ node top below rfl hg hC
    rw [hout] at hout'
    cases hout'
    exact hv

theorem stripClasses_wellNested {body : List Event} (h : WellNested body) :
    ∀ (depth : Nat) (tail : List Event),
      stripClasses (depth + 1) (body ++ tail) = stripClasses (depth + 1) tail := by
  induction h with
  | nil => intro depth tail; rfl
  | evidence ev rest hev _ ih =>
    intro depth tail
    cases ev with
    | classDeclaration node => cases hev
    | classDeclarationExit node => cases hev
    | subscribeCall node => simp [stripClasses, ih]
    | propertyDefinition node => simp [stripClasses, ih]
    | ngOnDestroy node => simp [stripClasses, ih]
    | extendsSuperClass node => simp [stripClasses, ih]
    | nextCall node => simp [stripClasses, ih]
    | completeCall node => simp [stripClasses, ih]
  | cls node body rest _ _ ihb ihr =>
    intro depth tail
    have hassoc : (Event.classDeclaration node ::
          (body ++ Event.classDeclarationExit node :: rest)) ++ tail
        = Event.classDeclaration node ::
          (body ++ (Event.classDeclarationExit node :: (rest ++ tail))) := by
      simp
    rw [hassoc]
    simp only [stripClasses]
    rw [ihb (depth + 1)]
    simp only [stripClasses, Nat.add_sub_cancel]
    exact ihr depth tail

theorem stripClasses_evidence (ev : Event) (hev : ev.isClassEvent = false)
    (rest : List Event) : stripClasses 0 (ev :: rest) = ev :: stripClasses 0 rest := by
  cases ev with
  | classDeclaration node => cases hev
  | classDeclarationExit node => cases hev
  | subscribeCall node => simp [stripClasses]
  | propertyDefinition node => simp [stripClasses]
  | ngOnDestroy node => simp [stripClasses]
  | extendsSuperClass node => simp [stripClasses]
  | nextCall node => simp [stripClasses]
  | completeCall node => simp [stripClasses]

/-- A well-nested body leaves the frames below the top frame as they are; the top frame it
leaves is the one that the body without its nested classes leaves, and the reports it adds
(those of the nested classes) depend on the body and the top frame alone. -/
theorem run_wellNested (cfg : Options) (oracle : Node → Bool) {body : List Event}
    (h : WellNested body) :
    ∀ top : Entry, top.Collected → ∃ top' out, top'.Collected ∧
      (∀ (below : List Entry) (rs : List Descriptor),
        run cfg oracle ⟨top :: below, rs⟩ body = some ⟨top' :: below, rs ++ out⟩) ∧
      (∀ (below : List Entry) (rs : List Descriptor),
        run cfg oracle ⟨top :: below, rs⟩ (stripClasses 0 body)
          = some ⟨top' :: below, rs⟩) := by
  induction h with
  | nil =>
    intro top hC
    exact ⟨top, [], hC, fun below rs => by simp [run], fun below rs => by simp [run, stripClasses]⟩
  | evidence ev rest hev _ ih =>
    intro top hC
    obtain ⟨top₁, _, hv⟩ := visit_evidence cfg oracle ev hev top
    have hC₁ : top₁.Collected := by
      have := visit_collected cfg oracle ⟨[top], []⟩ ⟨[top₁], []⟩ ev (hv [] [])
        (fun e he => by
          have : e = top := by simpa using he
          subst this
          exact hC)
      exact this top₁ (List.mem_cons_self _ _)
    obtain ⟨top', out, hC', hrun, hstrip⟩ := ih top₁ hC₁
    refine ⟨top', out, hC', ?_, ?_⟩
    · intro below rs
      simp only [run, hv below rs]
      exact hrun below rs
    · intro below rs
      rw [stripClasses_evidence ev hev rest]
      simp only [run, hv below rs]
      exact hstrip below rs
  | cls node body rest hb _ ihb ihr =>
    intro top hC
    have hN : (⟨node, [], [], [], hasDecorator cfg node, [], [], none, none⟩ : Entry).Collected :=
      rfl
    obtain ⟨N', out₁, hCN', hrunN, _⟩ := ihb _ hN
    obtain ⟨findings, hexit⟩ := visit_exit cfg oracle N' hCN'
    obtain ⟨top', out₃, hC', hrun, hstrip⟩ := ihr top hC
    refine ⟨top', out₁ ++ findings ++ out₃, hC', ?_, ?_⟩
    · intro below rs
      have h1 : run cfg oracle ⟨top :: below, rs⟩
          (Event.classDeclaration node :: (body ++ Event.classDeclarationExit node :: rest))
          = run cfg oracle
              ⟨⟨node, [], [], [], hasDecorator cfg node, [], [], none, none⟩ :: top :: below, rs⟩
              (body ++ Event.classDeclarationExit node :: rest) := rfl
      have h2 : run cfg oracle ⟨N' :: top :: below, rs ++ out₁⟩
          (Event.classDeclarationExit node :: rest)
          = run cfg oracle ⟨top :: below, rs ++ out₁ ++ findings⟩ rest := by
        simp only [run, hexit (top :: below) (rs ++ out₁) node]
      rw [h1, run_append, hrunN (top :: below) rs, Option.some_bind, h2,
        hrun below (rs ++ out₁ ++ findings)]
      simp [List.append_assoc]
    · intro below rs
      have : stripClasses 0
          (Event.classDeclaration node :: (body ++ Event.classDeclarationExit node :: rest))
          = stripClasses 0 rest := by
        simp only [stripClasses]
        rw [stripClasses_wellNested hb 0]
        simp only [stripClasses, Nat.add_sub_cancel]
      rw [this]
      exact hstrip below rs

/-- C17. Scope isolation by the stack of frames, for well-nested traversals. (1) A visitor
call that collects evidence returns, reports nothing, leaves every frame below the top of
the stack as it is, and leaves the top frame as it is when that frame is not gated; on an
empty stack it changes nothing. (2) A class declaration with a well-nested body run from
any state returns, leaves the stack as it found it (empty, when the class is outermost)
and appends reports that do not depend on that state. (3) The reports of a class
declaration are those of its nested classes followed by its own findings, and its own
findings are the reports of the same class with every nested class declaration removed.
(4) The reports of two sibling classes are the reports of the first alone followed by the
reports of the second alone. -/
theorem scope_isolation (cfg : Options) (oracle : Node → Bool) :
    (∀ (ev : Event), ev.isClassEvent = false →
      (∀ rs, visit cfg oracle ⟨[], rs⟩ ev = some ⟨[], rs⟩) ∧
      ∀ top : Entry, ∃ top₁, (top.hasDecorator = false → top₁ = top) ∧
        ∀ (below : List Entry) (rs : List Descriptor),
          visit cfg oracle ⟨top :: below, rs⟩ ev = some ⟨top₁ :: below, rs⟩) ∧
    (∀ (node : ClassDeclaration) (body : List Event), WellNested body →
      ∃ out, ∀ st : State,
        run cfg oracle st
            (Event.classDeclaration node :: (body ++ [Event.classDeclarationExit node]))
          = some ⟨st.entries, st.reports ++ out⟩) ∧
    (∀ (node : ClassDeclaration) (body : List Event), WellNested body →
      ∃ nested findings,
        run cfg oracle State.init
            (Event.classDeclaration node :: (body ++ [Event.classDeclarationExit node]))
          = some ⟨[], nested ++ findings⟩ ∧
        run cfg oracle State.init
            (Event.classDeclaration node ::
              (stripClasses 0 body ++ [Event.classDeclarationExit node]))
          = some ⟨[], findings⟩) ∧
    (∀ (nodeA nodeB : ClassDeclaration) (bodyA bodyB : List Event),
      WellNested bodyA → WellNested bodyB →
      ∃ outA outB,
        run cfg oracle State.init
            (Event.classDeclaration nodeA :: (bodyA ++ [Event.classDeclarationExit nodeA]))
          = some ⟨[], outA⟩ ∧
        run cfg oracle State.init
            (Event.classDeclaration nodeB :: (bodyB ++ [Event.classDeclarationExit nodeB]))
          = some ⟨[], outB⟩ ∧
        run cfg oracle State.init
            ((Event.classDeclaration nodeA :: (bodyA ++ [Event.classDeclarationExit nodeA]))
              ++ (Event.classDeclaration nodeB ::
                (bodyB ++ [Event.classDeclarationExit nodeB])))
          = some ⟨[], outA ++ outB⟩) := by
  have hN : ∀ node : ClassDeclaration,
      (⟨node, [], [], [], hasDecorator cfg node, [], [], none, none⟩ : Entry).Collected :=
    fun _ => rfl
  have hcls : ∀ (node : ClassDeclaration) (body : List Event), WellNested body →
      ∃ nested findings,
        (∀ st : State, run cfg oracle st
            (Event.classDeclaration node :: (body ++ [Event.classDeclarationExit node]))
          = some ⟨st.entries, st.reports ++ (nested ++ findings)⟩) ∧
        (∀ st : State, run cfg oracle st
            (Event.classDeclaration node ::
              (stripClasses 0 body ++ [Event.classDeclarationExit node]))
          = some ⟨st.entries, st.reports ++ findings⟩) := by
    intro node body hb
    obtain ⟨N', nested, hCN', hrun, hstrip⟩ := run_wellNested cfg oracle hb _ (hN node)
    obtain ⟨findings, hexit⟩ := visit_exit cfg oracle N' hCN'
    refine ⟨nested, findings, ?_, ?_⟩
    · intro st
      simp only [run, visit]
      rw [run_append, hrun st.entries st.reports]
      simp only [Option.some_bind, run, hexit st.entries (st.reports ++ nested) node,
        List.append_assoc]
    · intro st
      simp only [run, visit]
      rw [run_append, hstrip st.entries st.reports]
      simp only [Option.some_bind, run, hexit st.entries st.reports node]
  refine ⟨?_, ?_, ?_, ?_⟩
  · intro ev hev
    refine ⟨?_, fun top => visit_evidence cfg oracle ev hev top⟩
    intro rs
    cases ev with
    | classDeclaration node => cases hev
    | classDeclarationExit node => cases hev
    | extendsSuperClass node => simp [visit, onEntry]
    | subscribeCall node => rfl
    | propertyDefinition node => rfl
    | ngOnDestroy node => rfl
    | nextCall node => rfl
    | completeCall node => rfl
  · intro node body hb
    obtain ⟨nested, findings, h, _⟩ := hcls node body hb
    exact ⟨nested ++ findings, h⟩
  · intro node body hb
    obtain ⟨nested, findings, h1, h2⟩ := hcls node body hb
    refine ⟨nested, findings, ?_, ?_⟩
    · simpa [State.init] using h1 State.init
    · simpa [State.init] using h2 State.init
  · intro nodeA nodeB bodyA bodyB hA hB
    obtain ⟨nA, fA, hA1, _⟩ := hcls nodeA bodyA hA
    obtain ⟨nB, fB, hB1, _⟩ := hcls nodeB bodyB hB
    refine ⟨nA ++ fA, nB ++ fB, ?_, ?_, ?_⟩
    · simpa [State.init] using hA1 State.init
    · simpa [State.init] using hB1 State.init
    · rw [run_append, hA1 State.init]
      simp only [Option.some_bind]
      rw [hB1]
      simp [State.init]
/-- Witness of C17: the component `C` whose body holds `a.subscribe()`, a nested component
`D` and an `ngOnDestroy` method. -/
theorem scope_isolation_witness :
    WellNested Sample.nestingBody ∧
    ∃ nested findings,
      run (resolve []) Sample.always State.init
          (Event.classDeclaration Sample.component ::
            (Sample.nestingBody ++ [Event.classDeclarationExit Sample.component]))
        = some ⟨[], nested ++ findings⟩ ∧
      run (resolve []) Sample.always State.init
          (Event.classDeclaration Sample.component ::
            (stripClasses 0 Sample.nestingBody ++
              [Event.classDeclarationExit Sample.component]))
        = some ⟨[], findings⟩ :=
  have h : WellNested Sample.nestingBody :=
    WellNested.evidence _ _ rfl
      (WellNested.cls Sample.componentD
        [.subscribeCall (Sample.pipedSubscribe 210 "b" [Sample.takeUntilThis 220 "B"]),
         .ngOnDestroy ⟨290, .Identifier 291 "ngOnDestroy"⟩]
        [.ngOnDestroy Sample.ngOnDestroy]
        (WellNested.evidence _ _ rfl (WellNested.evidence _ _ rfl WellNested.nil))
        (WellNested.evidence _ _ rfl WellNested.nil))
  ⟨h, (scope_isolation (resolve []) Sample.always).2.2.1 Sample.component Sample.nestingBody h⟩

/-- The reports for the component `C` of `nestingBody`: those of the nested component `D`
followed by the finding of `C`; without the nested class, the finding of `C` alone; and
for `C` followed by a sibling `D` with the same body as the nested one, the reports of `C`
alone followed by those of `D` alone. -/
theorem scope_isolation_cases :
    (run (resolve []) Sample.always State.init
        (Event.classDeclaration Sample.component ::
          (Sample.nestingBody ++ [Event.classDeclarationExit Sample.component]))).map
        (fun st => (st.entries.length, st.reports))
      = some (0, [⟨MessageId.notDeclared, 201, some "B", none⟩,
          ⟨MessageId.notCalled, 291, some "B", some "next"⟩,
          ⟨MessageId.noTakeUntil, 13, none, none⟩]) ∧
    (run (resolve []) Sample.always State.init
        (Event.classDeclaration Sample.component ::
          (stripClasses 0 Sample.nestingBody ++
            [Event.classDeclarationExit Sample.component]))).map
        (fun st => (st.entries.length, st.reports))
      = some (0, [⟨MessageId.noTakeUntil, 13, none, none⟩]) ∧
    (run (resolve []) Sample.always State.init
        ([Event.classDeclaration Sample.component,
            Event.subscribeCall (Sample.plainSubscribe 10 "a"),
            Event.ngOnDestroy Sample.ngOnDestroy,
            Event.classDeclarationExit Sample.component] ++
          [Event.classDeclaration Sample.componentD,
            Event.subscribeCall (Sample.pipedSubscribe 210 "b" [Sample.takeUntilThis 220 "B"]),
            Event.ngOnDestroy ⟨290, .Identifier 291 "ngOnDestroy"⟩,
            Event.classDeclarationExit Sample.componentD])).map
        (fun st => (st.entries.length, st.reports))
      = some (0, [⟨MessageId.noTakeUntil, 13, none, none⟩,
          ⟨MessageId.notDeclared, 201, some "B", none⟩,
          ⟨MessageId.notCalled, 291, some "B", some "next"⟩]) := by
  decide

end PreferTakeuntil

/-! ## The rule `prefer-async-pipe` -/

namespace PreferAsyncPipe

theorem reachesReport_iff (oracle : Tree → Bool) (componentMap : List Nat) (object : Tree)
    (parents : List Tree) :
    reachesReport oracle componentMap object parents = true ↔
      (oracle object = true ∧ ∃ parent ∈ parents, parent.nid ∈ componentMap) := by
  induction parents with
  | nil => simp [reachesReport]
  | cons p rest ih =>
    unfold reachesReport
    by_cases hp : componentMap.contains p.nid = true
    · by_cases ho : oracle object = true
      · have hmem : p.nid ∈ componentMap := by simpa using hp
        simp only [hp, ho, Bool.and_self, if_true, true_and, true_iff]
        exact ⟨p, List.mem_cons_self _ _, hmem⟩
      · simp [ho, ih]
    · have hmem : p.nid ∉ componentMap := by simpa using hp
      simp only [hp, Bool.false_and, Bool.false_eq_true, if_false, ih, List.mem_cons,
        exists_eq_or_imp]
      constructor
      · rintro ⟨ho, h⟩
        exact ⟨ho, Or.inr h⟩
      · rintro ⟨ho, h | h⟩
        · exact absurd h hmem
        · exact ⟨ho, h⟩

/-- C14, at the input where the rule departs from it: in
`@Other(a.subscribe()) @Component() class C {}` the member expression `a.subscribe` has the
property name `subscribe` and is the callee of a call, the oracle affirms its object, and
the class `C` among its parents carries a decorator whose callee is named `Component`; yet
the traversal reports nothing, because the member expression is visited before the
`Component` decorator adds the class to `componentMap`. With the two decorators in the
other order the member expression is reported, at its property. -/
theorem subscribe_before_component_unreported :
    (traverse Sample.always [] State.init Sample.subscribeBeforeComponent).reports = [] ∧
    (matchesSubscribe Sample.parentsBeforeComponent
        (.node 21 "MemberExpression" "callee" none
          [Sample.ident 22 "object" "a", Sample.ident 23 "property" "subscribe"])).isSome
      = true ∧
    Sample.isParentChain
      (.node 21 "MemberExpression" "callee" none
          [Sample.ident 22 "object" "a", Sample.ident 23 "property" "subscribe"]
        :: Sample.parentsBeforeComponent) = true ∧
    Sample.always (Sample.ident 22 "object" "a") = true ∧
    Sample.parentsBeforeComponent.any isComponentClass = true ∧
    (traverse Sample.always [] State.init Sample.subscribeAfterComponent).reports = [⟨23⟩] := by
  decide

/-- The visitor of a member expression with property name `subscribe` that is a direct
child of a call leaves `componentMap` as it is and makes at most one
report, at the property of the member expression; it makes that report if and only if the
oracle affirms the object and some node of the chain of parents is a key of
`componentMap`, that is, a class declaration whose `Component` decorator the traversal has
entered before; the visitor of such a decorator adds its parent to `componentMap` and
reports nothing. -/
theorem forbidden_iff_component_entered (oracle : Tree → Bool) (st : State)
    (object property : Tree) (parents : List Tree) :
    (onSubscribeMember oracle st object property parents).componentMap = st.componentMap ∧
    ((onSubscribeMember oracle st object property parents).reports
        = st.reports ++ [⟨property.nid⟩] ∨
      (onSubscribeMember oracle st object property parents).reports = st.reports) ∧
    ((onSubscribeMember oracle st object property parents).reports
        = st.reports ++ [⟨property.nid⟩] ↔
      (oracle object = true ∧ ∃ parent ∈ parents, parent.nid ∈ st.componentMap)) ∧
    (∀ classDeclaration : Tree,
      onComponentDecorator st classDeclaration
        = ⟨classDeclaration.nid :: st.componentMap, st.reports⟩) ∧
    (∀ t : Tree,
      (enter oracle parents st t).componentMap
        = match matchesComponentDecorator parents t with
          | some classDeclaration => classDeclaration.nid :: st.componentMap
          | none => st.componentMap) := by
  refine ⟨?_, ?_, ?_, fun _ => rfl, ?_⟩
  · unfold onSubscribeMember
    split <;> rfl
  · unfold onSubscribeMember
    split
    · exact Or.inl rfl
    · exact Or.inr rfl
  · rw [← reachesReport_iff]
    unfold onSubscribeMember
    split
    · next h => simp [h]
    · next h =>
      constructor
      · intro hcontra
        have := congrArg List.length hcontra
        simp at this
      · intro h'
        exact absurd h' h
  · intro t
    unfold enter
    cases matchesComponentDecorator parents t with
    | none =>
      simp only []
      cases matchesSubscribe parents t with
      | none => rfl
      | some op =>
        simp only [onSubscribeMember]
        split <;> rfl
    | some cd =>
      simp only []
      cases matchesSubscribe parents t with
      | none => rfl
      | some op =>
        simp only [onSubscribeMember, onComponentDecorator]
        split <;> rfl

/-- The reports for `@Component() class C { m = a.subscribe() }`: the property of the
member expression, once; and none when the oracle denies its object. -/
theorem subscribe_in_component_cases :
    (traverse Sample.always [] State.init Sample.subscribeInBody).reports = [⟨23⟩] ∧
    (traverse (fun _ => false) [] State.init Sample.subscribeInBody).reports = [] := by
  decide

end PreferAsyncPipe
